import Mathlib

/-!
Verification of the NUFS filesystem core (inode.c, directory.c, storage.c,
nufs.c) against its natural-language specification.

The embedding is byte-accurate for data blocks: each block is a total
function from byte offset to byte value, directory entries and the single
indirect table are decoded from and encoded to bytes exactly as the C code
overlays structs and `int` arrays on block memory.  The two bitmaps and the
inode table live in blocks 0 and 1 of the image; since the C code accesses
them only through `bitmap_get`/`bitmap_put` and `get_inode` (block numbers
handed to data paths are always ≥ 2, the allocator never returns 0 or 1),
they are modelled as separate fields of the state.

`helpers/blocks.c`, `helpers/bitmap.c` and `helpers/slist.c` are not among
the sources; the functions they export (`alloc_block`, `free_block`,
`bytes_to_blocks`, `slist_explode`) are modelled from the specification and
are marked as such in their doc comments.

Integer conventions: C `int`, `off_t` and `time_t` values are modelled as
`Int`; C `size_t` values as `Nat`.  The arithmetic relevant to the claims
stays far from 32/64-bit overflow, so no explicit wrap-around is applied.
Where the C code would have undefined behavior (indexing a block number
outside `[0, 256)`, taking `get_inode` of an out-of-range inode number
without a NULL check), the model gives the out-of-range index its own
harmless storage; such indices are unreachable in the well-formed states the
claims quantify over, and divergences are noted at the definitions involved.
-/

set_option maxHeartbeats 1000000
set_option maxRecDepth 8000

namespace Nufs

/-- Byte contents of one 4096-byte block: a total function from byte offset
to byte value.  Offsets outside `[0, 4096)` exist in the model but are never
read or written by well-formed executions. -/
abbrev Block := Nat → Nat

/-- One inode record, mirroring `inode_t` from `inode.h`: `refs`, `mode`,
`size`, `block`, `indirect` are C `int`s, `atime`/`mtime` are `time_t`,
`uid`/`gid` are numeric ids; all modelled as `Int`. -/
structure Inode where
  refs : Int
  mode : Int
  size : Int
  block : Int
  indirect : Int
  atime : Int
  mtime : Int
  uid : Int
  gid : Int
deriving DecidableEq, Repr

/-- The all-zero inode record (`memset(node, 0, sizeof(inode_t))`). -/
def zeroInode : Inode := ⟨0, 0, 0, 0, 0, 0, 0, 0, 0⟩

/-- The filesystem image state: the block bitmap and inode bitmap (stored
inside block 0 by the C code, but only ever accessed through the bitmap
helpers), the inode table (block 1, only ever accessed through `get_inode`),
and the data blocks.  Data-block indices are `Int` because the C code keeps
block numbers in `int` fields. -/
structure FS where
  bbm : Int → Bool
  ibm : Nat → Bool
  inodes : Nat → Inode
  blocks : Int → Block

/-- Overwrite one inode record in the inode table. -/
def FS.setInode (st : FS) (i : Nat) (nd : Inode) : FS :=
  { st with inodes := fun j => if j = i then nd else st.inodes j }

/-- Overwrite the contents of one data block. -/
def FS.setBlock (st : FS) (b : Int) (blk : Block) : FS :=
  { st with blocks := fun c => if c = b then blk else st.blocks c }

/-- Set one bit of the block bitmap (`bitmap_put` on the block bitmap). -/
def FS.setBbm (st : FS) (b : Int) (v : Bool) : FS :=
  { st with bbm := fun c => if c = b then v else st.bbm c }

/-- Set one bit of the inode bitmap (`bitmap_put` on the inode bitmap). -/
def FS.setIbm (st : FS) (i : Nat) (v : Bool) : FS :=
  { st with ibm := fun j => if j = i then v else st.ibm j }

/-- Write a run of bytes into a block at a byte offset (`memcpy` /
`memset` into block memory). -/
def blkWrite (blk : Block) (off : Nat) (data : List Nat) : Block :=
  fun j => if off ≤ j ∧ j < off + data.length then data.getD (j - off) 0 else blk j

/-- Read a run of `len` bytes from a block starting at `off`. -/
def blkRead (blk : Block) (off len : Nat) : List Nat :=
  (List.range len).map fun k => blk (off + k)

/-- The all-zero block (`memset(_, 0, BLOCK_SIZE)`). -/
def zeroBlock : Block := fun _ => 0

/-- Decode 4 little-endian bytes as a two's-complement 32-bit `int`. -/
def int32OfRaw (u : Nat) : Int :=
  if u < 2147483648 then (u : Int) else (u : Int) - 4294967296

/-- Encode an `int` value as its unsigned 32-bit residue. -/
def rawOfInt32 (v : Int) : Nat := (v % 4294967296).toNat

/-- The 4 little-endian bytes of an `int` value. -/
def int32Bytes (v : Int) : List Nat :=
  let u := rawOfInt32 v
  [u % 256, u / 256 % 256, u / 65536 % 256, u / 16777216 % 256]

/-- Read the `int` stored at byte offset `off` of a block (the C code reads
`((int *)block)[k]` with `off = 4 * k`). -/
def readInt32 (blk : Block) (off : Nat) : Int :=
  int32OfRaw (blk off + 256 * blk (off + 1) + 65536 * blk (off + 2) +
    16777216 * blk (off + 3))

/-- Store an `int` at byte offset `off` of a block. -/
def writeInt32 (blk : Block) (off : Nat) (v : Int) : Block :=
  blkWrite blk off (int32Bytes v)

/-- Modelled from the spec: `bytes_to_blocks` lives in the missing
`helpers/blocks.c`; §4.2 defines it as `ceil(n / 4096)` with
`bytes_to_blocks(0) = 0`.  Non-positive arguments map to 0.  The operands
are non-negative in the `else` branch, so `Nat` division is exact
C division here. -/
def bytesToBlocks (n : Int) : Int :=
  if n ≤ 0 then 0 else (((n + 4095).toNat / 4096 : Nat) : Int)

/-- Modelled from the spec: `alloc_block` (missing `helpers/blocks.c`,
§4.2) scans the block bitmap linearly for the lowest clear bit within
`[2, 256)`, sets it, zeros the block, and returns its index; returns `-1`
when full. -/
def allocBlock (st : FS) : FS × Int :=
  match (List.range 256).find? (fun b : Nat => decide (2 ≤ b) && !st.bbm (b : Int)) with
  | none => (st, -1)
  | some b => (((st.setBbm (b : Int) true).setBlock (b : Int) zeroBlock), ((b : Nat) : Int))

/-- Modelled from the spec: `free_block` (missing `helpers/blocks.c`, §4.2)
clears bit `i`; it does not re-zero the block. -/
def freeBlock (st : FS) (b : Int) : FS := st.setBbm b false

/-! ## inode.c -/

/-- `INODE_COUNT` from `inode.h`. -/
def INODE_COUNT : Nat := 128

/-- `alloc_inode` from `inode.c`: find the first clear bit of the inode
bitmap, set it, zero the record, then set `refs = 1`, owner ids and
timestamps.  The process uid/gid (`getuid()`/`getgid()`) are fixed to 0 in
the model; no claim mentions them. -/
def allocInode (st : FS) (now : Int) : FS × Int :=
  match (List.range INODE_COUNT).find? (fun i => !st.ibm i) with
  | none => (st, -1)
  | some ii =>
    let st := st.setIbm ii true
    let nd : Inode :=
      { zeroInode with refs := 1, uid := 0, gid := 0, atime := now, mtime := now }
    (st.setInode ii nd, (ii : Int))

/-- The bounded scan of `free_inode` over the indirect table: free each
nonzero entry `ii` with `ii < num_indirect` and `ii < 4096 / sizeof(int)`.
The table is snapshotted once (the C code reads it through a pointer whose
contents no `free_block` call modifies). -/
def freeIndirectEntries (st : FS) (tbl : Block) (numIndirect : Int) : FS :=
  (List.range 1024).foldl
    (fun st (ii : Nat) =>
      if (ii : Int) < numIndirect then
        let e := readInt32 tbl (4 * ii)
        if e ≠ 0 then freeBlock st e else st
      else st)
    st

/-- The indirect-block phase of `free_inode`: free the bounded run of
nonzero table entries, then the indirect block itself.  (`free_block` and
`freeIndirectEntries` change only the bitmap, so reading the node and the
table from `st` matches the C pointer snapshot.) -/
def freeInodeIndirect (st : FS) (i : Nat) : FS :=
  if (st.inodes i).indirect ≠ 0 then
    freeBlock
      (freeIndirectEntries st (st.blocks (st.inodes i).indirect)
        (bytesToBlocks (st.inodes i).size - 1))
      (st.inodes i).indirect
  else st

/-- The direct-block phase of `free_inode`. -/
def freeInodeDirect (st : FS) (i : Nat) : FS :=
  if (st.inodes i).block ≠ 0 then freeBlock st (st.inodes i).block else st

/-- `free_inode` from `inode.c`: free the direct block if nonzero, free the
indirect entries and then the indirect block if nonzero, zero the record,
clear the inode bitmap bit.  Out-of-range `inum` returns unchanged. -/
def freeInode (st : FS) (inum : Int) : FS :=
  if inum < 0 ∨ (INODE_COUNT : Int) ≤ inum then st
  else
    ((freeInodeIndirect (freeInodeDirect st inum.toNat) inum.toNat).setInode inum.toNat
      zeroInode).setIbm inum.toNat false

/-- `inode_get_bnum` from `inode.c`: logical block 0 is the direct pointer;
blocks `k ≥ 1` are entry `k - 1` of the indirect table; `-1` for negative
`k`, for `k ≥ 1` with no indirect block, and for `k - 1` beyond the 1024
table entries.  The inode is given by table index (every `inode_t *` the C
callers pass points into the table). -/
def inodeGetBnum (st : FS) (i : Nat) (fileBnum : Int) : Int :=
  let node := st.inodes i
  if fileBnum < 0 then -1
  else if fileBnum = 0 then node.block
  else if node.indirect = 0 then -1
  else if 1024 ≤ fileBnum - 1 then -1
  else readInt32 (st.blocks node.indirect) (4 * (fileBnum - 1)).toNat

/-- The tail of a `grow_inode` iteration with `ii ≥ 1` whose entry state
`st` already carries the freshly allocated (still unchecked) indirect
pointer: on `alloc_block` failure the fresh data block is freed and the
loop exits with `-1` (leaving `node->indirect == -1`, as the C code does);
otherwise the indirect block is zeroed and the data block is stored into
table slot `ii - 1`.  `Sum.inl` carries the state of the early exit. -/
def growPlaceFresh (st : FS) (i : Nat) (ii newBlock : Int) : FS ⊕ FS :=
  if (st.inodes i).indirect < 0 then Sum.inl (freeBlock st newBlock)
  else
    Sum.inr ((st.setBlock (st.inodes i).indirect zeroBlock).setBlock (st.inodes i).indirect
      (writeInt32 ((st.setBlock (st.inodes i).indirect zeroBlock).blocks (st.inodes i).indirect)
        ((4 * (ii - 1)).toNat) newBlock))

/-- The attach phase of one `grow_inode` iteration, after the fresh data
block `newBlock` has been allocated and zeroed: index 0 goes to the direct
pointer; index `ii ≥ 1` goes to slot `ii - 1` of the indirect table,
allocating that table on first use (the C code stores the `alloc_block`
result into `node->indirect` before checking it). -/
def growAttach (st : FS) (i : Nat) (ii newBlock : Int) : FS ⊕ FS :=
  if ii = 0 then Sum.inr (st.setInode i { st.inodes i with block := newBlock })
  else if (st.inodes i).indirect = 0 then
    growPlaceFresh ((allocBlock st).fst.setInode i
      { (allocBlock st).fst.inodes i with indirect := (allocBlock st).snd }) i ii newBlock
  else
    Sum.inr (st.setBlock (st.inodes i).indirect
      (writeInt32 (st.blocks (st.inodes i).indirect) ((4 * (ii - 1)).toNat) newBlock))

/-- One full iteration of the `grow_inode` loop at logical index `ii`:
allocate a data block (early `-1` exit when full), zero it, attach it. -/
def growStep (st : FS) (i : Nat) (ii : Int) : FS ⊕ FS :=
  if (allocBlock st).snd < 0 then Sum.inl (allocBlock st).fst
  else
    growAttach ((allocBlock st).fst.setBlock (allocBlock st).snd zeroBlock) i ii
      (allocBlock st).snd

/-- The allocation loop of `grow_inode`: run `growStep` for each logical
index from `current` up to `target - 1`.  `fuel` is the exact iteration
count `target - ii`. -/
def growLoop (st : FS) (i : Nat) (ii target : Int) : Nat → FS × Int
  | 0 => (st, 0)
  | fuel + 1 =>
    if ii < target then
      match growStep st i ii with
      | Sum.inl stf => (stf, -1)
      | Sum.inr stn => growLoop stn i (ii + 1) target fuel
    else (st, 0)

/-- `grow_inode` from `inode.c`: compute current and target block counts
with `bytes_to_blocks` (the C special cases for size 0 are identities under
`bytesToBlocks`), run the allocation loop, and on success commit `size` and
`mtime`.  On failure the partial growth is not rolled back. -/
def growInode (st : FS) (now : Int) (i : Nat) (size : Int) : FS × Int :=
  let node := st.inodes i
  let currentBlocks := bytesToBlocks node.size
  let targetBlocks := bytesToBlocks size
  let p := growLoop st i currentBlocks targetBlocks (targetBlocks - currentBlocks).toNat
  if p.snd < 0 then (p.fst, -1)
  else
    let st := p.fst
    let node := st.inodes i
    (st.setInode i { node with size := size, mtime := now }, 0)

/-- One iteration of the `shrink_inode` loop at logical index `ii`: free
the direct block (clearing the pointer) at index 0; otherwise free the
nonzero indirect-table entry at slot `ii - 1` and zero the slot
(`free_block` does not change block contents, so the table is read from
the unmodified state). -/
def shrinkStep (st : FS) (i : Nat) (ii : Int) : FS :=
  if ii = 0 then
    if (st.inodes i).block ≠ 0 then
      (freeBlock st (st.inodes i).block).setInode i { st.inodes i with block := 0 }
    else st
  else
    if (st.inodes i).indirect ≠ 0 then
      if readInt32 (st.blocks (st.inodes i).indirect) ((4 * (ii - 1)).toNat) ≠ 0 then
        (freeBlock st (readInt32 (st.blocks (st.inodes i).indirect)
            ((4 * (ii - 1)).toNat))).setBlock (st.inodes i).indirect
          (writeInt32 (st.blocks (st.inodes i).indirect) ((4 * (ii - 1)).toNat) 0)
      else st
    else st

/-- The freeing loop of `shrink_inode`: for `ii` from `current - 1` down to
`target`, run `shrinkStep`.  `fuel` is the exact iteration count
`ii + 1 - target`. -/
def shrinkLoop (st : FS) (i : Nat) (ii target : Int) : Nat → FS
  | 0 => st
  | fuel + 1 =>
    if target ≤ ii then shrinkLoop (shrinkStep st i ii) i (ii - 1) target fuel
    else st

/-- `shrink_inode` from `inode.c`: free blocks from the highest logical
index down to the target count, free the indirect block once the target is
at most one block, then commit `size` and `mtime`.  Always returns 0. -/
def shrinkInode (st : FS) (now : Int) (i : Nat) (size : Int) : FS × Int :=
  let node := st.inodes i
  let currentBlocks := bytesToBlocks node.size
  let targetBlocks := bytesToBlocks size
  let st := shrinkLoop st i (currentBlocks - 1) targetBlocks
    (currentBlocks - targetBlocks).toNat
  let node := st.inodes i
  let st :=
    if targetBlocks ≤ 1 ∧ node.indirect ≠ 0 then
      (freeBlock st node.indirect).setInode i { node with indirect := 0 }
    else st
  let node := st.inodes i
  (st.setInode i { node with size := size, mtime := now }, 0)

/-- `inode_init` from `inode.c`: reserve block 1 for the inode table. -/
def inodeInit (st : FS) : FS := st.setBbm 1 true

/-! ## directory.c

Names and paths are byte lists (C strings without their terminating NUL;
the byte of `/` is 47).  Loop indices are `Nat`: every C loop in
`directory.c` counts an `int` up from 0, so the negative-index branch of
`directory_get_entry` is unreachable from the loops and is not modelled. -/

/-- `DIR_NAME_LENGTH` from `directory.h`. -/
def DIR_NAME_LENGTH : Nat := 48

/-- `directory_get_entry` from `directory.c`: locate entry `index` as a
(block number, byte offset) pair, `none` when `inode_get_bnum` yields a
block number `≤ 0` (the C code returns NULL). -/
def dirEntryLoc (st : FS) (di : Nat) (index : Nat) : Option (Int × Nat) :=
  let blockIndex := index / 64
  let entryOffset := index % 64
  let bnum := inodeGetBnum st di (blockIndex : Int)
  if bnum ≤ 0 then none else some (bnum, entryOffset * 64)

/-- `directory_max_entries` from `directory.c` (the C special case for
size 0 is an identity under `bytesToBlocks`). -/
def dirMaxEntries (st : FS) (di : Nat) : Nat :=
  (bytesToBlocks (st.inodes di).size).toNat * 64

/-- The C string stored in the 48-byte name field of the entry at byte
offset `off`: bytes up to the first NUL.  (If all 48 bytes are nonzero the
C `strcmp` would run past the field; stored names are always
NUL-terminated, so the model truncates at 48.) -/
def entryNameAt (st : FS) (b : Int) (off : Nat) : List Nat :=
  (blkRead (st.blocks b) off DIR_NAME_LENGTH).takeWhile (fun c => c ≠ 0)

/-- The inode number field (bytes 48..51) of the entry at byte offset
`off` of block `b`. -/
def entryInumAt (st : FS) (b : Int) (off : Nat) : Int :=
  readInt32 (st.blocks b) (off + 48)

/-- The scan of `directory_lookup`: first entry with `inum != 0` and a
matching name wins; a NULL entry location breaks the loop.  `fuel` is the
number of entries left to scan. -/
def dirLookupLoop (st : FS) (di : Nat) (name : List Nat) : Nat → Nat → Int
  | _, 0 => -1
  | ii, fuel + 1 =>
    match dirEntryLoc st di ii with
    | none => -1
    | some (b, o) =>
      if entryInumAt st b o ≠ 0 ∧ entryNameAt st b o = name then entryInumAt st b o
      else dirLookupLoop st di name (ii + 1) fuel

/-- `directory_lookup` from `directory.c`. -/
def directoryLookup (st : FS) (di : Nat) (name : List Nat) : Int :=
  if name.length = 0 then -1
  else dirLookupLoop st di name 0 (dirMaxEntries st di)

/-- The 48 name-field bytes `directory_put` stores: `strncpy` of the name
into 47 bytes with zero fill, then a forced NUL at byte 47. -/
def putEntryBytes (name : List Nat) : List Nat :=
  name.take 47 ++ List.replicate (DIR_NAME_LENGTH - min name.length 47) 0

/-- Write a (name, inum) pair into the entry at byte offset `off` of block
`b`: name field bytes 0..47 and inum bytes 48..51; the 12 reserved bytes
are not touched (as in the C code). -/
def writeEntry (st : FS) (b : Int) (off : Nat) (name : List Nat) (inum : Int) : FS :=
  st.setBlock b (writeInt32 (blkWrite (st.blocks b) off (putEntryBytes name)) (off + 48) inum)

/-- The empty-slot scan of `directory_put`: first entry with `inum == 0`
or a NUL first name byte; a NULL entry location breaks the loop. -/
def dirFindEmptyLoop (st : FS) (di : Nat) : Nat → Nat → Option (Int × Nat)
  | _, 0 => none
  | ii, fuel + 1 =>
    match dirEntryLoc st di ii with
    | none => none
    | some (b, o) =>
      if entryInumAt st b o = 0 ∨ (st.blocks b) o = 0 then some (b, o)
      else dirFindEmptyLoop st di (ii + 1) fuel

/-- `directory_put` from `directory.c`: reject empty or over-long names,
write into the first empty slot, otherwise grow the directory by one block
and write at the first slot of the new space. -/
def directoryPut (st : FS) (now : Int) (di : Nat) (name : List Nat) (inum : Int) :
    FS × Int :=
  if name.length = 0 then (st, -1)
  else if DIR_NAME_LENGTH ≤ name.length then (st, -1)
  else
    let maxEntries := dirMaxEntries st di
    match dirFindEmptyLoop st di 0 maxEntries with
    | some (b, o) => (writeEntry st b o name inum, 0)
    | none =>
      let oldSize := (st.inodes di).size
      let p := growInode st now di (oldSize + 4096)
      if p.snd < 0 then (p.fst, -1)
      else
        let st := p.fst
        match dirEntryLoc st di maxEntries with
        | none => (st, -1)
        | some (b, o) => (writeEntry st b o name inum, 0)

/-- The scan of `directory_delete`: on the first matching non-empty entry,
zero the entire 64-byte entry and succeed. -/
def dirDeleteLoop (st : FS) (di : Nat) (name : List Nat) : Nat → Nat → FS × Int
  | _, 0 => (st, -1)
  | ii, fuel + 1 =>
    match dirEntryLoc st di ii with
    | none => (st, -1)
    | some (b, o) =>
      if entryInumAt st b o ≠ 0 ∧ entryNameAt st b o = name then
        (st.setBlock b (blkWrite (st.blocks b) o (List.replicate 64 0)), 0)
      else dirDeleteLoop st di name (ii + 1) fuel

/-- `directory_delete` from `directory.c`. -/
def directoryDelete (st : FS) (di : Nat) (name : List Nat) : FS × Int :=
  if name.length = 0 then (st, -1)
  else dirDeleteLoop st di name 0 (dirMaxEntries st di)

/-- The collection loop of `directory_list`: cons each non-empty entry
name (so the result is in reverse scan order, as with `slist_cons`). -/
def dirListLoop (st : FS) (di : Nat) : Nat → Nat → List (List Nat) → List (List Nat)
  | _, 0, acc => acc
  | ii, fuel + 1, acc =>
    match dirEntryLoc st di ii with
    | none => acc
    | some (b, o) =>
      let acc :=
        if entryInumAt st b o ≠ 0 ∧ (st.blocks b) o ≠ 0 then entryNameAt st b o :: acc
        else acc
      dirListLoop st di (ii + 1) fuel acc

/-- `get_basename` from `directory.c`: the substring after the final `/`,
or the whole path when it has none. -/
def getBasename (p : List Nat) : List Nat :=
  (p.reverse.takeWhile (fun c => c ≠ 47)).reverse

/-- Modelled from the spec: `slist_explode` lives in the missing
`helpers/slist.c`; §4.5 splits the path tail on `/`, and the walk in
`tree_lookup` skips the empty components this produces for doubled or
trailing slashes.  Splitting at every 47 byte, keeping empty pieces. -/
def splitSlash : List Nat → List (List Nat)
  | [] => [[]]
  | c :: rest =>
    if c = 47 then [] :: splitSlash rest
    else
      match splitSlash rest with
      | [] => [[c]]
      | h :: t => (c :: h) :: t

/-- The directory type bit test `(mode & 0040000) != 0`, on the unsigned
32-bit image of the mode. -/
def modeIsDir (m : Int) : Bool := (m.emod 4294967296).toNat.testBit 14

/-- The component walk of `tree_lookup`: skip empty components, require a
directory mode bit at every step, follow `directory_lookup`.  A current
inode outside `[0, 128)` is `get_inode`'s NULL. -/
def treeWalk (st : FS) : List (List Nat) → Int → Int
  | [], cur => cur
  | comp :: rest, cur =>
    if comp.length = 0 then treeWalk st rest cur
    else if cur < 0 ∨ (INODE_COUNT : Int) ≤ cur then -1
    else if !modeIsDir (st.inodes cur.toNat).mode then -1
    else
      let next := directoryLookup st cur.toNat comp
      if next < 0 then -1
      else treeWalk st rest next

/-- `tree_lookup` from `directory.c`. -/
def treeLookup (st : FS) (path : List Nat) : Int :=
  match path with
  | [] => -1
  | c :: rest =>
    if c ≠ 47 then -1
    else if rest = [] then 0
    else treeWalk st (splitSlash rest) 0

/-- `tree_lookup_parent` from `directory.c`: root is its own parent; a
last slash at position 0 means the parent is root; otherwise look up the
path carved at the final slash. -/
def treeLookupParent (st : FS) (path : List Nat) : Int :=
  match path with
  | [] => -1
  | c :: rest =>
    if c ≠ 47 then -1
    else if rest = [] then 0
    else
      let p := c :: rest
      let idx := p.length - (getBasename p).length - 1
      if idx = 0 then 0
      else treeLookup st (p.take idx)

/-- `directory_list` from `directory.c`: empty list for a missing path or
a non-directory (the C code returns NULL, and an empty `slist` is NULL). -/
def directoryList (st : FS) (path : List Nat) : List (List Nat) :=
  let dirInum := treeLookup st path
  if dirInum < 0 ∨ (INODE_COUNT : Int) ≤ dirInum then []
  else
    let di := dirInum.toNat
    if !modeIsDir (st.inodes di).mode then []
    else dirListLoop st di 0 (dirMaxEntries st di) []

/-- `directory_init` from `directory.c`: if inode 0 is not yet allocated,
allocate it (a fresh bitmap yields 0), set mode `040755`, and give the root
its first block via `grow_inode`. -/
def directoryInit (st : FS) (now : Int) : FS :=
  if st.ibm 0 then st
  else
    let st := (allocInode st now).fst
    let st := st.setInode 0 { st.inodes 0 with mode := 0o40755, size := 0 }
    (growInode st now 0 4096).fst

/-! ## storage.c

Error codes: `-ENOENT = -2`, `-EEXIST = -17`, `-ENOSPC = -28`,
`-ENOTEMPTY = -39`. -/

/-- A fresh all-zero 1 MB image. -/
def freshFS : FS := ⟨fun _ => false, fun _ => false, fun _ => zeroInode, fun _ => zeroBlock⟩

/-- Modelled from the spec: `blocks_init` (missing `helpers/blocks.c`)
maps the image and reserves block 0 for the bitmaps (§3: bit 0 pre-set by
the bitmap's residency convention). -/
def blocksInit (st : FS) : FS := st.setBbm 0 true

/-- `storage_init` from `storage.c` on a fresh image: block layer, inode
table, root directory. -/
def storageInit (now : Int) : FS := directoryInit (inodeInit (blocksInit freshFS)) now

/-- `storage_stat` from `storage.c` never mutates the filesystem; only its
return code matters to the operation surface.  The `st_*` out-fields are
straight copies of inode fields and are not separately modelled. -/
def storageStat (st : FS) (path : List Nat) : Int :=
  let inum := treeLookup st path
  if inum < 0 then -2
  else if (INODE_COUNT : Int) ≤ inum then -2
  else 0

/-- The copy loop of `storage_read`, accumulating the bytes `memcpy`d to
the caller's buffer.  A block lookup `≤ 0` breaks the loop.  `fuel` bounds
the iterations; each iteration copies at least one byte, so a fuel equal to
the remaining byte count is exact.  A negative block offset (possible only
for negative file offsets, undefined behavior in C) is clamped to 0. -/
def readLoop (st : FS) (i : Nat) (offset : Int) (target : Nat) :
    Nat → Nat → List Nat → Nat × List Nat
  | bytesRead, 0, acc => (bytesRead, acc)
  | bytesRead, fuel + 1, acc =>
    if bytesRead < target then
      let fileBlock := (offset + (bytesRead : Int)).tdiv 4096
      let blockOffset := (offset + (bytesRead : Int)).tmod 4096
      let bnum := inodeGetBnum st i fileBlock
      if bnum ≤ 0 then (bytesRead, acc)
      else
        let toRead := min (4096 - blockOffset).toNat (target - bytesRead)
        readLoop st i offset target (bytesRead + toRead) fuel
          (acc ++ blkRead (st.blocks bnum) blockOffset.toNat toRead)
    else (bytesRead, acc)

/-- `storage_read` from `storage.c`: resolve, short-read at EOF, copy
across blocks, update `atime`.  Returns the new state, the byte count, and
the bytes copied out. -/
def storageRead (st : FS) (now : Int) (path : List Nat) (size : Nat) (offset : Int) :
    FS × Int × List Nat :=
  let inum := treeLookup st path
  if inum < 0 then (st, -2, [])
  else if (INODE_COUNT : Int) ≤ inum then (st, -2, [])
  else
    let i := inum.toNat
    let node := st.inodes i
    if node.size ≤ offset then (st, 0, [])
    else
      let target := if node.size < offset + (size : Int) then (node.size - offset).toNat else size
      let r := readLoop st i offset target 0 target []
      ((st.setInode i { st.inodes i with atime := now }), ((r.fst : Int), r.snd))

/-- The copy loop of `storage_write`: write successive chunks of `buf`
into the blocks `inode_get_bnum` yields; a block lookup `≤ 0` breaks. -/
def writeLoop (i : Nat) (offset : Int) (buf : List Nat) (target : Nat) :
    FS → Nat → Nat → FS × Nat
  | st, bytesWritten, 0 => (st, bytesWritten)
  | st, bytesWritten, fuel + 1 =>
    if bytesWritten < target then
      let fileBlock := (offset + (bytesWritten : Int)).tdiv 4096
      let blockOffset := (offset + (bytesWritten : Int)).tmod 4096
      let bnum := inodeGetBnum st i fileBlock
      if bnum ≤ 0 then (st, bytesWritten)
      else
        let toWrite := min (4096 - blockOffset).toNat (target - bytesWritten)
        let st := st.setBlock bnum
          (blkWrite (st.blocks bnum) blockOffset.toNat ((buf.drop bytesWritten).take toWrite))
        writeLoop i offset buf target st (bytesWritten + toWrite) fuel
    else (st, bytesWritten)

/-- `storage_write` from `storage.c`: resolve, grow when the write extends
past the current size (`-ENOSPC` on failure, partial growth kept), copy
across blocks, update `mtime`, return the byte count written. -/
def storageWrite (st : FS) (now : Int) (path : List Nat) (buf : List Nat) (size : Nat)
    (offset : Int) : FS × Int :=
  let inum := treeLookup st path
  if inum < 0 then (st, -2)
  else if (INODE_COUNT : Int) ≤ inum then (st, -2)
  else
    let i := inum.toNat
    let node := st.inodes i
    let endPos := offset + (size : Int)
    let g := if node.size < endPos then growInode st now i endPos else (st, 0)
    if g.snd < 0 then (g.fst, -28)
    else
      let st := g.fst
      let q := writeLoop i offset buf size st 0 size
      let st := q.fst
      ((st.setInode i { st.inodes i with mtime := now }), (q.snd : Int))

/-- `storage_truncate` from `storage.c`: grow, shrink, or no-op. -/
def storageTruncate (st : FS) (now : Int) (path : List Nat) (size : Int) : FS × Int :=
  let inum := treeLookup st path
  if inum < 0 then (st, -2)
  else if (INODE_COUNT : Int) ≤ inum then (st, -2)
  else
    let i := inum.toNat
    let node := st.inodes i
    if node.size < size then growInode st now i size
    else if size < node.size then shrinkInode st now i size
    else (st, 0)

/-- `storage_mknod` from `storage.c`: refuse existing paths, resolve the
parent, allocate an inode, store the mode, pre-grow a directory by one
block (result ignored, as in the C code), insert the parent entry, and
free the inode again when the insert fails. -/
def storageMknod (st : FS) (now : Int) (path : List Nat) (mode : Int) : FS × Int :=
  if 0 ≤ treeLookup st path then (st, -17)
  else
    let parentInum := treeLookupParent st path
    if parentInum < 0 then (st, -2)
    else if (INODE_COUNT : Int) ≤ parentInum then (st, -2)
    else
      let p := allocInode st now
      if p.snd < 0 then (p.fst, -28)
      else
        let st := p.fst
        let newInum := p.snd
        let st := st.setInode newInum.toNat
          { st.inodes newInum.toNat with mode := mode, size := 0 }
        let st := if modeIsDir mode then (growInode st now newInum.toNat 4096).fst else st
        let q := directoryPut st now parentInum.toNat (getBasename path) newInum
        if q.snd < 0 then (freeInode q.fst newInum, -28)
        else (q.fst, 0)

/-- `storage_unlink` from `storage.c`: resolve inode and parent, delete
the parent entry, decrement `refs`, free the inode at zero.  The C code
takes `get_inode(inum)` without a NULL check before `refs--`; an `inum`
at or above 128 (never produced in well-formed states) hits the model's
phantom inode storage where the C code has undefined behavior. -/
def storageUnlink (st : FS) (path : List Nat) : FS × Int :=
  let inum := treeLookup st path
  if inum < 0 then (st, -2)
  else
    let parentInum := treeLookupParent st path
    if parentInum < 0 then (st, -2)
    else if (INODE_COUNT : Int) ≤ parentInum then (st, -2)
    else
      let q := directoryDelete st parentInum.toNat (getBasename path)
      if q.snd < 0 then (q.fst, -2)
      else
        let st := q.fst
        let i := inum.toNat
        let st := st.setInode i { st.inodes i with refs := (st.inodes i).refs - 1 }
        let st := if (st.inodes i).refs ≤ 0 then freeInode st inum else st
        (st, 0)

/-- `storage_link` from `storage.c`: resolve the source, reject an
existing target, insert the target entry, increment `refs` (again through
an unchecked `get_inode`). -/
def storageLink (st : FS) (now : Int) (fromPath toPath : List Nat) : FS × Int :=
  let fromInum := treeLookup st fromPath
  if fromInum < 0 then (st, -2)
  else if 0 ≤ treeLookup st toPath then (st, -17)
  else
    let parentInum := treeLookupParent st toPath
    if parentInum < 0 then (st, -2)
    else if (INODE_COUNT : Int) ≤ parentInum then (st, -2)
    else
      let q := directoryPut st now parentInum.toNat (getBasename toPath) fromInum
      if q.snd < 0 then (q.fst, -28)
      else
        let st := q.fst
        let i := fromInum.toNat
        (st.setInode i { st.inodes i with refs := (st.inodes i).refs + 1 }, 0)

/-- `storage_rename` from `storage.c`: unlink an existing target (return
value ignored), resolve both parents, insert the target entry, delete the
source entry (return value ignored). -/
def storageRename (st : FS) (now : Int) (fromPath toPath : List Nat) : FS × Int :=
  let fromInum := treeLookup st fromPath
  if fromInum < 0 then (st, -2)
  else
    let st := if 0 ≤ treeLookup st toPath then (storageUnlink st toPath).fst else st
    let fromParent := treeLookupParent st fromPath
    let toParent := treeLookupParent st toPath
    if fromParent < 0 ∨ toParent < 0 then (st, -2)
    else if (INODE_COUNT : Int) ≤ fromParent ∨ (INODE_COUNT : Int) ≤ toParent then (st, -2)
    else
      let q := directoryPut st now toParent.toNat (getBasename toPath) fromInum
      if q.snd < 0 then (q.fst, -28)
      else ((directoryDelete q.fst fromParent.toNat (getBasename fromPath)).fst, 0)

/-- `storage_set_time` from `storage.c`. -/
def storageSetTime (st : FS) (path : List Nat) (atime mtime : Int) : FS × Int :=
  let inum := treeLookup st path
  if inum < 0 then (st, -2)
  else if (INODE_COUNT : Int) ≤ inum then (st, -2)
  else
    let i := inum.toNat
    (st.setInode i { st.inodes i with atime := atime, mtime := mtime }, 0)

/-- Bitwise AND on the unsigned 32-bit images of two C ints (the results
relevant here stay below `2^31`, so the signed reinterpretation is the
identity). -/
def landc (a b : Int) : Int :=
  (((a.emod 4294967296).toNat &&& (b.emod 4294967296).toNat : Nat) : Int)

/-- Bitwise OR on the unsigned 32-bit images of two C ints. -/
def lorc (a b : Int) : Int :=
  (((a.emod 4294967296).toNat ||| (b.emod 4294967296).toNat : Nat) : Int)

/-- `storage_chmod` from `storage.c`: keep the `S_IFMT` type bits
(`0170000`), replace the permission bits. -/
def storageChmod (st : FS) (path : List Nat) (mode : Int) : FS × Int :=
  let inum := treeLookup st path
  if inum < 0 then (st, -2)
  else if (INODE_COUNT : Int) ≤ inum then (st, -2)
  else
    let i := inum.toNat
    let node := st.inodes i
    (st.setInode i { node with mode := lorc (landc node.mode 61440) (landc mode 4294905855) }, 0)

/-- `storage_list` from `storage.c` is `directory_list`. -/
def storageList (st : FS) (path : List Nat) : List (List Nat) :=
  directoryList st path

/-! ## nufs.c (the FUSE bridge functions the claims mention) -/

/-- `nufs_rmdir` from `nufs.c`: reject when `storage_list` yields entries
(a non-NULL `slist`), otherwise unlink. -/
def nufsRmdir (st : FS) (path : List Nat) : FS × Int :=
  let entries := storageList st path
  if entries ≠ [] then (st, -39)
  else storageUnlink st path

/-! ## Support definitions: scan specifications, concrete states -/

/-- Whether entry `ii` of directory `di` is a non-empty entry whose stored
name equals `name` — the hit condition of `directory_delete` and
`directory_lookup`. -/
def entryMatchB (st : FS) (di : Nat) (ii : Nat) (name : List Nat) : Bool :=
  match dirEntryLoc st di ii with
  | none => false
  | some (b, o) => entryInumAt st b o ≠ 0 && entryNameAt st b o = name

/-- The index of the first matching non-empty entry, scanning from `ii`
with `fuel` entries left; `none` on loop exhaustion or a NULL entry
location, mirroring the scans in `directory.c`. -/
def dirFindMatch (st : FS) (di : Nat) (name : List Nat) : Nat → Nat → Option Nat
  | _, 0 => none
  | ii, fuel + 1 =>
    match dirEntryLoc st di ii with
    | none => none
    | some (b, o) =>
      if entryInumAt st b o ≠ 0 ∧ entryNameAt st b o = name then some ii
      else dirFindMatch st di name (ii + 1) fuel

/-- Whether entry `ii` of directory `di` is empty in the sense of the
`directory_put` scan: located, and with `inum == 0` or a NUL first name
byte. -/
def entryEmptyB (st : FS) (di : Nat) (ii : Nat) : Bool :=
  match dirEntryLoc st di ii with
  | none => false
  | some (b, o) => entryInumAt st b o = 0 || (st.blocks b) o = 0

/-! ## Support definitions: concrete states used by witnesses and
counterexamples -/

/-- A state whose inode 0 is a two-block file: direct block 7, indirect
block 9 whose first table entry is 5. -/
def c4State : FS :=
  (freshFS.setInode 0
    { zeroInode with refs := 1, size := 8192, block := 7, indirect := 9 }).setBlock 9
    (writeInt32 zeroBlock 0 5)

/-- A root-directory data block holding the single entry `"a" -> inode 1`
at slot 0. -/
def rootBlockA : Block := writeInt32 (blkWrite zeroBlock 0 [97]) 48 1

/-- A small valid filesystem: root directory (inode 0, data block 2) with
one entry `"a"` naming inode 1, a 5-byte regular file `"hello"` in block 3. -/
def stFileA : FS :=
  ((((((freshFS.setBbm 0 true).setBbm 1 true).setBbm 2 true).setBbm 3 true).setIbm
        0 true).setIbm 1 true)
    |>.setInode 0 { zeroInode with refs := 1, mode := 0o40755, size := 4096, block := 2 }
    |>.setInode 1 { zeroInode with refs := 1, mode := 0o100644, size := 5, block := 3 }
    |>.setBlock 2 rootBlockA
    |>.setBlock 3 (blkWrite zeroBlock 0 [104, 101, 108, 108, 111])

/-- A root-directory data block holding the single entry `"b" -> inode 1`
at slot 0. -/
def rootBlockB : Block := writeInt32 (blkWrite zeroBlock 0 [98]) 48 1

/-- A small valid filesystem with an empty regular file: root directory
(inode 0, data block 2) with one entry `"b"` naming inode 1, whose inode
has `size = block = indirect = 0` — the state `storage_mknod` leaves a
fresh regular file in. -/
def stFileC : FS :=
  (((((freshFS.setBbm 0 true).setBbm 1 true).setBbm 2 true).setIbm 0 true).setIbm 1 true)
    |>.setInode 0 { zeroInode with refs := 1, mode := 0o40755, size := 4096, block := 2 }
    |>.setInode 1 { zeroInode with refs := 1, mode := 0o100644, size := 0, block := 0 }
    |>.setBlock 2 rootBlockB

/-- A filesystem like `stFileC` (root directory with the empty regular
file `"f"` as inode 1) whose block bitmap has block 5 as its only free
block: the next `alloc_block` returns 5 and the one after fails. -/
def stFull : FS :=
  { bbm := fun b => decide (0 ≤ b ∧ b < 256 ∧ b ≠ 5),
    ibm := fun i => decide (i < 2),
    inodes := fun i =>
      if i = 0 then { zeroInode with refs := 1, mode := 0o40755, size := 4096, block := 2 }
      else if i = 1 then { zeroInode with refs := 1, mode := 0o100644, size := 0, block := 0 }
      else zeroInode,
    blocks := fun b =>
      if b = 2 then writeInt32 (blkWrite zeroBlock 0 [102]) 48 1 else zeroBlock }

/-- A 52-byte buffer that, written at byte 0 of a directory's data block,
forges the directory entry `"x" -> inode 3`: 48 name bytes (`'x'` and NUL
padding) followed by the little-endian `int` 3. -/
def forgedBuf : List Nat := 120 :: (List.replicate 47 0 ++ 3 :: List.replicate 3 0)

/-! ## Theorems -/

/-! ### Access and update lemmas for the state and for block bytes -/

theorem setInode_inodes_same (st : FS) (i : Nat) (nd : Inode) :
    (st.setInode i nd).inodes i = nd := by simp [FS.setInode]

theorem setInode_inodes_other (st : FS) (i j : Nat) (nd : Inode) (h : j ≠ i) :
    (st.setInode i nd).inodes j = st.inodes j := by simp [FS.setInode, h]

theorem setInode_blocks (st : FS) (i : Nat) (nd : Inode) :
    (st.setInode i nd).blocks = st.blocks := rfl

theorem setInode_bbm (st : FS) (i : Nat) (nd : Inode) :
    (st.setInode i nd).bbm = st.bbm := rfl

theorem setInode_ibm (st : FS) (i : Nat) (nd : Inode) :
    (st.setInode i nd).ibm = st.ibm := rfl

theorem setBlock_blocks_same (st : FS) (b : Int) (blk : Block) :
    (st.setBlock b blk).blocks b = blk := by simp [FS.setBlock]

theorem setBlock_blocks_other (st : FS) (b c : Int) (blk : Block) (h : c ≠ b) :
    (st.setBlock b blk).blocks c = st.blocks c := by simp [FS.setBlock, h]

theorem setBlock_inodes (st : FS) (b : Int) (blk : Block) :
    (st.setBlock b blk).inodes = st.inodes := rfl

theorem setBlock_bbm (st : FS) (b : Int) (blk : Block) :
    (st.setBlock b blk).bbm = st.bbm := rfl

theorem setBlock_ibm (st : FS) (b : Int) (blk : Block) :
    (st.setBlock b blk).ibm = st.ibm := rfl

theorem setBbm_same (st : FS) (b : Int) (v : Bool) : (st.setBbm b v).bbm b = v := by
  simp [FS.setBbm]

theorem setBbm_other (st : FS) (b c : Int) (v : Bool) (h : c ≠ b) :
    (st.setBbm b v).bbm c = st.bbm c := by simp [FS.setBbm, h]

theorem setBbm_inodes (st : FS) (b : Int) (v : Bool) :
    (st.setBbm b v).inodes = st.inodes := rfl

theorem setBbm_blocks (st : FS) (b : Int) (v : Bool) :
    (st.setBbm b v).blocks = st.blocks := rfl

theorem setBbm_ibm (st : FS) (b : Int) (v : Bool) : (st.setBbm b v).ibm = st.ibm := rfl

theorem setIbm_same (st : FS) (i : Nat) (v : Bool) : (st.setIbm i v).ibm i = v := by
  simp [FS.setIbm]

theorem setIbm_other (st : FS) (i j : Nat) (v : Bool) (h : j ≠ i) :
    (st.setIbm i v).ibm j = st.ibm j := by simp [FS.setIbm, h]

theorem setIbm_inodes (st : FS) (i : Nat) (v : Bool) :
    (st.setIbm i v).inodes = st.inodes := rfl

theorem setIbm_blocks (st : FS) (i : Nat) (v : Bool) :
    (st.setIbm i v).blocks = st.blocks := rfl

theorem setIbm_bbm (st : FS) (i : Nat) (v : Bool) : (st.setIbm i v).bbm = st.bbm := rfl

theorem blkWrite_in (blk : Block) (off : Nat) (data : List Nat) (j : Nat)
    (h1 : off ≤ j) (h2 : j < off + data.length) :
    blkWrite blk off data j = data.getD (j - off) 0 := by
  simp only [blkWrite]
  rw [if_pos ⟨h1, h2⟩]

theorem blkWrite_out (blk : Block) (off : Nat) (data : List Nat) (j : Nat)
    (h : j < off ∨ off + data.length ≤ j) :
    blkWrite blk off data j = blk j := by
  simp only [blkWrite]
  rw [if_neg]
  intro ⟨a, b⟩
  omega

/-- C9: `storage_unlink("/")` always returns `-ENOENT` and leaves the
entire filesystem state unchanged: the basename of `"/"` is the empty
string, which `directory_delete` rejects before touching anything, so the
root inode's refs, the bitmaps, and all directory contents are untouched. -/
theorem c9_unlink_root_enoent (st : FS) : storageUnlink st [47] = (st, -2) := rfl

/-- C4 counterexample: on the all-zero state, logical block 0 of inode 0 is
unallocated (`block == 0`), yet `inode_get_bnum` returns the stored 0, not
the `-1` the claim requires for an unallocated block. -/
theorem c4_counterexample :
    (freshFS.inodes 0).block = 0 ∧ inodeGetBnum freshFS 0 0 ≠ -1 := by
  constructor
  · rfl
  · decide

/-- C4 amended: `inode_get_bnum(node, k)` returns `node.block` when
`k == 0` (the stored 0, not `-1`, when the direct block is unallocated);
returns entry `k-1` of the indirect block when `1 ≤ k ≤ 1024` and
`indirect != 0` (again the stored 0 when that slot is unallocated); and
returns `-1` exactly when `k < 0`, `k > 1024`, or `k ≥ 1` with
`indirect == 0`. -/
theorem c4_get_bnum_characterization (st : FS) (i : Nat) (k : Int) :
    (k = 0 → inodeGetBnum st i k = (st.inodes i).block) ∧
    (1 ≤ k → k ≤ 1024 → (st.inodes i).indirect ≠ 0 →
      inodeGetBnum st i k =
        readInt32 (st.blocks (st.inodes i).indirect) (4 * (k - 1)).toNat) ∧
    (k < 0 ∨ 1025 ≤ k ∨ (1 ≤ k ∧ (st.inodes i).indirect = 0) →
      inodeGetBnum st i k = -1) := by
  unfold inodeGetBnum
  refine ⟨fun h0 => ?_, fun h1 h2 h3 => ?_, fun h => ?_⟩
  · simp [h0]
  · have hk0 : ¬ k < 0 := by omega
    have hk1 : ¬ k = 0 := by omega
    have hk2 : ¬ (1024 : Int) ≤ k - 1 := by omega
    simp [hk0, hk1, h3, hk2]
  · rcases h with h | h | ⟨h1, h2⟩
    · simp [show k < 0 from h]
    · have hk0 : ¬ k < 0 := by omega
      have hk1 : ¬ k = 0 := by omega
      have hk2 : (1024 : Int) ≤ k - 1 := by omega
      by_cases hi : (st.inodes i).indirect = 0 <;> simp [hk0, hk1, hk2, hi]
    · have hk0 : ¬ k < 0 := by omega
      have hk1 : ¬ k = 0 := by omega
      simp [hk0, hk1, h2]

/-- C4 witness: the amended characterization evaluated on `c4State`:
direct block 7 at `k = 0`, table entry 5 at `k = 1`, `-1` at `k = -3`. -/
theorem c4_witness :
    inodeGetBnum c4State 0 0 = 7 ∧ inodeGetBnum c4State 0 1 = 5 ∧
    inodeGetBnum c4State 0 (-3) = -1 := by
  refine ⟨?_, ?_, ?_⟩
  · rw [(c4_get_bnum_characterization c4State 0 0).1 rfl]; decide
  · rw [(c4_get_bnum_characterization c4State 0 1).2.1 (by decide) (by decide) (by decide)]
    decide
  · exact (c4_get_bnum_characterization c4State 0 (-3)).2.2 (Or.inl (by decide))

/-- The read loop never returns less than its starting count or more than
its target. -/
theorem readLoop_bounds (st : FS) (i : Nat) (offset : Int) (target : Nat) :
    ∀ fuel bytesRead acc, bytesRead ≤ target →
      bytesRead ≤ (readLoop st i offset target bytesRead fuel acc).fst ∧
      (readLoop st i offset target bytesRead fuel acc).fst ≤ target := by
  intro fuel
  induction fuel with
  | zero => intro br acc h; exact ⟨le_refl _, h⟩
  | succ n ih =>
    intro br acc h
    rw [readLoop]
    by_cases hlt : br < target
    · simp only [if_pos hlt]
      by_cases hb : inodeGetBnum st i ((offset + (br : Int)).tdiv 4096) ≤ 0
      · simp only [if_pos hb]; exact ⟨le_refl _, h⟩
      · simp only [if_neg hb]
        have := ih (br + min (4096 - (offset + (br : Int)).tmod 4096).toNat (target - br))
          (acc ++ blkRead (st.blocks (inodeGetBnum st i ((offset + (br : Int)).tdiv 4096)))
            ((offset + (br : Int)).tmod 4096).toNat
            (min (4096 - (offset + (br : Int)).tmod 4096).toNat (target - br)))
          (by omega)
        omega
    · simp only [if_neg hlt]; exact ⟨le_refl _, h⟩

/-- `blkRead` returns exactly `len` bytes. -/
theorem blkRead_length (blk : Block) (off len : Nat) : (blkRead blk off len).length = len := by
  simp [blkRead]

/-- The read loop's byte list grows by exactly the number of bytes it
reports copied. -/
theorem readLoop_length (st : FS) (i : Nat) (offset : Int) (target : Nat) :
    ∀ fuel bytesRead acc,
      (readLoop st i offset target bytesRead fuel acc).snd.length + bytesRead =
        acc.length + (readLoop st i offset target bytesRead fuel acc).fst := by
  intro fuel
  induction fuel with
  | zero => intro br acc; simp [readLoop]
  | succ n ih =>
    intro br acc
    rw [readLoop]
    by_cases hlt : br < target
    · simp only [if_pos hlt]
      by_cases hb : inodeGetBnum st i ((offset + (br : Int)).tdiv 4096) ≤ 0
      · simp only [if_pos hb]
      · simp only [if_neg hb]
        have := ih (br + min (4096 - (offset + (br : Int)).tmod 4096).toNat (target - br))
          (acc ++ blkRead (st.blocks (inodeGetBnum st i ((offset + (br : Int)).tdiv 4096)))
            ((offset + (br : Int)).tmod 4096).toNat
            (min (4096 - (offset + (br : Int)).tmod 4096).toNat (target - br)))
        simp only [List.length_append, blkRead_length] at this
        omega
    · simp only [if_neg hlt]

/-- C5: for an existing file, `storage_read` returns 0 at or past EOF, and
otherwise returns at most `min(n, size - off)` bytes, never reaching at or
past the file's size; the byte list it copies out has exactly the reported
length. -/
theorem c5_read_bounds (st : FS) (now : Int) (path : List Nat) (n : Nat) (off : Int)
    (inum : Int) (hL : treeLookup st path = inum) (h0 : 0 ≤ inum) (h1 : inum < 128) :
    ((st.inodes inum.toNat).size ≤ off →
      (storageRead st now path n off).2.1 = 0 ∧ (storageRead st now path n off).2.2 = []) ∧
    (off < (st.inodes inum.toNat).size →
      0 ≤ (storageRead st now path n off).2.1 ∧
      (storageRead st now path n off).2.1 ≤ (n : Int) ∧
      off + (storageRead st now path n off).2.1 ≤ (st.inodes inum.toNat).size ∧
      (storageRead st now path n off).2.2.length = (storageRead st now path n off).2.1.toNat) := by
  have hneg : ¬ inum < 0 := by omega
  have hbig : ¬ (INODE_COUNT : Int) ≤ inum := by
    simp only [INODE_COUNT]; omega
  constructor
  · intro hoff
    simp only [storageRead, hL, if_neg hneg, if_neg hbig, if_pos hoff]
    trivial
  · intro hoff
    have hoff' : ¬ (st.inodes inum.toNat).size ≤ off := by omega
    simp only [storageRead, hL, if_neg hneg, if_neg hbig, if_neg hoff']
    set target := if (st.inodes inum.toNat).size < off + (n : Int) then
      ((st.inodes inum.toNat).size - off).toNat else n with htarget
    have htn : (target : Int) ≤ (n : Int) ∧ off + (target : Int) ≤ (st.inodes inum.toNat).size := by
      rw [htarget]
      split_ifs with hc
      · constructor
        · have : ((st.inodes inum.toNat).size - off).toNat < n := by omega
          omega
        · have : (0 : Int) ≤ (st.inodes inum.toNat).size - off := by omega
          omega
      · constructor
        · exact le_refl _
        · omega
    have hb := readLoop_bounds st inum.toNat off target target 0 [] (Nat.zero_le _)
    have hl := readLoop_length st inum.toNat off target target 0 []
    refine ⟨by positivity, ?_, ?_, ?_⟩
    · have : (readLoop st inum.toNat off target 0 target []).fst ≤ target := hb.2
      omega
    · have : (readLoop st inum.toNat off target 0 target []).fst ≤ target := hb.2
      omega
    · simp only [List.length_nil] at hl
      omega

/-- C5 witness: reading 3 bytes at offset 0 of the 5-byte file `/a` in
`stFileA` stays within the bounds of the theorem. -/
theorem c5_witness :
    0 ≤ (storageRead stFileA 7 [47, 97] 3 0).2.1 ∧
    (storageRead stFileA 7 [47, 97] 3 0).2.1 ≤ (3 : Int) ∧
    0 + (storageRead stFileA 7 [47, 97] 3 0).2.1 ≤ (stFileA.inodes 1).size ∧
    (storageRead stFileA 7 [47, 97] 3 0).2.2.length =
      (storageRead stFileA 7 [47, 97] 3 0).2.1.toNat := by
  have h := (c5_read_bounds stFileA 7 [47, 97] 3 0 1 (by decide) (by decide) (by decide)).2
    (by decide)
  simpa using h

/-- `getD` of an all-zero replicate list is 0. -/
theorem replicate_getD_zero : ∀ n k, (List.replicate n (0 : Nat)).getD k 0 = 0 := by
  intro n
  induction n with
  | zero => intro k; cases k <;> rfl
  | succ m ih => intro k; cases k with
    | zero => rfl
    | succ j => exact ih j

/-- The delete scan and the first-match scan agree: a `none` result means
the delete loop returns `-1` unchanged; a `some ii` result locates the
in-range entry the delete loop zeroes. -/
theorem delete_scan_spec (st : FS) (di : Nat) (name : List Nat) :
    ∀ fuel start,
      (dirFindMatch st di name start fuel = none →
        dirDeleteLoop st di name start fuel = (st, -1)) ∧
      (∀ ii, dirFindMatch st di name start fuel = some ii →
        start ≤ ii ∧ ii < start + fuel ∧
        ∃ b o, dirEntryLoc st di ii = some (b, o) ∧
          entryInumAt st b o ≠ 0 ∧ entryNameAt st b o = name ∧
          dirDeleteLoop st di name start fuel =
            (st.setBlock b (blkWrite (st.blocks b) o (List.replicate 64 0)), 0)) := by
  intro fuel
  induction fuel with
  | zero =>
    intro start
    exact ⟨fun _ => rfl, fun ii h => by simp [dirFindMatch] at h⟩
  | succ n ih =>
    intro start
    constructor
    · intro hnone
      rw [dirDeleteLoop]
      rw [dirFindMatch] at hnone
      cases hloc : dirEntryLoc st di start with
      | none => simp [hloc]
      | some p =>
        obtain ⟨b, o⟩ := p
        simp only [hloc] at hnone ⊢
        by_cases hm : entryInumAt st b o ≠ 0 ∧ entryNameAt st b o = name
        · simp [hm] at hnone
        · simp only [if_neg hm] at hnone ⊢
          exact (ih (start + 1)).1 hnone
    · intro ii hsome
      rw [dirFindMatch] at hsome
      rw [dirDeleteLoop]
      cases hloc : dirEntryLoc st di start with
      | none => simp [hloc] at hsome
      | some p =>
        obtain ⟨b, o⟩ := p
        simp only [hloc] at hsome ⊢
        by_cases hm : entryInumAt st b o ≠ 0 ∧ entryNameAt st b o = name
        · simp only [if_pos hm] at hsome ⊢
          obtain rfl : start = ii := by simpa using hsome
          exact ⟨le_refl _, by omega, b, o, hloc, hm.1, hm.2, rfl⟩
        · simp only [if_neg hm] at hsome ⊢
          obtain ⟨h1, h2, rest⟩ := (ih (start + 1)).2 ii hsome
          exact ⟨by omega, by omega, rest⟩

/-- If every scanned slot is locatable and some slot in range matches, the
first-match scan finds one. -/
theorem findMatch_of_exists (st : FS) (di : Nat) (name : List Nat) :
    ∀ fuel start,
      (∀ jj, start ≤ jj → jj < start + fuel → dirEntryLoc st di jj ≠ none) →
      (∃ jj, start ≤ jj ∧ jj < start + fuel ∧ entryMatchB st di jj name = true) →
      ∃ ii, dirFindMatch st di name start fuel = some ii := by
  intro fuel
  induction fuel with
  | zero =>
    intro start _ ⟨jj, h1, h2, _⟩
    omega
  | succ n ih =>
    intro start hwf hex
    rw [dirFindMatch]
    cases hloc : dirEntryLoc st di start with
    | none => exact absurd hloc (hwf start (le_refl _) (by omega))
    | some p =>
      obtain ⟨b, o⟩ := p
      simp only
      by_cases hm : entryInumAt st b o ≠ 0 ∧ entryNameAt st b o = name
      · exact ⟨start, by simp [hm]⟩
      · simp only [if_neg hm]
        apply ih (start + 1)
        · intro jj ha hb
          exact hwf jj (by omega) (by omega)
        · obtain ⟨jj, h1, h2, h3⟩ := hex
          refine ⟨jj, ?_, by omega, h3⟩
          rcases Nat.eq_or_lt_of_le h1 with rfl | h
          · exfalso
            rw [entryMatchB, hloc] at h3
            simp only [Bool.and_eq_true, decide_eq_true_eq] at h3
            exact hm ⟨h3.1, h3.2⟩
          · omega

/-- C8: `directory_delete(di, name)` returns 0 and zeroes the entire
matching 64-byte entry when a non-empty entry with that name exists (the
first one in scan order), and returns `-1` otherwise; in both cases
`di.size`, `di.block`, `di.indirect` (indeed the whole inode table and
both bitmaps) and every byte outside the zeroed 64-byte slot — in
particular every other directory entry — are unchanged. -/
theorem c8_delete_frame (st : FS) (di : Nat) (name : List Nat) :
    (name = [] → directoryDelete st di name = (st, -1)) ∧
    (name ≠ [] →
      (¬ (∃ jj, jj < dirMaxEntries st di ∧ entryMatchB st di jj name = true) →
        directoryDelete st di name = (st, -1)) ∧
      (∀ ii, dirFindMatch st di name 0 (dirMaxEntries st di) = some ii →
        ∀ b o, dirEntryLoc st di ii = some (b, o) →
          (directoryDelete st di name).snd = 0 ∧
          (directoryDelete st di name).fst.inodes = st.inodes ∧
          (directoryDelete st di name).fst.bbm = st.bbm ∧
          (directoryDelete st di name).fst.ibm = st.ibm ∧
          (∀ j, o ≤ j → j < o + 64 → (directoryDelete st di name).fst.blocks b j = 0) ∧
          (∀ c j, c ≠ b ∨ j < o ∨ o + 64 ≤ j →
            (directoryDelete st di name).fst.blocks c j = st.blocks c j)) ∧
      ((∀ jj, jj < dirMaxEntries st di → dirEntryLoc st di jj ≠ none) →
        (∃ jj, jj < dirMaxEntries st di ∧ entryMatchB st di jj name = true) →
        (directoryDelete st di name).snd = 0)) := by
  constructor
  · intro h
    subst h
    rfl
  · intro hname
    have hlen : ¬ name.length = 0 := by
      cases name with
      | nil => exact absurd rfl hname
      | cons a l => simp
    refine ⟨?_, ?_, ?_⟩
    · intro hno
      rw [directoryDelete, if_neg hlen]
      apply (delete_scan_spec st di name (dirMaxEntries st di) 0).1
      cases hfm : dirFindMatch st di name 0 (dirMaxEntries st di) with
      | none => rfl
      | some ii =>
        obtain ⟨_, hlt, b, o, hloc, hi, hn, _⟩ :=
          (delete_scan_spec st di name (dirMaxEntries st di) 0).2 ii hfm
        exact absurd ⟨ii, by omega, by rw [entryMatchB, hloc]; simp [hi, hn]⟩ hno
    · intro ii hfm b o hloc
      obtain ⟨_, _, b2, o2, hloc2, _, _, heq⟩ :=
        (delete_scan_spec st di name (dirMaxEntries st di) 0).2 ii hfm
      rw [hloc] at hloc2
      rw [Option.some.injEq, Prod.mk.injEq] at hloc2
      obtain ⟨hb2, ho2⟩ := hloc2
      subst hb2
      subst ho2
      rw [directoryDelete, if_neg hlen, heq]
      refine ⟨rfl, rfl, rfl, rfl, ?_, ?_⟩
      · intro j hj1 hj2
        rw [setBlock_blocks_same]
        rw [blkWrite_in _ _ _ _ hj1 (by rw [List.length_replicate]; omega)]
        exact replicate_getD_zero 64 (j - o)
      · intro c j hcj
        by_cases hc : c = b
        · subst hc
          rw [setBlock_blocks_same]
          apply blkWrite_out
          rw [List.length_replicate]
          rcases hcj with h | h | h
          · exact absurd rfl h
          · omega
          · omega
        · rw [setBlock_blocks_other _ _ _ _ hc]
    · intro hwf hex
      obtain ⟨ii, hfm⟩ := findMatch_of_exists st di name (dirMaxEntries st di) 0
        (fun jj _ hb => hwf jj (by omega)) (by
          obtain ⟨jj, h1, h2⟩ := hex
          exact ⟨jj, Nat.zero_le _, by omega, h2⟩)
      obtain ⟨_, _, b, o, _, _, _, heq⟩ :=
        (delete_scan_spec st di name (dirMaxEntries st di) 0).2 ii hfm
      rw [directoryDelete, if_neg hlen, heq]

/-! ### Allocation and integer-codec lemmas -/

theorem int32OfRaw_small (u : Nat) (h : u < 2147483648) : int32OfRaw u = (u : Int) := by
  simp [int32OfRaw, h]

theorem rawOfInt32_small (v : Int) (h0 : 0 ≤ v) (h1 : v < 4294967296) :
    rawOfInt32 v = v.toNat := by
  rw [rawOfInt32, Int.emod_eq_of_lt h0 h1]

/-- Reading back an `int` just stored at the same offset, for values in
`[0, 2^31)` (every block number stored by the code is such). -/
theorem readInt32_writeInt32 (blk : Block) (off : Nat) (v : Int) (h0 : 0 ≤ v)
    (h1 : v < 2147483648) : readInt32 (writeInt32 blk off v) off = v := by
  have hv4 : v < 4294967296 := by omega
  have hb : ∀ k, k < 4 → writeInt32 blk off v (off + k) = (int32Bytes v).getD k 0 := by
    intro k hk
    rw [writeInt32, blkWrite_in]
    · congr 1
      omega
    · omega
    · simp [int32Bytes]
      omega
  have h0' := hb 0 (by omega)
  have h1' := hb 1 (by omega)
  have h2' := hb 2 (by omega)
  have h3' := hb 3 (by omega)
  rw [Nat.add_zero] at h0'
  rw [readInt32, h0', h1', h2', h3']
  simp only [int32Bytes, rawOfInt32_small v h0 hv4, List.getD_cons_zero, List.getD_cons_succ]
  have hcomb : v.toNat % 256 + 256 * (v.toNat / 256 % 256) + 65536 * (v.toNat / 65536 % 256) +
      16777216 * (v.toNat / 16777216 % 256) = v.toNat := by omega
  rw [hcomb, int32OfRaw_small _ (by omega)]
  omega

/-- A 4-byte store does not change an `int` read from a disjoint aligned
offset. -/
theorem readInt32_writeInt32_other (blk : Block) (off off2 : Nat) (v : Int)
    (h : off2 + 4 ≤ off ∨ off + 4 ≤ off2) :
    readInt32 (writeInt32 blk off2 v) off = readInt32 blk off := by
  have hlen : (int32Bytes v).length = 4 := by simp [int32Bytes]
  have hb : ∀ k, k < 4 → writeInt32 blk off2 v (off + k) = blk (off + k) := by
    intro k hk
    rw [writeInt32]
    apply blkWrite_out
    rw [hlen]
    omega
  have h0' := hb 0 (by omega)
  have h1' := hb 1 (by omega)
  have h2' := hb 2 (by omega)
  have h3' := hb 3 (by omega)
  rw [Nat.add_zero] at h0'
  rw [readInt32, readInt32, h0', h1', h2', h3']

/-- Reading an `int` from the all-zero block gives 0. -/
theorem readInt32_zeroBlock (off : Nat) : readInt32 zeroBlock off = 0 := rfl

/-- What a non-negative `alloc_block` result means: a previously clear
block number in `[2, 256)`, now set and zeroed, everything else intact. -/
theorem allocBlock_success (st : FS) (h : 0 ≤ (allocBlock st).snd) :
    2 ≤ (allocBlock st).snd ∧ (allocBlock st).snd < 256 ∧
    st.bbm (allocBlock st).snd = false ∧
    (allocBlock st).fst =
      (st.setBbm (allocBlock st).snd true).setBlock (allocBlock st).snd zeroBlock := by
  rw [allocBlock] at h ⊢
  cases hf : (List.range 256).find? (fun b : Nat => decide (2 ≤ b) && !st.bbm (b : Int)) with
  | none =>
    rw [hf] at h
    simp at h
  | some b =>
    have hp := List.find?_some hf
    have hm := List.mem_range.mp (List.mem_of_find?_eq_some hf)
    simp only [Bool.and_eq_true, decide_eq_true_eq, Bool.not_eq_true'] at hp
    refine ⟨?_, ?_, ?_, rfl⟩
    · show (2 : Int) ≤ ((b : Nat) : Int)
      exact_mod_cast hp.1
    · show ((b : Nat) : Int) < 256
      exact_mod_cast hm
    · show st.bbm ((b : Nat) : Int) = false
      exact hp.2

/-- A negative `alloc_block` result means the bitmap had no clear bit in
`[2, 256)` and the state is unchanged. -/
theorem allocBlock_failure (st : FS) (h : (allocBlock st).snd < 0) :
    (allocBlock st).fst = st ∧ (allocBlock st).snd = -1 ∧
    ∀ c : Int, 2 ≤ c → c < 256 → st.bbm c = true := by
  rw [allocBlock] at h ⊢
  cases hf : (List.range 256).find? (fun b : Nat => decide (2 ≤ b) && !st.bbm (b : Int)) with
  | some b =>
    rw [hf] at h
    have hb : ((b : Nat) : Int) < 0 := h
    exact absurd hb (by omega)
  | none =>
    refine ⟨rfl, rfl, fun c h2 h256 => ?_⟩
    have := List.find?_eq_none.mp hf c.toNat (List.mem_range.mpr (by omega))
    simp only [Bool.and_eq_true, decide_eq_true_eq, Bool.not_eq_true', not_and] at this
    have hc : st.bbm ((c.toNat : Nat) : Int) ≠ false := this (by omega)
    rw [show ((c.toNat : Nat) : Int) = c by omega] at hc
    simpa using hc

/-- Success characterization of the grow loop from an iteration index
`ii ≥ 1` at which the indirect block is already allocated: the loop takes
one fresh data block per remaining index, writes it into table slot
`index - 1`, and touches nothing else.  `bs` lists the new blocks in
iteration order. -/
theorem growLoop_suffix_spec :
    ∀ (fuel : Nat) (st : FS) (i : Nat) (ii T : Int),
      (fuel : Int) = T - ii → 1 ≤ ii → ii ≤ T → T ≤ 1024 →
      (st.inodes i).indirect ≠ 0 → st.bbm (st.inodes i).indirect = true →
      (growLoop st i ii T fuel).snd = 0 →
      ∃ bs : List Int,
        bs.length = fuel ∧ bs.Nodup ∧
        (∀ b ∈ bs, 2 ≤ b ∧ b < 256 ∧ st.bbm b = false) ∧
        (growLoop st i ii T fuel).fst.inodes = st.inodes ∧
        (growLoop st i ii T fuel).fst.ibm = st.ibm ∧
        (∀ b : Int, (growLoop st i ii T fuel).fst.bbm b = true ↔ st.bbm b = true ∨ b ∈ bs) ∧
        (∀ b : Int, b ∉ bs → b ≠ (st.inodes i).indirect →
          (growLoop st i ii T fuel).fst.blocks b = st.blocks b) ∧
        (∀ b ∈ bs, (growLoop st i ii T fuel).fst.blocks b = zeroBlock) ∧
        (∀ j : Nat, j < 1024 →
          readInt32 ((growLoop st i ii T fuel).fst.blocks (st.inodes i).indirect) (4 * j) =
            if ii ≤ (j : Int) + 1 ∧ (j : Int) + 1 < T then bs.getD (j + 1 - ii.toNat) 0
            else readInt32 (st.blocks (st.inodes i).indirect) (4 * j)) := by
  intro fuel
  induction fuel with
  | zero =>
    intro st i ii T hfuel h1 h2 h3 hind hbbm hok
    refine ⟨[], rfl, List.nodup_nil, by simp, rfl, rfl, by simp [growLoop], ?_, by simp, ?_⟩
    · intro b _ _
      rfl
    · intro j hj
      rw [if_neg (by omega : ¬ (ii ≤ (j : Int) + 1 ∧ (j : Int) + 1 < T))]
      rfl
  | succ n ih =>
    intro st i ii T hfuel h1 h2 h3 hind hbbm hok
    have hiiT : ii < T := by omega
    by_cases hneg : (allocBlock st).snd < 0
    · exfalso
      have : growLoop st i ii T (n + 1) = ((allocBlock st).fst, -1) := by
        rw [growLoop, if_pos hiiT, growStep, if_pos hneg]
      rw [this] at hok
      exact absurd hok (by simp)
    · push_neg at hneg
      obtain ⟨hb2, hb256, hbfresh, heq⟩ := allocBlock_success st hneg
      set b0 := (allocBlock st).snd with hb0
      have hne0 : ¬ ii = 0 := by omega
      have hb0ind : b0 ≠ (st.inodes i).indirect := by
        intro hco
        rw [hco, hbbm] at hbfresh
        exact Bool.true_eq_false.mp hbfresh
      -- the state after alloc plus the loop's own zeroing of the block
      set st1 : FS := ((st.setBbm b0 true).setBlock b0 zeroBlock).setBlock b0 zeroBlock
        with hst1
      have hst1in : st1.inodes = st.inodes := rfl
      have hst1ibm : st1.ibm = st.ibm := rfl
      have hst1bbm : ∀ b : Int, st1.bbm b = if b = b0 then true else st.bbm b := by
        intro b
        by_cases hb : b = b0
        · rw [if_pos hb, hb]
          show (st.setBbm b0 true).bbm b0 = true
          exact setBbm_same st b0 true
        · rw [if_neg hb]
          show (st.setBbm b0 true).bbm b = st.bbm b
          exact setBbm_other st b0 b true hb
      have hst1blk : ∀ b : Int, b ≠ b0 → st1.blocks b = st.blocks b := by
        intro b hb
        rw [hst1]
        rw [setBlock_blocks_other _ _ _ _ hb, setBlock_blocks_other _ _ _ _ hb]
        rfl
      have hst1b0 : st1.blocks b0 = zeroBlock := setBlock_blocks_same _ _ _
      -- the state after storing the table slot
      set st2 : FS := st1.setBlock (st.inodes i).indirect
        (writeInt32 (st1.blocks (st.inodes i).indirect) ((4 * (ii - 1)).toNat) b0)
        with hst2
      have hst2in : st2.inodes = st.inodes := hst1in
      have hst2ibm : st2.ibm = st.ibm := hst1ibm
      have hst2bbm : ∀ b : Int, st2.bbm b = if b = b0 then true else st.bbm b := hst1bbm
      have hst2blk : ∀ b : Int, b ≠ b0 → b ≠ (st.inodes i).indirect →
          st2.blocks b = st.blocks b := by
        intro b hb hbi
        rw [hst2, setBlock_blocks_other _ _ _ _ hbi]
        exact hst1blk b hb
      have hst2b0 : st2.blocks b0 = zeroBlock := by
        rw [hst2, setBlock_blocks_other _ _ _ _ hb0ind]
        exact hst1b0
      have hst2tbl : st2.blocks (st.inodes i).indirect =
          writeInt32 (st.blocks (st.inodes i).indirect) ((4 * (ii - 1)).toNat) b0 := by
        rw [hst2, setBlock_blocks_same, hst1blk _ (Ne.symm hb0ind)]
      -- one unfolding of the loop
      have hgs : growStep st i ii = Sum.inr st2 := by
        rw [growStep, if_neg (by omega : ¬ (allocBlock st).snd < 0), ← hb0, heq]
        rw [growAttach, if_neg hne0]
        rw [show (((st.setBbm b0 true).setBlock b0 zeroBlock).setBlock b0 zeroBlock).inodes i
          = st.inodes i from rfl]
        rw [if_neg hind]
      have hstep : growLoop st i ii T (n + 1) = growLoop st2 i (ii + 1) T n := by
        rw [growLoop, if_pos hiiT, hgs]
      rw [hstep] at hok ⊢
      have hok2 := hok
      obtain ⟨bs, hlen, hnd, hfresh, hin, hibm, hbbm2, hframe, hzero, htbl⟩ :=
        ih st2 i (ii + 1) T (by omega) (by omega) (by omega) h3
          (by rw [show st2.inodes i = st.inodes i from congrFun hst2in i]; exact hind)
          (by
            rw [show st2.inodes i = st.inodes i from congrFun hst2in i, hst2bbm,
              if_neg (Ne.symm hb0ind)]
            exact hbbm) hok2
      rw [show (st2.inodes i).indirect = (st.inodes i).indirect from
        congrArg Inode.indirect (congrFun hst2in i)] at htbl
      refine ⟨b0 :: bs, by simpa using hlen, ?_, ?_, ?_, ?_, ?_, ?_, ?_, ?_⟩
      · rw [List.nodup_cons]
        refine ⟨fun hmem => ?_, hnd⟩
        obtain ⟨_, _, hf⟩ := hfresh b0 hmem
        rw [hst2bbm, if_pos rfl] at hf
        exact Bool.true_eq_false.mp hf
      · intro b hmem
        rcases List.mem_cons.mp hmem with rfl | hmem
        · exact ⟨hb2, hb256, hbfresh⟩
        · obtain ⟨ha, hb, hf⟩ := hfresh b hmem
          rw [hst2bbm] at hf
          by_cases hbb : b = b0
          · rw [if_pos hbb] at hf
            exact absurd hf (by simp)
          · rw [if_neg hbb] at hf
            exact ⟨ha, hb, hf⟩
      · rw [hin, hst2in]
      · rw [hibm, hst2ibm]
      · intro b
        rw [hbbm2 b, hst2bbm b]
        by_cases hbb : b = b0
        · subst hbb
          simp
        · rw [if_neg hbb]
          simp only [List.mem_cons]
          tauto
      · intro b hmem hbi
        have hb0' : b ≠ b0 := fun hco => hmem (hco ▸ List.mem_cons_self b0 bs)
        have hbs : b ∉ bs := fun hco => hmem (List.mem_cons_of_mem b0 hco)
        rw [hframe b hbs (by rw [show (st2.inodes i).indirect = (st.inodes i).indirect from
          congrArg Inode.indirect (congrFun hst2in i)]; exact hbi)]
        exact hst2blk b hb0' hbi
      · intro b hmem
        rcases List.mem_cons.mp hmem with rfl | hmem
        · rw [hframe b0 (by
            intro hco
            obtain ⟨_, _, hf⟩ := hfresh b0 hco
            rw [hst2bbm, if_pos rfl] at hf
            exact Bool.true_eq_false.mp hf)
            (by rw [show (st2.inodes i).indirect = (st.inodes i).indirect from
              congrArg Inode.indirect (congrFun hst2in i)]; exact hb0ind)]
          exact hst2b0
        · exact hzero b hmem
      · intro j hj
        rw [htbl j hj]
        by_cases hcase : ii + 1 ≤ (j : Int) + 1 ∧ (j : Int) + 1 < T
        · rw [if_pos hcase, if_pos ⟨by omega, hcase.2⟩]
          have hidx : j + 1 - ii.toNat = (j + 1 - (ii + 1).toNat) + 1 := by omega
          rw [hidx]
          rfl
        · rw [if_neg hcase]
          by_cases hslot : (j : Int) = ii - 1
          · have hj' : j = (4 * (ii - 1)).toNat / 4 := by omega
            have hoff : 4 * j = (4 * (ii - 1)).toNat := by omega
            rw [if_pos ⟨by omega, by omega⟩]
            rw [hst2tbl, hoff, readInt32_writeInt32 _ _ _ (by omega) (by omega)]
            have : j + 1 - ii.toNat = 0 := by omega
            rw [this]
            rfl
          · rw [if_neg (by omega)]
            rw [hst2tbl, readInt32_writeInt32_other]
            omega

/-- One loop unfolding on a continuing step. -/
theorem growLoop_cons (st stn : FS) (i : Nat) (ii T : Int) (fuel : Nat)
    (h1 : ii < T) (h2 : growStep st i ii = Sum.inr stn) :
    growLoop st i ii T (fuel + 1) = growLoop stn i (ii + 1) T fuel := by
  rw [growLoop, if_pos h1, h2]

/-- One loop unfolding on a failing step. -/
theorem growLoop_fail (st stf : FS) (i : Nat) (ii T : Int) (fuel : Nat)
    (h1 : ii < T) (h2 : growStep st i ii = Sum.inl stf) :
    growLoop st i ii T (fuel + 1) = (stf, -1) := by
  rw [growLoop, if_pos h1, h2]

/-- The grow loop only ever returns 0 or `-1`. -/
theorem growLoop_snd_cases :
    ∀ (fuel : Nat) (st : FS) (i : Nat) (ii T : Int),
      (growLoop st i ii T fuel).snd = 0 ∨ (growLoop st i ii T fuel).snd = -1 := by
  intro fuel
  induction fuel with
  | zero =>
    intro st i ii T
    exact Or.inl rfl
  | succ n ih =>
    intro st i ii T
    by_cases h : ii < T
    · cases hgs : growStep st i ii with
      | inl stf =>
        rw [growLoop_fail st stf i ii T n h hgs]
        exact Or.inr rfl
      | inr stn =>
        rw [growLoop_cons st stn i ii T n h hgs]
        exact ih stn i (ii + 1) T
    · rw [growLoop, if_neg h]
      exact Or.inl rfl

/-- A successful loop run forces every data-block allocation on its path
to succeed; at index 0 the step is the direct-pointer attach. -/
theorem growStep_direct (st : FS) (i : Nat) (hok : 0 ≤ (allocBlock st).snd) :
    growStep st i 0 = Sum.inr
      ((((st.setBbm (allocBlock st).snd true).setBlock (allocBlock st).snd
          zeroBlock).setBlock (allocBlock st).snd zeroBlock).setInode i
        { ((((st.setBbm (allocBlock st).snd true).setBlock (allocBlock st).snd
              zeroBlock).setBlock (allocBlock st).snd zeroBlock)).inodes i with
            block := (allocBlock st).snd }) := by
  obtain ⟨_, _, _, heq⟩ := allocBlock_success st hok
  rw [growStep, if_neg (by omega), heq, growAttach, if_pos rfl]

/-- Success characterization of the whole grow loop started on an inode
with no blocks (`current = 0`) and a target of at least two blocks: all
`T` data blocks and the indirect block are fresh, the table holds exactly
the data blocks `1 .. T-1`, and nothing else changes. -/
theorem growLoop_fresh_spec (st : FS) (i : Nat) (T : Int) (fuel : Nat)
    (hfuel : (fuel : Int) = T) (hT2 : 2 ≤ T) (hT : T ≤ 1024)
    (hind : (st.inodes i).indirect = 0)
    (hok : (growLoop st i 0 T fuel).snd = 0) :
    ∃ bs : List Int, ∃ ib : Int,
      bs.length = T.toNat ∧ bs.Nodup ∧
      (∀ b ∈ bs, 2 ≤ b ∧ b < 256 ∧ st.bbm b = false) ∧
      2 ≤ ib ∧ ib < 256 ∧ st.bbm ib = false ∧ ib ∉ bs ∧
      ((growLoop st i 0 T fuel).fst.inodes i =
        { st.inodes i with block := bs.getD 0 0, indirect := ib }) ∧
      (∀ j, j ≠ i → (growLoop st i 0 T fuel).fst.inodes j = st.inodes j) ∧
      (growLoop st i 0 T fuel).fst.ibm = st.ibm ∧
      (∀ b : Int, (growLoop st i 0 T fuel).fst.bbm b = true ↔
        st.bbm b = true ∨ b ∈ bs ∨ b = ib) ∧
      (∀ b : Int, b ∉ bs → b ≠ ib → (growLoop st i 0 T fuel).fst.blocks b = st.blocks b) ∧
      (∀ b ∈ bs, (growLoop st i 0 T fuel).fst.blocks b = zeroBlock) ∧
      (∀ j : Nat, j < 1024 →
        readInt32 ((growLoop st i 0 T fuel).fst.blocks ib) (4 * j) =
          if (j : Int) + 1 < T then bs.getD (j + 1) 0 else 0) := by
  -- iteration 0: allocate the direct block
  obtain ⟨m, rfl⟩ : ∃ m, fuel = m + 1 := ⟨fuel - 1, by omega⟩
  by_cases hneg : (allocBlock st).snd < 0
  · exfalso
    rw [growLoop_fail st (allocBlock st).fst i 0 T m (by omega)
      (by rw [growStep, if_pos hneg])] at hok
    exact absurd hok (by simp)
  push_neg at hneg
  obtain ⟨hb02, hb0256, hb0f, heq0⟩ := allocBlock_success st hneg
  set b0 := (allocBlock st).snd with hb0def
  set stA : FS := ((st.setBbm b0 true).setBlock b0 zeroBlock).setBlock b0 zeroBlock with hstA
  set st1 : FS := stA.setInode i { stA.inodes i with block := b0 } with hst1
  have hit0 : growLoop st i 0 T (m + 1) = growLoop st1 i 1 T m :=
    growLoop_cons st st1 i 0 T m (by omega) (by rw [growStep_direct st i hneg, ← hb0def])
  rw [hit0] at hok ⊢
  have hst1i : st1.inodes i = { st.inodes i with block := b0 } := by
    rw [hst1, setInode_inodes_same]
    rfl
  have hst1o : ∀ j, j ≠ i → st1.inodes j = st.inodes j := by
    intro j hj
    rw [hst1, setInode_inodes_other _ _ _ _ hj]
    rfl
  have hst1bbm : ∀ b : Int, st1.bbm b = if b = b0 then true else st.bbm b := by
    intro b
    by_cases hb : b = b0
    · rw [if_pos hb, hb]
      show (st.setBbm b0 true).bbm b0 = true
      exact setBbm_same st b0 true
    · rw [if_neg hb]
      show (st.setBbm b0 true).bbm b = st.bbm b
      exact setBbm_other st b0 b true hb
  have hst1blk : ∀ b : Int, b ≠ b0 → st1.blocks b = st.blocks b := by
    intro b hb
    show (((st.setBbm b0 true).setBlock b0 zeroBlock).setBlock b0 zeroBlock).blocks b = _
    rw [setBlock_blocks_other _ _ _ _ hb, setBlock_blocks_other _ _ _ _ hb]
    rfl
  have hst1b0 : st1.blocks b0 = zeroBlock := setBlock_blocks_same _ _ _
  -- iteration 1: allocate the second data block and the indirect block
  obtain ⟨m1, rfl⟩ : ∃ m1, m = m1 + 1 := ⟨m - 1, by omega⟩
  by_cases hneg1 : (allocBlock st1).snd < 0
  · exfalso
    rw [growLoop_fail st1 (allocBlock st1).fst i 1 T m1 (by omega)
      (by rw [growStep, if_pos hneg1])] at hok
    exact absurd hok (by simp)
  push_neg at hneg1
  obtain ⟨hb12, hb1256, hb1f, heq1⟩ := allocBlock_success st1 hneg1
  set b1 := (allocBlock st1).snd with hb1def
  set st1s : FS := ((st1.setBbm b1 true).setBlock b1 zeroBlock).setBlock b1 zeroBlock
    with hst1s
  have hst1si : st1s.inodes i = { st.inodes i with block := b0 } := hst1i
  have hst1sbbm : ∀ b : Int, st1s.bbm b =
      if b = b1 then true else if b = b0 then true else st.bbm b := by
    intro b
    by_cases hb : b = b1
    · rw [if_pos hb, hb]
      show (st1.setBbm b1 true).bbm b1 = true
      exact setBbm_same _ _ _
    · rw [if_neg hb]
      show (st1.setBbm b1 true).bbm b = _
      rw [setBbm_other _ _ _ _ hb]
      exact hst1bbm b
  have hst1sblk : ∀ b : Int, b ≠ b1 → st1s.blocks b = st1.blocks b := by
    intro b hb
    show (((st1.setBbm b1 true).setBlock b1 zeroBlock).setBlock b1 zeroBlock).blocks b =
      st1.blocks b
    rw [setBlock_blocks_other _ _ _ _ hb, setBlock_blocks_other _ _ _ _ hb]
    rfl
  have hst1sb1 : st1s.blocks b1 = zeroBlock := setBlock_blocks_same _ _ _
  by_cases hneg2 : (allocBlock st1s).snd < 0
  · exfalso
    have hgs : growStep st1 i 1 = Sum.inl
        (freeBlock ((allocBlock st1s).fst.setInode i
          { (allocBlock st1s).fst.inodes i with indirect := (allocBlock st1s).snd }) b1) := by
      rw [growStep, if_neg (by omega), ← hb1def, heq1]
      rw [show (((st1.setBbm b1 true).setBlock b1 zeroBlock).setBlock b1 zeroBlock) = st1s
        from rfl]
      rw [growAttach, if_neg (by omega : ¬ (1 : Int) = 0)]
      rw [show st1s.inodes i = { st.inodes i with block := b0 } from hst1si]
      rw [if_pos (by exact hind)]
      rw [growPlaceFresh, if_pos (by
        rw [setInode_inodes_same]
        exact hneg2)]
    rw [growLoop_fail st1 _ i 1 T m1 (by omega) hgs] at hok
    exact absurd hok (by simp)
  push_neg at hneg2
  obtain ⟨hib2, hib256, hibf, heq2⟩ := allocBlock_success st1s hneg2
  set ib : Int := (allocBlock st1s).snd with hibdef
  set stM : FS := ((st1s.setBbm ib true).setBlock ib zeroBlock).setInode i
    { st.inodes i with block := b0, indirect := ib } with hstM
  have hallocM : (allocBlock st1s).fst.setInode i
      { (allocBlock st1s).fst.inodes i with indirect := (allocBlock st1s).snd } = stM := by
    rw [heq2, hstM]
    show ((st1s.setBbm ib true).setBlock ib zeroBlock).setInode i
      { ((st1s.setBbm ib true).setBlock ib zeroBlock).inodes i with indirect := ib } = _
    rw [show ((st1s.setBbm ib true).setBlock ib zeroBlock).inodes i = st1s.inodes i from rfl,
      hst1si]
  set st2 : FS := (stM.setBlock ib zeroBlock).setBlock ib
    (writeInt32 ((stM.setBlock ib zeroBlock).blocks ib) ((4 * ((1 : Int) - 1)).toNat) b1)
    with hst2
  have hgs1 : growStep st1 i 1 = Sum.inr st2 := by
    rw [growStep, if_neg (by omega), ← hb1def, heq1]
    rw [show (((st1.setBbm b1 true).setBlock b1 zeroBlock).setBlock b1 zeroBlock) = st1s
      from rfl]
    rw [growAttach, if_neg (by omega : ¬ (1 : Int) = 0)]
    rw [show st1s.inodes i = { st.inodes i with block := b0 } from hst1si]
    rw [if_pos (by exact hind)]
    rw [growPlaceFresh, hallocM]
    rw [if_neg (by
      rw [hstM, setInode_inodes_same]
      show ¬ ib < 0
      omega)]
    rw [show (stM.inodes i).indirect = ib by rw [hstM, setInode_inodes_same]]
  have hit1 : growLoop st1 i 1 T (m1 + 1) = growLoop st2 i 2 T m1 :=
    growLoop_cons st1 st2 i 1 T m1 (by omega) hgs1
  rw [hit1] at hok ⊢
  -- facts about st2 relative to st
  have hst2i : st2.inodes i = { st.inodes i with block := b0, indirect := ib } := by
    rw [hst2]
    show (stM.inodes i) = _
    rw [hstM, setInode_inodes_same]
  have hst2o : ∀ j, j ≠ i → st2.inodes j = st.inodes j := by
    intro j hj
    rw [hst2]
    show (stM.inodes j) = _
    rw [hstM, setInode_inodes_other _ _ _ _ hj]
    show st1.inodes j = _
    exact hst1o j hj
  have hst2ibm : st2.ibm = st.ibm := rfl
  have hb1b0 : b1 ≠ b0 := by
    intro hco
    rw [hco, hst1bbm, if_pos rfl] at hb1f
    exact Bool.true_eq_false.mp hb1f
  have hb1stf : st.bbm b1 = false := by
    rw [hst1bbm, if_neg hb1b0] at hb1f
    exact hb1f
  have hibb1 : ib ≠ b1 := by
    intro hco
    rw [hco, hst1sbbm, if_pos rfl] at hibf
    exact Bool.true_eq_false.mp hibf
  have hibb0 : ib ≠ b0 := by
    intro hco
    rw [hco, hst1sbbm, if_neg (Ne.symm hb1b0), if_pos rfl] at hibf
    exact Bool.true_eq_false.mp hibf
  have hibstf : st.bbm ib = false := by
    rw [hst1sbbm, if_neg hibb1, if_neg hibb0] at hibf
    exact hibf
  have hst2bbm : ∀ b : Int, st2.bbm b =
      if b = ib then true else if b = b1 then true else if b = b0 then true
      else st.bbm b := by
    intro b
    by_cases hb : b = ib
    · rw [if_pos hb, hb]
      show (st1s.setBbm ib true).bbm ib = true
      exact setBbm_same _ _ _
    · rw [if_neg hb]
      show (st1s.setBbm ib true).bbm b = _
      rw [setBbm_other _ _ _ _ hb]
      exact hst1sbbm b
  have hb1ib : b1 ≠ ib := Ne.symm hibb1
  have hb0ib : b0 ≠ ib := Ne.symm hibb0
  have hoff0 : ((4 * ((1 : Int) - 1)).toNat) = 0 := by norm_num
  have hst2ib : st2.blocks ib = writeInt32 zeroBlock 0 b1 := by
    rw [hst2, setBlock_blocks_same, setBlock_blocks_same, hoff0]
  have hst2b1 : st2.blocks b1 = zeroBlock := by
    rw [hst2, setBlock_blocks_other _ _ _ _ hb1ib, setBlock_blocks_other _ _ _ _ hb1ib]
    show ((st1s.setBbm ib true).setBlock ib zeroBlock).blocks b1 = _
    rw [setBlock_blocks_other _ _ _ _ hb1ib]
    show st1s.blocks b1 = _
    exact hst1sb1
  have hst2b0 : st2.blocks b0 = zeroBlock := by
    rw [hst2, setBlock_blocks_other _ _ _ _ hb0ib, setBlock_blocks_other _ _ _ _ hb0ib]
    show ((st1s.setBbm ib true).setBlock ib zeroBlock).blocks b0 = _
    rw [setBlock_blocks_other _ _ _ _ hb0ib]
    show st1s.blocks b0 = _
    rw [hst1sblk b0 (Ne.symm hb1b0)]
    exact hst1b0
  have hst2other : ∀ b : Int, b ≠ b0 → b ≠ b1 → b ≠ ib → st2.blocks b = st.blocks b := by
    intro b h0 h1 h2
    rw [hst2, setBlock_blocks_other _ _ _ _ h2, setBlock_blocks_other _ _ _ _ h2]
    show ((st1s.setBbm ib true).setBlock ib zeroBlock).blocks b = _
    rw [setBlock_blocks_other _ _ _ _ h2]
    show st1s.blocks b = _
    rw [hst1sblk b h1]
    exact hst1blk b h0
  -- the rest of the loop through the suffix lemma
  have hindeq : (st2.inodes i).indirect = ib := by rw [hst2i]
  have hST := growLoop_suffix_spec m1 st2 i 2 T (by omega) (by omega) (by omega) hT
    (by rw [hindeq]; omega) (by rw [hindeq, hst2bbm, if_pos rfl]) hok
  rw [hindeq] at hST
  obtain ⟨bs2, hlen2, hnd2, hfresh2, hin2, hibm2, hbbm2, hframe2, hzero2, htbl2⟩ := hST
  have hstbbm_of_fresh : ∀ b ∈ bs2, st.bbm b = false := by
    intro b hmem
    obtain ⟨_, _, hf⟩ := hfresh2 b hmem
    rw [hst2bbm] at hf
    by_cases h1 : b = ib
    · rw [if_pos h1] at hf
      exact absurd hf (by simp)
    rw [if_neg h1] at hf
    by_cases h2 : b = b1
    · rw [if_pos h2] at hf
      exact absurd hf (by simp)
    rw [if_neg h2] at hf
    by_cases h3 : b = b0
    · rw [if_pos h3] at hf
      exact absurd hf (by simp)
    rw [if_neg h3] at hf
    exact hf
  have hb0bs : b0 ∉ bs2 := by
    intro hmem
    obtain ⟨_, _, hf⟩ := hfresh2 b0 hmem
    rw [hst2bbm, if_neg hb0ib, if_neg (Ne.symm hb1b0), if_pos rfl] at hf
    exact Bool.true_eq_false.mp hf
  have hb1bs : b1 ∉ bs2 := by
    intro hmem
    obtain ⟨_, _, hf⟩ := hfresh2 b1 hmem
    rw [hst2bbm, if_neg hb1ib, if_pos rfl] at hf
    exact Bool.true_eq_false.mp hf
  have hibbs : ib ∉ bs2 := by
    intro hmem
    obtain ⟨_, _, hf⟩ := hfresh2 ib hmem
    rw [hst2bbm, if_pos rfl] at hf
    exact Bool.true_eq_false.mp hf
  refine ⟨b0 :: b1 :: bs2, ib, ?_, ?_, ?_, hib2, hib256, hibstf, ?_, ?_, ?_, ?_, ?_, ?_,
    ?_, ?_⟩
  · simp only [List.length_cons, hlen2]
    omega
  · rw [List.nodup_cons, List.nodup_cons]
    refine ⟨?_, ?_, hnd2⟩
    · intro hmem
      rcases List.mem_cons.mp hmem with h | h
      · exact (Ne.symm hb1b0) h
      · exact hb0bs h
    · exact hb1bs
  · intro b hmem
    rcases List.mem_cons.mp hmem with rfl | hmem1
    · exact ⟨hb02, hb0256, hb0f⟩
    rcases List.mem_cons.mp hmem1 with rfl | hmem2
    · exact ⟨hb12, hb1256, hb1stf⟩
    · obtain ⟨ha, hb', _⟩ := hfresh2 b hmem2
      exact ⟨ha, hb', hstbbm_of_fresh b hmem2⟩
  · intro hmem
    rcases List.mem_cons.mp hmem with h | hmem1
    · exact hibb0 h
    rcases List.mem_cons.mp hmem1 with h | hmem2
    · exact hibb1 h
    · exact hibbs hmem2
  · rw [hin2, hst2i]
    rfl
  · intro j hj
    rw [hin2]
    exact hst2o j hj
  · rw [hibm2]
    exact hst2ibm
  · intro b
    rw [hbbm2 b, hst2bbm b]
    simp only [List.mem_cons]
    by_cases h1 : b = ib
    · rw [if_pos h1]
      simp [h1]
    rw [if_neg h1]
    by_cases h2 : b = b1
    · rw [if_pos h2]
      simp [h2]
    rw [if_neg h2]
    by_cases h3 : b = b0
    · rw [if_pos h3]
      simp [h3]
    rw [if_neg h3]
    simp [h1, h2, h3]
  · intro b hmem hib'
    have h0 : b ≠ b0 := fun hco => hmem (by rw [hco]; exact List.mem_cons_self _ _)
    have h1 : b ≠ b1 := fun hco => hmem (by
      rw [hco]
      exact List.mem_cons_of_mem _ (List.mem_cons_self _ _))
    have h2 : b ∉ bs2 := fun hco =>
      hmem (List.mem_cons_of_mem _ (List.mem_cons_of_mem _ hco))
    rw [hframe2 b h2 hib']
    exact hst2other b h0 h1 hib'
  · intro b hmem
    rcases List.mem_cons.mp hmem with rfl | hmem1
    · rw [hframe2 b0 hb0bs hb0ib]
      exact hst2b0
    rcases List.mem_cons.mp hmem1 with rfl | hmem2
    · rw [hframe2 b1 hb1bs hb1ib]
      exact hst2b1
    · exact hzero2 b hmem2
  · intro j hj
    rw [htbl2 j hj]
    by_cases hc : 2 ≤ (j : Int) + 1 ∧ (j : Int) + 1 < T
    · rw [if_pos hc, if_pos hc.2]
      have hi1 : j + 1 - (2 : Int).toNat = j - 1 := by omega
      have hi2 : j + 1 = (j - 1) + 2 := by omega
      rw [hi1, hi2]
      rfl
    · rw [if_neg hc]
      by_cases hj0 : j = 0
      · subst hj0
        rw [if_pos (by omega : ((0 : Nat) : Int) + 1 < T)]
        rw [hst2ib]
        rw [show 4 * 0 = 0 from rfl, readInt32_writeInt32 _ _ _ (by omega) (by omega)]
        rfl
      · rw [if_neg (by omega)]
        rw [hst2ib, readInt32_writeInt32_other _ _ _ _ (by omega)]
        exact readInt32_zeroBlock _

theorem bytesToBlocks_zero : bytesToBlocks 0 = 0 := rfl

theorem bytesToBlocks_nonneg (n : Int) : 0 ≤ bytesToBlocks n := by
  rw [bytesToBlocks]
  split_ifs <;> omega

/-- `inode_get_bnum` written out without the pointer binding. -/
theorem inodeGetBnum_eq (st : FS) (i : Nat) (k : Int) :
    inodeGetBnum st i k =
      if k < 0 then -1
      else if k = 0 then (st.inodes i).block
      else if (st.inodes i).indirect = 0 then -1
      else if 1024 ≤ k - 1 then -1
      else readInt32 (st.blocks (st.inodes i).indirect) (4 * (k - 1)).toNat := rfl

/-- Success characterization of `grow_inode` on an inode that currently
has no blocks (`size = 0`, `block = 0`, `indirect = 0`): afterwards every
logical block below the target count maps through `inode_get_bnum` to a
fresh, pairwise distinct, zeroed data block; the indirect block (present
exactly when at least two blocks are needed) is fresh as well, its unused
tail is zero, and nothing else in the filesystem changes. -/
theorem growInode_fresh_spec (st : FS) (now : Int) (i : Nat) (size : Int)
    (h0 : (st.inodes i).size = 0) (hbz : (st.inodes i).block = 0)
    (hiz : (st.inodes i).indirect = 0)
    (hT : bytesToBlocks size ≤ 1024)
    (hok : (growInode st now i size).snd = 0) :
    ((growInode st now i size).fst.inodes i).size = size ∧
    ((growInode st now i size).fst.inodes i).refs = (st.inodes i).refs ∧
    ((growInode st now i size).fst.inodes i).mode = (st.inodes i).mode ∧
    (∀ j, j ≠ i → (growInode st now i size).fst.inodes j = st.inodes j) ∧
    (growInode st now i size).fst.ibm = st.ibm ∧
    (∀ k : Int, 0 ≤ k → k < bytesToBlocks size →
      2 ≤ inodeGetBnum (growInode st now i size).fst i k ∧
      inodeGetBnum (growInode st now i size).fst i k < 256 ∧
      st.bbm (inodeGetBnum (growInode st now i size).fst i k) = false ∧
      (growInode st now i size).fst.bbm (inodeGetBnum (growInode st now i size).fst i k) =
        true ∧
      (growInode st now i size).fst.blocks (inodeGetBnum (growInode st now i size).fst i k) =
        zeroBlock) ∧
    (∀ k l : Int, 0 ≤ k → k < bytesToBlocks size → 0 ≤ l → l < bytesToBlocks size →
      k ≠ l →
      inodeGetBnum (growInode st now i size).fst i k ≠
        inodeGetBnum (growInode st now i size).fst i l) ∧
    ((bytesToBlocks size ≤ 1 → ((growInode st now i size).fst.inodes i).indirect = 0) ∧
     (2 ≤ bytesToBlocks size →
       2 ≤ ((growInode st now i size).fst.inodes i).indirect ∧
       ((growInode st now i size).fst.inodes i).indirect < 256 ∧
       st.bbm ((growInode st now i size).fst.inodes i).indirect = false ∧
       (growInode st now i size).fst.bbm ((growInode st now i size).fst.inodes i).indirect =
         true ∧
       (∀ k : Int, 0 ≤ k → k < bytesToBlocks size →
         inodeGetBnum (growInode st now i size).fst i k ≠
           ((growInode st now i size).fst.inodes i).indirect))) ∧
    (∀ b : Int, st.bbm b = true →
      (growInode st now i size).fst.blocks b = st.blocks b ∧
      (growInode st now i size).fst.bbm b = true) ∧
    (∀ b : Int, (growInode st now i size).fst.bbm b = true →
      st.bbm b = true ∨ (2 ≤ bytesToBlocks size ∧ b = ((growInode st now i size).fst.inodes i).indirect) ∨
      ∃ k : Int, 0 ≤ k ∧ k < bytesToBlocks size ∧
        b = inodeGetBnum (growInode st now i size).fst i k) ∧
    (2 ≤ bytesToBlocks size → ∀ j : Nat, (bytesToBlocks size - 1).toNat ≤ j → j < 1024 →
      readInt32
        ((growInode st now i size).fst.blocks ((growInode st now i size).fst.inodes i).indirect)
        (4 * j) = 0) := by
  have hT0 : 0 ≤ bytesToBlocks size := bytesToBlocks_nonneg size
  set T := bytesToBlocks size with hTdef
  -- reduce growInode to the loop plus the final size/mtime commit
  have hgrow0 : growInode st now i size =
      (if (growLoop st i (bytesToBlocks (st.inodes i).size) T
            (T - bytesToBlocks (st.inodes i).size).toNat).snd < 0 then
        ((growLoop st i (bytesToBlocks (st.inodes i).size) T
            (T - bytesToBlocks (st.inodes i).size).toNat).fst, -1)
      else
        ((growLoop st i (bytesToBlocks (st.inodes i).size) T
            (T - bytesToBlocks (st.inodes i).size).toNat).fst.setInode i
          { (growLoop st i (bytesToBlocks (st.inodes i).size) T
              (T - bytesToBlocks (st.inodes i).size).toNat).fst.inodes i with
              size := size, mtime := now }, 0)) := rfl
  rw [h0, bytesToBlocks_zero] at hgrow0
  by_cases hfail : (growLoop st i 0 T (T - 0).toNat).snd < 0
  · exfalso
    rw [hgrow0, if_pos hfail] at hok
    exact absurd hok (by simp)
  have hloopok : (growLoop st i 0 T (T - 0).toNat).snd = 0 := by
    rcases growLoop_snd_cases ((T - 0).toNat) st i 0 T with h | h
    · exact h
    · exact absurd h (by omega)
  have heqF : (growInode st now i size).fst =
      (growLoop st i 0 T (T - 0).toNat).fst.setInode i
        { (growLoop st i 0 T (T - 0).toNat).fst.inodes i with size := size, mtime := now } := by
    rw [hgrow0, if_neg hfail]
  rw [heqF]
  set stG : FS := (growLoop st i 0 T (T - 0).toNat).fst with hstG
  set stF : FS := stG.setInode i { stG.inodes i with size := size, mtime := now } with hstF
  by_cases hT2 : 2 ≤ T
  · -- at least two blocks: the full fresh-loop characterization applies
    obtain ⟨bs, ib, hlen, hnd, hfresh, hib2, hib256, hibf, hibnb, hgi, hgo, hgibm, hgbbm,
      hgframe, hgzero, hgtbl⟩ :=
      growLoop_fresh_spec st i T ((T - 0).toNat) (by omega) hT2 hT hiz hloopok
    have hFi : stF.inodes i =
        { st.inodes i with
            block := bs.getD 0 0, indirect := ib, size := size, mtime := now } := by
      rw [hstF, setInode_inodes_same, hgi]
    have hFblock : (stF.inodes i).block = bs.getD 0 0 := by rw [hFi]
    have hFind : (stF.inodes i).indirect = ib := by rw [hFi]
    have hB : ∀ k : Int, 0 ≤ k → k < T → inodeGetBnum stF i k = bs.getD k.toNat 0 := by
      intro k hk0 hkT
      rw [inodeGetBnum_eq, if_neg (by omega : ¬ k < 0)]
      by_cases hk : k = 0
      · rw [if_pos hk, hFblock, hk]
        rfl
      · rw [if_neg hk, hFind, if_neg (by omega : ¬ ib = 0),
          if_neg (by omega : ¬ (1024 : Int) ≤ k - 1)]
        rw [show stF.blocks = stG.blocks from rfl]
        have hj : (k - 1).toNat < 1024 := by omega
        have h4 : (4 * (k - 1)).toNat = 4 * (k - 1).toNat := by omega
        rw [h4, hgtbl (k - 1).toNat hj,
          if_pos (by omega : ((k - 1).toNat : Int) + 1 < T)]
        rw [show (k - 1).toNat + 1 = k.toNat from by omega]
    have hmemB : ∀ k : Int, 0 ≤ k → k < T → bs.getD k.toNat 0 ∈ bs := by
      intro k hk0 hkT
      have hlt : k.toNat < bs.length := by rw [hlen]; omega
      rw [List.getD_eq_getElem _ _ hlt]
      exact List.getElem_mem hlt
    refine ⟨by rw [hFi], by rw [hFi], by rw [hFi], ?_, ?_, ?_, ?_, ⟨?_, ?_⟩, ?_, ?_, ?_⟩
    · intro j hj
      rw [hstF, setInode_inodes_other _ _ _ _ hj]
      exact hgo j hj
    · rw [show stF.ibm = stG.ibm from rfl]
      exact hgibm
    · intro k hk0 hkT
      rw [hB k hk0 hkT]
      obtain ⟨ha, hb', hf⟩ := hfresh _ (hmemB k hk0 hkT)
      refine ⟨ha, hb', hf, ?_, ?_⟩
      · exact (hgbbm _).mpr (Or.inr (Or.inl (hmemB k hk0 hkT)))
      · rw [show stF.blocks = stG.blocks from rfl]
        exact hgzero _ (hmemB k hk0 hkT)
    · intro k l hk0 hkT hl0 hlT hkl
      rw [hB k hk0 hkT, hB l hl0 hlT]
      have hlt1 : k.toNat < bs.length := by rw [hlen]; omega
      have hlt2 : l.toNat < bs.length := by rw [hlen]; omega
      rw [List.getD_eq_getElem _ _ hlt1, List.getD_eq_getElem _ _ hlt2]
      intro hco
      have : k.toNat = l.toNat := (List.Nodup.getElem_inj_iff hnd).mp hco
      omega
    · intro h
      exact absurd h (by omega)
    · intro _
      rw [hFind]
      refine ⟨hib2, hib256, hibf, (hgbbm _).mpr (Or.inr (Or.inr rfl)), ?_⟩
      intro k hk0 hkT
      rw [hB k hk0 hkT]
      intro hco
      exact hibnb (hco ▸ hmemB k hk0 hkT)
    · intro b hbset
      constructor
      · rw [show stF.blocks = stG.blocks from rfl]
        apply hgframe
        · intro hmem
          obtain ⟨_, _, hf⟩ := hfresh b hmem
          exact absurd (hbset.symm.trans hf) (by simp)
        · intro hco
          rw [hco, hibf] at hbset
          exact absurd hbset (by simp)
      · exact (hgbbm b).mpr (Or.inl hbset)
    · intro b hbset
      rcases (hgbbm b).mp hbset with h | h | h
      · exact Or.inl h
      · obtain ⟨m, hm, hmb⟩ := List.mem_iff_getElem.mp h
        have hmT : (m : Int) < T := by
          rw [hlen] at hm
          omega
        refine Or.inr (Or.inr ⟨(m : Int), by omega, hmT, ?_⟩)
        rw [hB _ (by omega) hmT, Int.toNat_natCast,
          List.getD_eq_getElem _ _ hm]
        exact hmb.symm
      · exact Or.inr (Or.inl ⟨hT2, by rw [hFind]; exact h⟩)
    · intro _ j hjlo hjhi
      rw [show stF.blocks = stG.blocks from rfl, hFind, hgtbl j hjhi,
        if_neg (by omega : ¬ ((j : Int) + 1 < T))]
  · -- at most one block
    by_cases hT1 : T = 1
    · -- exactly one block: a single direct-pointer iteration
      have hfe : ((T : Int) - 0).toNat = 1 := by omega
      rw [hfe] at hloopok hstG
      by_cases hneg : (allocBlock st).snd < 0
      · exfalso
        rw [growLoop_fail st (allocBlock st).fst i 0 T 0 (by omega)
          (by rw [growStep, if_pos hneg])] at hloopok
        exact absurd hloopok (by simp)
      push_neg at hneg
      obtain ⟨hb02, hb0256, hb0f, heq0⟩ := allocBlock_success st hneg
      set b0 := (allocBlock st).snd with hb0def
      set st1 : FS := (((st.setBbm b0 true).setBlock b0 zeroBlock).setBlock b0
        zeroBlock).setInode i
        { (((st.setBbm b0 true).setBlock b0 zeroBlock).setBlock b0 zeroBlock).inodes i with
            block := b0 } with hst1
      have hit0 : growLoop st i 0 T 1 = (st1, 0) := by
        rw [growLoop_cons st st1 i 0 T 0 (by omega)
          (by rw [growStep_direct st i hneg, ← hb0def]), growLoop]
      have heqG : stG = st1 := by rw [hstG, hit0]
      have hGi : stG.inodes i = { st.inodes i with block := b0 } := by
        rw [heqG, hst1, setInode_inodes_same]
        rfl
      have hGo : ∀ j, j ≠ i → stG.inodes j = st.inodes j := by
        intro j hj
        rw [heqG, hst1, setInode_inodes_other _ _ _ _ hj]
        rfl
      have hGbbm : ∀ b : Int, stG.bbm b = if b = b0 then true else st.bbm b := by
        intro b
        rw [heqG]
        by_cases hb : b = b0
        · rw [if_pos hb, hb]
          show (st.setBbm b0 true).bbm b0 = true
          exact setBbm_same _ _ _
        · rw [if_neg hb]
          show (st.setBbm b0 true).bbm b = _
          exact setBbm_other _ _ _ _ hb
      have hGblk : ∀ b : Int, b ≠ b0 → stG.blocks b = st.blocks b := by
        intro b hb
        rw [heqG]
        show ((((st.setBbm b0 true).setBlock b0 zeroBlock).setBlock b0
          zeroBlock)).blocks b = _
        rw [setBlock_blocks_other _ _ _ _ hb, setBlock_blocks_other _ _ _ _ hb]
        rfl
      have hGb0 : stG.blocks b0 = zeroBlock := by
        rw [heqG]
        exact setBlock_blocks_same _ _ _
      have hFi : stF.inodes i =
          { st.inodes i with block := b0, size := size, mtime := now } := by
        rw [hstF, setInode_inodes_same, hGi]
      have hFind : (stF.inodes i).indirect = (st.inodes i).indirect := by rw [hFi]
      have hB0 : inodeGetBnum stF i 0 = b0 := by
        rw [inodeGetBnum_eq, if_neg (by omega : ¬ (0 : Int) < 0), if_pos rfl, hFi]
      refine ⟨by rw [hFi], by rw [hFi], by rw [hFi], ?_, ?_, ?_, ?_, ⟨?_, ?_⟩, ?_, ?_, ?_⟩
      · intro j hj
        rw [hstF, setInode_inodes_other _ _ _ _ hj]
        exact hGo j hj
      · rw [show stF.ibm = stG.ibm from rfl, heqG]
        rfl
      · intro k hk0 hkT
        have hk : k = 0 := by omega
        subst hk
        rw [hB0]
        refine ⟨hb02, hb0256, hb0f, ?_, ?_⟩
        · show stG.bbm b0 = true
          rw [hGbbm, if_pos rfl]
        · show stG.blocks b0 = zeroBlock
          exact hGb0
      · intro k l hk0 hkT hl0 hlT hkl
        omega
      · intro _
        rw [hFind]
        exact hiz
      · intro h
        omega
      · intro b hbset
        have hbne : b ≠ b0 := by
          intro hco
          rw [hco, hb0f] at hbset
          exact absurd hbset (by simp)
        constructor
        · rw [show stF.blocks = stG.blocks from rfl]
          exact hGblk b hbne
        · show stG.bbm b = true
          rw [hGbbm, if_neg hbne]
          exact hbset
      · intro b hbset
        have : stG.bbm b = true := hbset
        rw [hGbbm] at this
        by_cases hb : b = b0
        · refine Or.inr (Or.inr ⟨0, le_refl _, by omega, ?_⟩)
          rw [hB0, hb]
        · rw [if_neg hb] at this
          exact Or.inl this
      · intro h
        omega
    · -- zero blocks: the loop body never runs
      have hTz : T = 0 := by omega
      have hfe : ((T : Int) - 0).toNat = 0 := by omega
      rw [hfe] at hstG
      have heqG : stG = st := by rw [hstG]; rfl
      have hFi : stF.inodes i = { st.inodes i with size := size, mtime := now } := by
        rw [hstF, setInode_inodes_same, heqG]
      refine ⟨by rw [hFi], by rw [hFi], by rw [hFi], ?_, ?_, ?_, ?_, ⟨?_, ?_⟩, ?_, ?_, ?_⟩
      · intro j hj
        rw [hstF, setInode_inodes_other _ _ _ _ hj, heqG]
      · rw [show stF.ibm = stG.ibm from rfl, heqG]
      · intro k hk0 hkT
        omega
      · intro k l hk0 hkT hl0 hlT hkl
        omega
      · intro _
        rw [show (stF.inodes i).indirect = (st.inodes i).indirect from by rw [hFi]]
        exact hiz
      · intro h
        omega
      · intro b hbset
        constructor
        · rw [show stF.blocks = stG.blocks from rfl, heqG]
        · show stG.bbm b = true
          rw [heqG]
          exact hbset
      · intro b hbset
        have : stG.bbm b = true := hbset
        rw [heqG] at this
        exact Or.inl this
      · intro h
        omega

/-- C8 witness: deleting `"a"` from the root of `stFileA` returns 0 and
leaves the inode table untouched. -/
theorem c8_witness :
    (directoryDelete stFileA 0 [97]).snd = 0 ∧
    (directoryDelete stFileA 0 [97]).fst.inodes = stFileA.inodes ∧
    (directoryDelete stFileA 0 [97]).fst.blocks 2 3 = 0 := by
  have h := ((c8_delete_frame stFileA 0 [97]).2 (by decide)).2.1 0 (by decide) 2 0 (by decide)
  exact ⟨h.1, h.2.1, h.2.2.2.2.1 3 (by omega) (by omega)⟩

/-! ### C7: directory_put name-length behavior -/

/-- `bytesToBlocks` of an exact positive block multiple. -/
theorem bytesToBlocks_mul (c : Int) (hc : 1 ≤ c) : bytesToBlocks (4096 * c) = c := by
  rw [bytesToBlocks, if_neg (by omega : ¬ 4096 * c ≤ 0)]
  have h1 : (4096 * c + 4095).toNat = 4096 * c.toNat + 4095 := by omega
  have h2 : (4096 * c.toNat + 4095) / 4096 = c.toNat := by omega
  rw [h1, h2]
  omega

/-- If every scanned slot is locatable and some slot in range is empty,
the `directory_put` empty-slot scan finds one. -/
theorem findEmpty_of_exists (st : FS) (di : Nat) :
    ∀ fuel start,
      (∀ jj, start ≤ jj → jj < start + fuel → dirEntryLoc st di jj ≠ none) →
      (∃ jj, start ≤ jj ∧ jj < start + fuel ∧ entryEmptyB st di jj = true) →
      ∃ b o, dirFindEmptyLoop st di start fuel = some (b, o) := by
  intro fuel
  induction fuel with
  | zero =>
    intro start _ h
    obtain ⟨jj, h1, h2, _⟩ := h
    omega
  | succ n ih =>
    intro start hwf hex
    rw [dirFindEmptyLoop]
    cases hloc : dirEntryLoc st di start with
    | none => exact absurd hloc (hwf start (le_refl _) (by omega))
    | some p =>
      obtain ⟨b, o⟩ := p
      simp only
      by_cases hm : entryInumAt st b o = 0 ∨ (st.blocks b) o = 0
      · exact ⟨b, o, by rw [if_pos hm]⟩
      · simp only [if_neg hm]
        apply ih (start + 1)
        · intro jj ha hb
          exact hwf jj (by omega) (by omega)
        · obtain ⟨jj, h1, h2, h3⟩ := hex
          refine ⟨jj, ?_, by omega, h3⟩
          rcases Nat.eq_or_lt_of_le h1 with rfl | h
          · exfalso
            rw [entryEmptyB, hloc] at h3
            simp only [Bool.or_eq_true, decide_eq_true_eq] at h3
            exact hm h3
          · omega

/-- A successful one-block `grow_inode` on an inode holding exactly `c`
blocks (`1 ≤ c ≤ 1023`) makes logical block `c` resolvable: the fresh
data block's number lands in table slot `c - 1`. -/
theorem growInode_one_bnum (st : FS) (now : Int) (i : Nat) (c : Int)
    (hc1 : 1 ≤ c) (hc2 : c ≤ 1023)
    (hsz : (st.inodes i).size = 4096 * c)
    (hok : (growInode st now i (4096 * c + 4096)).snd = 0) :
    0 < inodeGetBnum (growInode st now i (4096 * c + 4096)).fst i c := by
  have hcur : bytesToBlocks (st.inodes i).size = c := by
    rw [hsz]; exact bytesToBlocks_mul c hc1
  have htgt : bytesToBlocks (4096 * c + 4096) = c + 1 := by
    have h : (4096 : Int) * c + 4096 = 4096 * (c + 1) := by ring
    rw [h]; exact bytesToBlocks_mul (c + 1) (by omega)
  have hgrow0 : growInode st now i (4096 * c + 4096) =
      (if (growLoop st i (bytesToBlocks (st.inodes i).size) (bytesToBlocks (4096 * c + 4096))
            (bytesToBlocks (4096 * c + 4096) - bytesToBlocks (st.inodes i).size).toNat).snd
          < 0 then
        ((growLoop st i (bytesToBlocks (st.inodes i).size) (bytesToBlocks (4096 * c + 4096))
            (bytesToBlocks (4096 * c + 4096) - bytesToBlocks (st.inodes i).size).toNat).fst, -1)
      else
        ((growLoop st i (bytesToBlocks (st.inodes i).size) (bytesToBlocks (4096 * c + 4096))
            (bytesToBlocks (4096 * c + 4096) - bytesToBlocks (st.inodes i).size).toNat).fst.setInode
          i
          { (growLoop st i (bytesToBlocks (st.inodes i).size) (bytesToBlocks (4096 * c + 4096))
              (bytesToBlocks (4096 * c + 4096) -
                bytesToBlocks (st.inodes i).size).toNat).fst.inodes i with
              size := 4096 * c + 4096, mtime := now }, 0)) := rfl
  rw [hcur, htgt, show (c + 1 - c).toNat = 1 from by omega] at hgrow0
  have hstep : growLoop st i c (c + 1) 1 =
      (match growStep st i c with
       | Sum.inl stf => (stf, -1)
       | Sum.inr stn => (stn, 0)) := by
    rw [growLoop, if_pos (by omega : c < c + 1)]
    cases growStep st i c with
    | inl stf => rfl
    | inr stn => rfl
  by_cases hna : (allocBlock st).snd < 0
  · exfalso
    have hfail : growStep st i c = Sum.inl (allocBlock st).fst := by
      rw [growStep, if_pos hna]
    rw [hgrow0, hstep, hfail] at hok
    exact absurd hok (by simp)
  · obtain ⟨hb2, hb256, hbf, heq⟩ := allocBlock_success st (by omega)
    have hgs : growStep st i c =
        growAttach ((allocBlock st).fst.setBlock (allocBlock st).snd zeroBlock) i c
          (allocBlock st).snd := by
      rw [growStep, if_neg hna]
    set b0 : Int := (allocBlock st).snd with hb0
    set stA : FS := (allocBlock st).fst.setBlock b0 zeroBlock with hstA
    have hAin : stA.inodes = st.inodes := by
      rw [hstA, heq]
      rfl
    rw [growAttach, if_neg (by omega : ¬ c = 0)] at hgs
    by_cases hind : (stA.inodes i).indirect = 0
    · -- first use of the indirect table: a second allocation provides it
      rw [if_pos hind] at hgs
      set ib : Int := (allocBlock stA).snd with hib
      set st2 : FS := (allocBlock stA).fst.setInode i
        { (allocBlock stA).fst.inodes i with indirect := ib } with hst2
      have h2ind : (st2.inodes i).indirect = ib := by
        rw [hst2, setInode_inodes_same]
      by_cases hia : ib < 0
      · exfalso
        have hgs2 : growStep st i c = Sum.inl (freeBlock st2 b0) := by
          rw [hgs, growPlaceFresh, if_pos (by rw [h2ind]; exact hia)]
        rw [hgrow0, hstep, hgs2] at hok
        exact absurd hok (by simp)
      · obtain ⟨hib2, hib256, hibf, hieq⟩ := allocBlock_success stA (by omega)
        have hgs2 : growStep st i c = Sum.inr
            ((st2.setBlock (st2.inodes i).indirect zeroBlock).setBlock (st2.inodes i).indirect
              (writeInt32
                ((st2.setBlock (st2.inodes i).indirect zeroBlock).blocks (st2.inodes i).indirect)
                ((4 * (c - 1)).toNat) b0)) := by
          rw [hgs, growPlaceFresh, if_neg (by rw [h2ind]; omega)]
        set stn : FS := (st2.setBlock (st2.inodes i).indirect zeroBlock).setBlock
          (st2.inodes i).indirect
          (writeInt32
            ((st2.setBlock (st2.inodes i).indirect zeroBlock).blocks (st2.inodes i).indirect)
            ((4 * (c - 1)).toNat) b0) with hstn
        have hloopv : growLoop st i c (c + 1) 1 = (stn, 0) := by rw [hstep, hgs2]
        have hfst : (growInode st now i (4096 * c + 4096)).fst =
            stn.setInode i { stn.inodes i with size := 4096 * c + 4096, mtime := now } := by
          rw [hgrow0, hloopv, if_neg (by omega : ¬ (0 : Int) < 0)]
        rw [hfst]
        have hnin : (stn.setInode i
            { stn.inodes i with size := 4096 * c + 4096, mtime := now }).inodes i =
            { stn.inodes i with size := 4096 * c + 4096, mtime := now } :=
          setInode_inodes_same _ _ _
        have hnind : (stn.inodes i).indirect = ib := by
          rw [hstn]
          show (st2.inodes i).indirect = ib
          exact h2ind
        rw [inodeGetBnum_eq, if_neg (by omega : ¬ c < 0), if_neg (by omega : ¬ c = 0), hnin]
        have hindf : ({ stn.inodes i with
            size := 4096 * c + 4096, mtime := now } : Inode).indirect = ib := by
          show (stn.inodes i).indirect = ib
          exact hnind
        rw [hindf, if_neg (by omega : ¬ ib = 0), if_neg (by omega : ¬ (1024 : Int) ≤ c - 1)]
        have hblk : (stn.setInode i
              { stn.inodes i with size := 4096 * c + 4096, mtime := now }).blocks ib =
            writeInt32
              ((st2.setBlock (st2.inodes i).indirect zeroBlock).blocks (st2.inodes i).indirect)
              ((4 * (c - 1)).toNat) b0 := by
          show stn.blocks ib = _
          rw [hstn]
          have : ib = (st2.inodes i).indirect := h2ind.symm
          rw [this]
          exact setBlock_blocks_same _ _ _
        rw [hblk, readInt32_writeInt32 _ _ _ (by omega) (by omega)]
        omega
    · -- the indirect table already exists: write the slot directly
      rw [if_neg hind] at hgs
      set stn : FS := stA.setBlock (stA.inodes i).indirect
        (writeInt32 (stA.blocks (stA.inodes i).indirect) ((4 * (c - 1)).toNat) b0) with hstn
      have hloopv : growLoop st i c (c + 1) 1 = (stn, 0) := by rw [hstep, hgs]
      have hfst : (growInode st now i (4096 * c + 4096)).fst =
          stn.setInode i { stn.inodes i with size := 4096 * c + 4096, mtime := now } := by
        rw [hgrow0, hloopv, if_neg (by omega : ¬ (0 : Int) < 0)]
      rw [hfst]
      have hnin : (stn.setInode i
          { stn.inodes i with size := 4096 * c + 4096, mtime := now }).inodes i =
          { stn.inodes i with size := 4096 * c + 4096, mtime := now } :=
        setInode_inodes_same _ _ _
      have hnind : (stn.inodes i).indirect = (stA.inodes i).indirect := by
        rw [hstn]
        rfl
      rw [inodeGetBnum_eq, if_neg (by omega : ¬ c < 0), if_neg (by omega : ¬ c = 0), hnin]
      have hindf : ({ stn.inodes i with
          size := 4096 * c + 4096, mtime := now } : Inode).indirect =
          (stA.inodes i).indirect := by
        show (stn.inodes i).indirect = _
        exact hnind
      rw [hindf, if_neg hind, if_neg (by omega : ¬ (1024 : Int) ≤ c - 1)]
      have hblk : (stn.setInode i
            { stn.inodes i with size := 4096 * c + 4096, mtime := now }).blocks
            (stA.inodes i).indirect =
          writeInt32 (stA.blocks (stA.inodes i).indirect) ((4 * (c - 1)).toNat) b0 := by
        show stn.blocks (stA.inodes i).indirect = _
        rw [hstn]
        exact setBlock_blocks_same _ _ _
      rw [hblk, readInt32_writeInt32 _ _ _ (by omega) (by omega)]
      omega

/-- C7: `directory_put` rejects every empty or over-long (`≥ 48` bytes)
name with `-1`, leaving the state unchanged; a name of length exactly 47
is accepted whenever the scan can reach an empty slot (every slot
locatable, one of them empty), and also, with no empty slot found, whenever
the directory holds exactly `c` full blocks and growing it by one block
succeeds. -/
theorem c7_put_name_length (st : FS) (now : Int) (di : Nat) (inum : Int)
    (name : List Nat) :
    (name.length = 0 ∨ 48 ≤ name.length → directoryPut st now di name inum = (st, -1)) ∧
    (name.length = 47 →
      ((∀ jj, jj < dirMaxEntries st di → dirEntryLoc st di jj ≠ none) →
        (∃ jj, jj < dirMaxEntries st di ∧ entryEmptyB st di jj = true) →
        (directoryPut st now di name inum).snd = 0) ∧
      (∀ c : Int, 1 ≤ c → c ≤ 1023 → (st.inodes di).size = 4096 * c →
        dirFindEmptyLoop st di 0 (dirMaxEntries st di) = none →
        (growInode st now di ((st.inodes di).size + 4096)).snd = 0 →
        (directoryPut st now di name inum).snd = 0)) := by
  constructor
  · intro h
    by_cases h0 : name.length = 0
    · rw [directoryPut, if_pos h0]
    · have h48 : 48 ≤ name.length := by omega
      rw [directoryPut, if_neg h0, if_pos (by simpa [DIR_NAME_LENGTH] using h48)]
  · intro h47
    have h0 : ¬ name.length = 0 := by omega
    have h48 : ¬ DIR_NAME_LENGTH ≤ name.length := by
      simp only [DIR_NAME_LENGTH]; omega
    constructor
    · intro hwf hex
      obtain ⟨b, o, hfe⟩ := findEmpty_of_exists st di (dirMaxEntries st di) 0
        (fun jj _ hb => hwf jj (by omega))
        (by obtain ⟨jj, h1, h2⟩ := hex; exact ⟨jj, Nat.zero_le _, by omega, h2⟩)
      rw [directoryPut, if_neg h0, if_neg h48]
      simp only [hfe]
    · intro c hc1 hc2 hsz hnone hgrow
      rw [hsz] at hgrow
      have hpos := growInode_one_bnum st now di c hc1 hc2 hsz hgrow
      have hmax : dirMaxEntries st di = c.toNat * 64 := by
        rw [dirMaxEntries, hsz, bytesToBlocks_mul c hc1]
      have hloc : dirEntryLoc (growInode st now di (4096 * c + 4096)).fst di
          (dirMaxEntries st di) =
          some (inodeGetBnum (growInode st now di (4096 * c + 4096)).fst di c, 0 * 64) := by
        rw [dirEntryLoc, hmax]
        have hdiv : c.toNat * 64 / 64 = c.toNat := by omega
        have hmod : c.toNat * 64 % 64 = 0 := by omega
        rw [hdiv, hmod]
        rw [show ((c.toNat : Nat) : Int) = c from by omega]
        rw [if_neg (by omega :
          ¬ inodeGetBnum (growInode st now di (4096 * c + 4096)).fst di c ≤ 0)]
      have hput : directoryPut st now di name inum =
          (if (growInode st now di ((st.inodes di).size + 4096)).snd < 0 then
             ((growInode st now di ((st.inodes di).size + 4096)).fst, -1)
           else
             match dirEntryLoc (growInode st now di ((st.inodes di).size + 4096)).fst di
                 (dirMaxEntries st di) with
             | none => ((growInode st now di ((st.inodes di).size + 4096)).fst, -1)
             | some (b, o) =>
               (writeEntry (growInode st now di ((st.inodes di).size + 4096)).fst b o name
                 inum, 0)) := by
        rw [directoryPut, if_neg h0, if_neg h48]
        simp only [hnone]
      rw [hput, hsz]
      rw [if_neg (show ¬ (growInode st now di (4096 * c + 4096)).snd < 0 by
        rw [hgrow]; omega)]
      rw [hloc]

/-- C7 witness: on `stFileA`'s root directory the 47-byte name
`"xx…x"` (47 copies of `'x'`) is accepted — slot 1 is empty — with every
hypothesis checked at the concrete state. -/
theorem c7_witness :
    (List.replicate 47 120).length = 47 ∧
    (directoryPut stFileA 7 0 (List.replicate 47 120) 5).snd = 0 := by
  refine ⟨by decide, ?_⟩
  exact ((c7_put_name_length stFileA 7 0 5 (List.replicate 47 120)).2 (by decide)).1
    (by decide) (by decide)

/-! ### C10: rmdir on regular files, and the unlink success path -/

/-- The bounded indirect-table freeing scan touches only the block
bitmap. -/
theorem freeIndirectEntries_frame (st : FS) (tbl : Block) (n : Int) :
    (freeIndirectEntries st tbl n).ibm = st.ibm ∧
    (freeIndirectEntries st tbl n).inodes = st.inodes ∧
    (freeIndirectEntries st tbl n).blocks = st.blocks := by
  rw [freeIndirectEntries]
  generalize List.range 1024 = l
  induction l generalizing st with
  | nil => exact ⟨rfl, rfl, rfl⟩
  | cons a l ih =>
    rw [List.foldl_cons]
    have hstep : ∀ s : FS,
        (if (a : Int) < n then
          if readInt32 tbl (4 * a) ≠ 0 then freeBlock s (readInt32 tbl (4 * a)) else s
        else s).ibm = s.ibm ∧
        (if (a : Int) < n then
          if readInt32 tbl (4 * a) ≠ 0 then freeBlock s (readInt32 tbl (4 * a)) else s
        else s).inodes = s.inodes ∧
        (if (a : Int) < n then
          if readInt32 tbl (4 * a) ≠ 0 then freeBlock s (readInt32 tbl (4 * a)) else s
        else s).blocks = s.blocks := by
      intro s
      split_ifs <;> exact ⟨rfl, rfl, rfl⟩
    obtain ⟨h1, h2, h3⟩ := ih
      (if (a : Int) < n then
        if readInt32 tbl (4 * a) ≠ 0 then freeBlock st (readInt32 tbl (4 * a)) else st
      else st)
    obtain ⟨s1, s2, s3⟩ := hstep st
    exact ⟨h1.trans s1, h2.trans s2, h3.trans s3⟩

/-- The direct-block phase of `free_inode` touches only the block
bitmap. -/
theorem freeInodeDirect_frame (st : FS) (i : Nat) :
    (freeInodeDirect st i).ibm = st.ibm ∧ (freeInodeDirect st i).inodes = st.inodes := by
  rw [freeInodeDirect]
  split_ifs <;> exact ⟨rfl, rfl⟩

/-- The indirect phase of `free_inode` touches only the block bitmap. -/
theorem freeInodeIndirect_frame (st : FS) (i : Nat) :
    (freeInodeIndirect st i).ibm = st.ibm ∧ (freeInodeIndirect st i).inodes = st.inodes := by
  rw [freeInodeIndirect]
  split_ifs with h
  · obtain ⟨h1, h2, _⟩ := freeIndirectEntries_frame st
      (st.blocks (st.inodes i).indirect) (bytesToBlocks (st.inodes i).size - 1)
    exact ⟨h1, h2⟩
  · exact ⟨rfl, rfl⟩

/-- `free_inode` leaves every other inode's bitmap bit and record
unchanged. -/
theorem freeInode_frame (st : FS) (inum : Int) :
    ∀ j : Nat, j ≠ inum.toNat →
      (freeInode st inum).ibm j = st.ibm j ∧ (freeInode st inum).inodes j = st.inodes j := by
  intro j hj
  rw [freeInode]
  split_ifs with h
  · exact ⟨rfl, rfl⟩
  · obtain ⟨hd1, hd2⟩ := freeInodeDirect_frame st inum.toNat
    obtain ⟨hi1, hi2⟩ := freeInodeIndirect_frame (freeInodeDirect st inum.toNat) inum.toNat
    constructor
    · rw [setIbm_other _ _ _ _ hj, setInode_ibm, hi1, hd1]
    · rw [setIbm_inodes, setInode_inodes_other _ _ _ _ hj, hi2, hd2]

/-- Success characterization of `storage_unlink`: when the path and its
parent resolve, the basename is nonempty, and the parent's scan can reach
a matching entry, the call returns 0; an inode at `refs ≤ 1` is freed
(bitmap bit cleared, record zeroed), one at `refs ≥ 2` is only
decremented. -/
theorem storageUnlink_success (st : FS) (path : List Nat) (inum pinum : Int)
    (hL : treeLookup st path = inum) (h0 : 0 ≤ inum) (h1 : inum < 128)
    (hP : treeLookupParent st path = pinum) (hp0 : 0 ≤ pinum) (hp1 : pinum < 128)
    (hname : getBasename path ≠ [])
    (hwf : ∀ jj, jj < dirMaxEntries st pinum.toNat →
      dirEntryLoc st pinum.toNat jj ≠ none)
    (hex : ∃ jj, jj < dirMaxEntries st pinum.toNat ∧
      entryMatchB st pinum.toNat jj (getBasename path) = true) :
    (storageUnlink st path).snd = 0 ∧
    ((st.inodes inum.toNat).refs ≤ 1 →
      (storageUnlink st path).fst.ibm inum.toNat = false ∧
      (storageUnlink st path).fst.inodes inum.toNat = zeroInode) ∧
    (2 ≤ (st.inodes inum.toNat).refs →
      (storageUnlink st path).fst.ibm = st.ibm ∧
      ((storageUnlink st path).fst.inodes inum.toNat).refs =
        (st.inodes inum.toNat).refs - 1 ∧
      (∀ j, j ≠ inum.toNat → (storageUnlink st path).fst.inodes j = st.inodes j)) ∧
    (∀ j, j ≠ inum.toNat →
      (storageUnlink st path).fst.ibm j = st.ibm j ∧
      (storageUnlink st path).fst.inodes j = st.inodes j) := by
  have hNlt : ¬ inum < 0 := by omega
  have hPlt : ¬ pinum < 0 := by omega
  have hPbig : ¬ (INODE_COUNT : Int) ≤ pinum := by simp only [INODE_COUNT]; omega
  have hlen : ¬ (getBasename path).length = 0 := by
    cases hgb : getBasename path with
    | nil => exact absurd hgb hname
    | cons a l => simp
  obtain ⟨ii, hfm⟩ := findMatch_of_exists st pinum.toNat (getBasename path)
    (dirMaxEntries st pinum.toNat) 0
    (fun jj _ hb => hwf jj (by omega))
    (by obtain ⟨jj, hA, hB⟩ := hex; exact ⟨jj, Nat.zero_le _, by omega, hB⟩)
  obtain ⟨_, _, b, o, hloc, hi0, hnm, heq⟩ :=
    (delete_scan_spec st pinum.toNat (getBasename path)
      (dirMaxEntries st pinum.toNat) 0).2 ii hfm
  have hdel : directoryDelete st pinum.toNat (getBasename path) =
      (st.setBlock b (blkWrite (st.blocks b) o (List.replicate 64 0)), 0) := by
    rw [directoryDelete, if_neg hlen, heq]
  set stD : FS := st.setBlock b (blkWrite (st.blocks b) o (List.replicate 64 0)) with hstD
  set i : Nat := inum.toNat with hidef
  set st2 : FS := stD.setInode i { stD.inodes i with refs := (stD.inodes i).refs - 1 }
    with hst2
  have hu : storageUnlink st path =
      ((if (st2.inodes i).refs ≤ 0 then freeInode st2 inum else st2), 0) := by
    simp only [storageUnlink, hL, if_neg hNlt, hP, if_neg hPlt, if_neg hPbig, hdel]
    rfl
  have hr2 : (st2.inodes i).refs = (st.inodes i).refs - 1 := by
    rw [hst2, setInode_inodes_same]
    rfl
  constructor
  · rw [hu]
  constructor
  · intro hle
    have hr : (st2.inodes i).refs ≤ 0 := by omega
    rw [hu]
    show (if (st2.inodes i).refs ≤ 0 then freeInode st2 inum else st2).ibm inum.toNat =
        false ∧
      (if (st2.inodes i).refs ≤ 0 then freeInode st2 inum else st2).inodes inum.toNat =
        zeroInode
    rw [if_pos hr]
    have hfr : freeInode st2 inum =
        ((freeInodeIndirect (freeInodeDirect st2 inum.toNat) inum.toNat).setInode inum.toNat
          zeroInode).setIbm inum.toNat false := by
      rw [freeInode, if_neg (by simp only [INODE_COUNT]; omega)]
    rw [hfr]
    constructor
    · exact setIbm_same _ _ _
    · show ((freeInodeIndirect (freeInodeDirect st2 inum.toNat) inum.toNat).setInode
        inum.toNat zeroInode).inodes inum.toNat = zeroInode
      exact setInode_inodes_same _ _ _
  constructor
  · intro hge
    have hr : ¬ (st2.inodes i).refs ≤ 0 := by omega
    rw [hu]
    show (if (st2.inodes i).refs ≤ 0 then freeInode st2 inum else st2).ibm = st.ibm ∧
      ((if (st2.inodes i).refs ≤ 0 then freeInode st2 inum else st2).inodes inum.toNat).refs =
        (st.inodes inum.toNat).refs - 1 ∧
      (∀ j, j ≠ inum.toNat →
        (if (st2.inodes i).refs ≤ 0 then freeInode st2 inum else st2).inodes j =
          st.inodes j)
    rw [if_neg hr]
    refine ⟨rfl, by rw [hr2], ?_⟩
    intro j hj
    show st2.inodes j = st.inodes j
    rw [hst2, setInode_inodes_other _ _ _ _ hj]
    rfl
  · intro j hj
    rw [hu]
    show (if (st2.inodes i).refs ≤ 0 then freeInode st2 inum else st2).ibm j = st.ibm j ∧
      (if (st2.inodes i).refs ≤ 0 then freeInode st2 inum else st2).inodes j = st.inodes j
    have hj2 : st2.ibm j = st.ibm j ∧ st2.inodes j = st.inodes j := by
      refine ⟨rfl, ?_⟩
      rw [hst2, setInode_inodes_other _ _ _ _ hj]
      rfl
    by_cases hr : (st2.inodes i).refs ≤ 0
    · rw [if_pos hr]
      obtain ⟨f1, f2⟩ := freeInode_frame st2 inum j hj
      exact ⟨f1.trans hj2.1, f2.trans hj2.2⟩
    · rw [if_neg hr]
      exact hj2

/-- One `grow_inode` iteration never touches the inode bitmap or any
`refs` field, whichever way it exits. -/
theorem growStep_pres (st : FS) (i : Nat) (ii : Int) (s : FS)
    (h : growStep st i ii = Sum.inl s ∨ growStep st i ii = Sum.inr s) :
    s.ibm = st.ibm ∧ (∀ j, (s.inodes j).refs = (st.inodes j).refs) := by
  by_cases hna : (allocBlock st).snd < 0
  · obtain ⟨hfst, _, _⟩ := allocBlock_failure st hna
    have hstep : growStep st i ii = Sum.inl st := by
      rw [growStep, if_pos hna, hfst]
    rcases h with h | h <;> rw [hstep] at h
    · obtain rfl : st = s := Sum.inl.inj h
      exact ⟨rfl, fun j => rfl⟩
    · exact absurd h (by simp)
  · obtain ⟨hb2, hb256, hbf, heq⟩ := allocBlock_success st (by omega)
    have hstep : growStep st i ii =
        growAttach ((allocBlock st).fst.setBlock (allocBlock st).snd zeroBlock) i ii
          (allocBlock st).snd := by
      rw [growStep, if_neg hna]
    set b0 : Int := (allocBlock st).snd with hb0
    set stA : FS := (allocBlock st).fst.setBlock b0 zeroBlock with hstA
    have hA : stA.ibm = st.ibm ∧ ∀ j, (stA.inodes j).refs = (st.inodes j).refs := by
      rw [hstA, heq]
      exact ⟨rfl, fun j => rfl⟩
    rw [hstep, growAttach] at h
    by_cases hii : ii = 0
    · rw [if_pos hii] at h
      rcases h with h | h
      · exact absurd h (by simp)
      · obtain rfl := Sum.inr.inj h
        refine ⟨hA.1, fun j => ?_⟩
        by_cases hj : j = i
        · subst hj
          rw [setInode_inodes_same]
          exact hA.2 j
        · rw [setInode_inodes_other _ _ _ _ hj]
          exact hA.2 j
    · rw [if_neg hii] at h
      by_cases hind : (stA.inodes i).indirect = 0
      · rw [if_pos hind] at h
        set ib : Int := (allocBlock stA).snd with hib
        set st2 : FS := (allocBlock stA).fst.setInode i
          { (allocBlock stA).fst.inodes i with indirect := ib } with hst2
        have h2 : st2.ibm = st.ibm ∧ ∀ j, (st2.inodes j).refs = (st.inodes j).refs := by
          have hF : (allocBlock stA).fst.ibm = stA.ibm ∧
              ∀ j, ((allocBlock stA).fst.inodes j).refs = (stA.inodes j).refs := by
            by_cases hia : (allocBlock stA).snd < 0
            · obtain ⟨hf, _, _⟩ := allocBlock_failure stA hia
              rw [hf]
              exact ⟨rfl, fun j => rfl⟩
            · obtain ⟨_, _, _, hf⟩ := allocBlock_success stA (by omega)
              rw [hf]
              exact ⟨rfl, fun j => rfl⟩
          constructor
          · rw [hst2]
            show (allocBlock stA).fst.ibm = st.ibm
            rw [hF.1, hA.1]
          · intro j
            rw [hst2]
            by_cases hj : j = i
            · subst hj
              rw [setInode_inodes_same]
              show ((allocBlock stA).fst.inodes j).refs = (st.inodes j).refs
              rw [hF.2 j, hA.2 j]
            · rw [setInode_inodes_other _ _ _ _ hj, hF.2 j, hA.2 j]
        rw [growPlaceFresh] at h
        by_cases hlt : (st2.inodes i).indirect < 0
        · rw [if_pos hlt] at h
          rcases h with h | h
          · obtain rfl := Sum.inl.inj h
            exact ⟨h2.1, h2.2⟩
          · exact absurd h (by simp)
        · rw [if_neg hlt] at h
          rcases h with h | h
          · exact absurd h (by simp)
          · obtain rfl := Sum.inr.inj h
            exact ⟨h2.1, h2.2⟩
      · rw [if_neg hind] at h
        rcases h with h | h
        · exact absurd h (by simp)
        · obtain rfl := Sum.inr.inj h
          exact ⟨hA.1, hA.2⟩

/-- The `grow_inode` loop never touches the inode bitmap or any `refs`
field. -/
theorem growLoop_pres (i : Nat) (T : Int) :
    ∀ (fuel : Nat) (st : FS) (ii : Int),
      (growLoop st i ii T fuel).fst.ibm = st.ibm ∧
      (∀ j, ((growLoop st i ii T fuel).fst.inodes j).refs = (st.inodes j).refs) := by
  intro fuel
  induction fuel with
  | zero => intro st ii; exact ⟨rfl, fun j => rfl⟩
  | succ n ih =>
    intro st ii
    rw [growLoop]
    by_cases hlt : ii < T
    · rw [if_pos hlt]
      cases hgs : growStep st i ii with
      | inl stf => exact growStep_pres st i ii stf (Or.inl hgs)
      | inr stn =>
        obtain ⟨h1, h2⟩ := growStep_pres st i ii stn (Or.inr hgs)
        obtain ⟨ih1, ih2⟩ := ih stn (ii + 1)
        exact ⟨ih1.trans h1, fun j => (ih2 j).trans (h2 j)⟩
    · rw [if_neg hlt]
      exact ⟨rfl, fun j => rfl⟩

/-- `grow_inode` never touches the inode bitmap or any `refs` field. -/
theorem growInode_pres (st : FS) (now : Int) (i : Nat) (size : Int) :
    (growInode st now i size).fst.ibm = st.ibm ∧
    (∀ j, ((growInode st now i size).fst.inodes j).refs = (st.inodes j).refs) := by
  obtain ⟨h1, h2⟩ := growLoop_pres i (bytesToBlocks size)
    ((bytesToBlocks size - bytesToBlocks (st.inodes i).size).toNat) st
    (bytesToBlocks (st.inodes i).size)
  have hg : growInode st now i size =
      (if (growLoop st i (bytesToBlocks (st.inodes i).size) (bytesToBlocks size)
            (bytesToBlocks size - bytesToBlocks (st.inodes i).size).toNat).snd < 0 then
        ((growLoop st i (bytesToBlocks (st.inodes i).size) (bytesToBlocks size)
            (bytesToBlocks size - bytesToBlocks (st.inodes i).size).toNat).fst, -1)
      else
        ((growLoop st i (bytesToBlocks (st.inodes i).size) (bytesToBlocks size)
            (bytesToBlocks size - bytesToBlocks (st.inodes i).size).toNat).fst.setInode i
          { (growLoop st i (bytesToBlocks (st.inodes i).size) (bytesToBlocks size)
              (bytesToBlocks size - bytesToBlocks (st.inodes i).size).toNat).fst.inodes i with
              size := size, mtime := now }, 0)) := rfl
  rw [hg]
  split_ifs
  · exact ⟨h1, h2⟩
  · constructor
    · exact h1
    · intro j
      by_cases hj : j = i
      · subst hj
        rw [setInode_inodes_same]
        exact h2 j
      · rw [setInode_inodes_other _ _ _ _ hj]
        exact h2 j

/-- `directory_put` never touches the inode bitmap or any `refs` field
(the grow branch only resizes the directory's own inode). -/
theorem directoryPut_pres (st : FS) (now : Int) (di : Nat) (name : List Nat) (inum : Int) :
    (directoryPut st now di name inum).fst.ibm = st.ibm ∧
    (∀ j, ((directoryPut st now di name inum).fst.inodes j).refs = (st.inodes j).refs) := by
  have hput : directoryPut st now di name inum =
      (if name.length = 0 then (st, -1)
       else if DIR_NAME_LENGTH ≤ name.length then (st, -1)
       else
         match dirFindEmptyLoop st di 0 (dirMaxEntries st di) with
         | some (b, o) => (writeEntry st b o name inum, 0)
         | none =>
           if (growInode st now di ((st.inodes di).size + 4096)).snd < 0 then
             ((growInode st now di ((st.inodes di).size + 4096)).fst, -1)
           else
             match dirEntryLoc (growInode st now di ((st.inodes di).size + 4096)).fst di
                 (dirMaxEntries st di) with
             | none => ((growInode st now di ((st.inodes di).size + 4096)).fst, -1)
             | some (b, o) =>
               (writeEntry (growInode st now di ((st.inodes di).size + 4096)).fst b o name
                 inum, 0)) := rfl
  rw [hput]
  by_cases h0 : name.length = 0
  · rw [if_pos h0]
    exact ⟨rfl, fun j => rfl⟩
  rw [if_neg h0]
  by_cases h48 : DIR_NAME_LENGTH ≤ name.length
  · rw [if_pos h48]
    exact ⟨rfl, fun j => rfl⟩
  rw [if_neg h48]
  obtain ⟨hg1, hg2⟩ := growInode_pres st now di ((st.inodes di).size + 4096)
  cases hscan : dirFindEmptyLoop st di 0 (dirMaxEntries st di) with
  | some p =>
    obtain ⟨b, o⟩ := p
    exact ⟨rfl, fun j => rfl⟩
  | none =>
    by_cases hgf : (growInode st now di ((st.inodes di).size + 4096)).snd < 0
    · rw [if_pos hgf]
      exact ⟨hg1, hg2⟩
    · rw [if_neg hgf]
      cases hloc : dirEntryLoc (growInode st now di ((st.inodes di).size + 4096)).fst di
          (dirMaxEntries st di) with
      | none => exact ⟨hg1, hg2⟩
      | some p =>
        obtain ⟨b, o⟩ := p
        exact ⟨hg1, hg2⟩

/-- C10 counterexample: `"/a/"` resolves to the regular file inode 1 of
`stFileA` and `storage_list` yields no entries, yet `nufs_rmdir` returns
`-ENOENT` (the trailing slash makes the basename empty, so the unlink's
`directory_delete` rejects it) and the state is unchanged — the file is
not removed. -/
theorem c10_counterexample :
    treeLookup stFileA [47, 97, 47] = 1 ∧
    modeIsDir (stFileA.inodes 1).mode = false ∧
    storageList stFileA [47, 97, 47] = [] ∧
    nufsRmdir stFileA [47, 97, 47] = (stFileA, -2) := by
  refine ⟨by decide, by decide, by decide, rfl⟩

/-- C10 (amended): on an existing path that names a regular file and has
a nonempty basename, with the parent resolvable and its scan able to reach
a matching entry, `nufs_rmdir` passes the emptiness check (`storage_list`
is empty for a non-directory) and unlinks the file: it returns 0, and at
`refs ≤ 1` the file's inode is freed. -/
theorem c10_rmdir_regular (st : FS) (path : List Nat) (inum pinum : Int)
    (hL : treeLookup st path = inum) (h0 : 0 ≤ inum) (h1 : inum < 128)
    (hmode : modeIsDir (st.inodes inum.toNat).mode = false)
    (hP : treeLookupParent st path = pinum) (hp0 : 0 ≤ pinum) (hp1 : pinum < 128)
    (hname : getBasename path ≠ [])
    (hwf : ∀ jj, jj < dirMaxEntries st pinum.toNat →
      dirEntryLoc st pinum.toNat jj ≠ none)
    (hex : ∃ jj, jj < dirMaxEntries st pinum.toNat ∧
      entryMatchB st pinum.toNat jj (getBasename path) = true)
    (hrefs : (st.inodes inum.toNat).refs ≤ 1) :
    (nufsRmdir st path).snd = 0 ∧
    (nufsRmdir st path).fst.ibm inum.toNat = false ∧
    (nufsRmdir st path).fst.inodes inum.toNat = zeroInode := by
  have hlist : storageList st path = [] := by
    have hrange : ¬ (inum < 0 ∨ (INODE_COUNT : Int) ≤ inum) := by
      simp only [INODE_COUNT]; omega
    simp only [storageList, directoryList, hL, if_neg hrange, hmode]
    rfl
  have hrm : nufsRmdir st path = storageUnlink st path := by
    simp only [nufsRmdir, hlist]
    rw [if_neg (by simp : ¬ ([] : List (List Nat)) ≠ [])]
  obtain ⟨hsnd, hfree, _⟩ :=
    storageUnlink_success st path inum pinum hL h0 h1 hP hp0 hp1 hname hwf hex
  rw [hrm]
  exact ⟨hsnd, (hfree hrefs).1, (hfree hrefs).2⟩

/-! ### C3: inode bitmap vs refs, and the inode lifecycle -/

/-- C3 counterexample: from a fresh filesystem, `storage_write` applied
to the directory path `"/"` (an operation of the surface that succeeds,
returning 52) forges the entry `"x" -> 3` inside the root's data block;
`storage_link "/x" "/y"` then succeeds and increments `refs` of inode 3,
whose inode-bitmap bit was never set.  After that operation, bit 3 is
clear while `refs 3 = 1` — the claimed equivalence fails. -/
theorem c3_counterexample :
    (storageWrite (storageInit 0) 1 [47] forgedBuf 52 0).snd = 52 ∧
    (storageLink (storageWrite (storageInit 0) 1 [47] forgedBuf 52 0).fst 2
        [47, 120] [47, 121]).snd = 0 ∧
    (storageLink (storageWrite (storageInit 0) 1 [47] forgedBuf 52 0).fst 2
        [47, 120] [47, 121]).fst.ibm 3 = false ∧
    ((storageLink (storageWrite (storageInit 0) 1 [47] forgedBuf 52 0).fst 2
        [47, 120] [47, 121]).fst.inodes 3).refs = 1 := by
  exact ⟨by decide, by decide, by decide, by decide⟩

/-- C3 (amended): the per-inode lifecycle holds for the three transitions
as long as the operation resolves through genuine (bitmap-live) inodes:
`alloc_inode` takes a FREE inode to LIVE with `refs = 1` and its bit set,
leaving every other inode alone and preserving `bit ⇔ refs ≥ 1`;
a successful `storage_link` increments the source's `refs` by one,
changes no inode bitmap bit and no other `refs`, and preserves the
equivalence provided the source inode's bit was set (the counterexample
shows a forged, bit-free source breaks it); a successful `storage_unlink`
at `refs = 1` frees the inode — bit cleared, record zeroed, `refs = 0` —
and preserves the equivalence. -/
theorem c3_inode_lifecycle (st : FS) (now : Int) :
    (∀ ii : Nat, (allocInode st now).snd = (ii : Int) →
      st.ibm ii = false ∧
      (allocInode st now).fst.ibm ii = true ∧
      ((allocInode st now).fst.inodes ii).refs = 1 ∧
      (∀ j, j ≠ ii → (allocInode st now).fst.ibm j = st.ibm j ∧
        (allocInode st now).fst.inodes j = st.inodes j) ∧
      ((∀ k, st.ibm k = true ↔ 1 ≤ (st.inodes k).refs) →
        ∀ k, (allocInode st now).fst.ibm k = true ↔
          1 ≤ ((allocInode st now).fst.inodes k).refs)) ∧
    (∀ fromPath toPath inum pp,
      treeLookup st fromPath = inum → 0 ≤ inum →
      treeLookup st toPath < 0 →
      treeLookupParent st toPath = pp → 0 ≤ pp → pp < 128 →
      (directoryPut st now pp.toNat (getBasename toPath) inum).snd = 0 →
      (storageLink st now fromPath toPath).snd = 0 ∧
      (storageLink st now fromPath toPath).fst.ibm = st.ibm ∧
      ((storageLink st now fromPath toPath).fst.inodes inum.toNat).refs =
        (st.inodes inum.toNat).refs + 1 ∧
      (∀ j, j ≠ inum.toNat →
        ((storageLink st now fromPath toPath).fst.inodes j).refs = (st.inodes j).refs) ∧
      (st.ibm inum.toNat = true →
        (∀ k, st.ibm k = true ↔ 1 ≤ (st.inodes k).refs) →
        ∀ k, (storageLink st now fromPath toPath).fst.ibm k = true ↔
          1 ≤ ((storageLink st now fromPath toPath).fst.inodes k).refs)) ∧
    (∀ path inum pinum,
      treeLookup st path = inum → 0 ≤ inum → inum < 128 →
      treeLookupParent st path = pinum → 0 ≤ pinum → pinum < 128 →
      getBasename path ≠ [] →
      (∀ jj, jj < dirMaxEntries st pinum.toNat → dirEntryLoc st pinum.toNat jj ≠ none) →
      (∃ jj, jj < dirMaxEntries st pinum.toNat ∧
        entryMatchB st pinum.toNat jj (getBasename path) = true) →
      (storageUnlink st path).snd = 0 ∧
      ((st.inodes inum.toNat).refs = 1 →
        (storageUnlink st path).fst.ibm inum.toNat = false ∧
        ((storageUnlink st path).fst.inodes inum.toNat).refs = 0 ∧
        ((∀ k, st.ibm k = true ↔ 1 ≤ (st.inodes k).refs) →
          ∀ k, (storageUnlink st path).fst.ibm k = true ↔
            1 ≤ ((storageUnlink st path).fst.inodes k).refs))) := by
  refine ⟨?_, ?_, ?_⟩
  · -- alloc_inode
    intro ii hsnd
    cases hf : (List.range INODE_COUNT).find? (fun k => !st.ibm k) with
    | none =>
      exfalso
      rw [allocInode, hf] at hsnd
      have h' : (-1 : Int) = (ii : Int) := hsnd
      omega
    | some b =>
      rw [allocInode, hf] at hsnd
      have hb : ((b : Nat) : Int) = (ii : Int) := hsnd
      have hbe : b = ii := by exact_mod_cast hb
      subst hbe
      have hp := List.find?_some hf
      rw [Bool.not_eq_true'] at hp
      have hfst : (allocInode st now).fst = (st.setIbm b true).setInode b
          { zeroInode with refs := 1, uid := 0, gid := 0, atime := now, mtime := now } := by
        rw [allocInode, hf]
      have e1 : (allocInode st now).fst.ibm b = true := by
        rw [hfst, setInode_ibm, setIbm_same]
      have e2 : ((allocInode st now).fst.inodes b).refs = 1 := by
        rw [hfst, setInode_inodes_same]
      have e3 : ∀ j, j ≠ b → (allocInode st now).fst.ibm j = st.ibm j := by
        intro j hj
        rw [hfst, setInode_ibm, setIbm_other _ _ _ _ hj]
      have e4 : ∀ j, j ≠ b → (allocInode st now).fst.inodes j = st.inodes j := by
        intro j hj
        rw [hfst, setInode_inodes_other _ _ _ _ hj, setIbm_inodes]
      refine ⟨hp, e1, e2, fun j hj => ⟨e3 j hj, e4 j hj⟩, ?_⟩
      intro hinv k
      by_cases hk : k = b
      · subst hk
        rw [e1, e2]
        exact ⟨fun _ => le_refl 1, fun _ => rfl⟩
      · rw [e3 k hk, e4 k hk]
        exact hinv k
  · -- storage_link
    intro fromPath toPath inum pp hL h0 hto hpar hpp0 hpp1 hput
    have hne : ¬ inum < 0 := by omega
    have hto' : ¬ 0 ≤ treeLookup st toPath := by omega
    have hpplt : ¬ pp < 0 := by omega
    have hppbig : ¬ (INODE_COUNT : Int) ≤ pp := by simp only [INODE_COUNT]; omega
    have hqlt : ¬ (directoryPut st now pp.toNat (getBasename toPath) inum).snd < 0 := by
      rw [hput]
      omega
    have hlk : storageLink st now fromPath toPath =
        ((directoryPut st now pp.toNat (getBasename toPath) inum).fst.setInode inum.toNat
          { (directoryPut st now pp.toNat (getBasename toPath) inum).fst.inodes inum.toNat with
              refs := ((directoryPut st now pp.toNat
                (getBasename toPath) inum).fst.inodes inum.toNat).refs + 1 }, 0) := by
      simp only [storageLink, hL, if_neg hne, if_neg hto', hpar, if_neg hpplt, if_neg hppbig,
        if_neg hqlt]
    obtain ⟨hp1, hp2⟩ := directoryPut_pres st now pp.toNat (getBasename toPath) inum
    have hX : (storageLink st now fromPath toPath).fst =
        (directoryPut st now pp.toNat (getBasename toPath) inum).fst.setInode inum.toNat
          { (directoryPut st now pp.toNat (getBasename toPath) inum).fst.inodes inum.toNat with
              refs := ((directoryPut st now pp.toNat
                (getBasename toPath) inum).fst.inodes inum.toNat).refs + 1 } := by
      rw [hlk]
    have hibm : (storageLink st now fromPath toPath).fst.ibm = st.ibm := by
      rw [hX, setInode_ibm, hp1]
    have hrefs : ((storageLink st now fromPath toPath).fst.inodes inum.toNat).refs =
        (st.inodes inum.toNat).refs + 1 := by
      rw [hX, setInode_inodes_same, hp2 inum.toNat]
    have hother : ∀ j, j ≠ inum.toNat →
        ((storageLink st now fromPath toPath).fst.inodes j).refs = (st.inodes j).refs := by
      intro j hj
      rw [hX, setInode_inodes_other _ _ _ _ hj]
      exact hp2 j
    refine ⟨by rw [hlk], hibm, hrefs, hother, ?_⟩
    intro hsrc hinv k
    by_cases hk : k = inum.toNat
    · subst hk
      have h1r : 1 ≤ (st.inodes inum.toNat).refs := (hinv inum.toNat).mp hsrc
      rw [show (storageLink st now fromPath toPath).fst.ibm inum.toNat =
          st.ibm inum.toNat from by rw [hibm],
        hrefs]
      exact ⟨fun _ => by omega, fun _ => hsrc⟩
    · rw [show (storageLink st now fromPath toPath).fst.ibm k = st.ibm k from by rw [hibm],
        hother k hk]
      exact hinv k
  · -- storage_unlink
    intro path inum pinum hL h0 h1 hP hp0 hp1 hname hwf hex
    obtain ⟨hsnd, hfree, _, hframe⟩ :=
      storageUnlink_success st path inum pinum hL h0 h1 hP hp0 hp1 hname hwf hex
    refine ⟨hsnd, ?_⟩
    intro hr1
    obtain ⟨f1, f2⟩ := hfree (by omega)
    refine ⟨f1, by rw [f2]; rfl, ?_⟩
    intro hinv k
    by_cases hk : k = inum.toNat
    · subst hk
      rw [f1, f2]
      refine ⟨fun h => absurd h (by simp), fun h => ?_⟩
      exfalso
      have h' : (1 : Int) ≤ 0 := h
      omega
    · obtain ⟨g1, g2⟩ := hframe k hk
      rw [g1, g2]
      exact hinv k

/-! ### C2: the size/block/indirect shape invariant -/

/-- The shrink loop is the identity when the index starts below the
target. -/
theorem shrinkLoop_exit (st : FS) (i : Nat) (ii target : Int) (h : ii < target) :
    ∀ fuel, shrinkLoop st i ii target fuel = st := by
  intro fuel
  cases fuel with
  | zero => rfl
  | succ n => rw [shrinkLoop, if_neg (by omega)]

/-- Shrinking to target 0 with enough fuel to reach index 0 clears the
direct-block pointer. -/
theorem shrinkLoop_block_zero (i : Nat) :
    ∀ (fuel : Nat) (st : FS) (ii : Int), 0 ≤ ii → ii < (fuel : Int) →
      ((shrinkLoop st i ii 0 fuel).inodes i).block = 0 := by
  intro fuel
  induction fuel with
  | zero =>
    intro st ii h1 h2
    exfalso
    omega
  | succ n ih =>
    intro st ii h1 h2
    rw [shrinkLoop, if_pos (by omega : (0 : Int) ≤ ii)]
    by_cases hii : ii = 0
    · subst hii
      rw [shrinkLoop_exit _ _ _ _ (by omega : (0 : Int) - 1 < 0)]
      rw [shrinkStep, if_pos rfl]
      by_cases hb : (st.inodes i).block ≠ 0
      · rw [if_pos hb, setInode_inodes_same]
      · rw [if_neg hb]
        push_neg at hb
        exact hb
    · exact ih (shrinkStep st i ii) (ii - 1) (by omega) (by omega)

/-- `shrink_inode` to size 0 on an inode with positive size zeroes all
three of `size`, `block` and `indirect`. -/
theorem shrinkInode_zero_spec (st : FS) (now : Int) (i : Nat)
    (hpos : 0 < (st.inodes i).size) :
    ((shrinkInode st now i 0).fst.inodes i).size = 0 ∧
    ((shrinkInode st now i 0).fst.inodes i).block = 0 ∧
    ((shrinkInode st now i 0).fst.inodes i).indirect = 0 := by
  have hc1 : 1 ≤ bytesToBlocks (st.inodes i).size := by
    rw [bytesToBlocks, if_neg (by omega)]
    omega
  set c : Int := bytesToBlocks (st.inodes i).size with hc
  set stL : FS := shrinkLoop st i (c - 1) (bytesToBlocks 0) (c - bytesToBlocks 0).toNat
    with hstL
  set st2 : FS := if bytesToBlocks 0 ≤ 1 ∧ (stL.inodes i).indirect ≠ 0 then
      (freeBlock stL (stL.inodes i).indirect).setInode i { stL.inodes i with indirect := 0 }
    else stL with hst2
  have hfst : (shrinkInode st now i 0).fst =
      st2.setInode i { st2.inodes i with size := 0, mtime := now } := rfl
  have hLb : (stL.inodes i).block = 0 := by
    rw [hstL, show bytesToBlocks 0 = 0 from rfl]
    exact shrinkLoop_block_zero i (c - 0).toNat st (c - 1) (by omega) (by omega)
  have h2ind : (st2.inodes i).indirect = 0 := by
    rw [hst2]
    by_cases hcnd : bytesToBlocks 0 ≤ 1 ∧ (stL.inodes i).indirect ≠ 0
    · rw [if_pos hcnd, setInode_inodes_same]
    · rw [if_neg hcnd]
      push_neg at hcnd
      exact hcnd (by rw [show bytesToBlocks 0 = 0 from rfl]; omega)
  have h2blk : (st2.inodes i).block = 0 := by
    rw [hst2]
    by_cases hcnd : bytesToBlocks 0 ≤ 1 ∧ (stL.inodes i).indirect ≠ 0
    · rw [if_pos hcnd, setInode_inodes_same]
      show (stL.inodes i).block = 0
      exact hLb
    · rw [if_neg hcnd]
      exact hLb
  rw [hfst]
  refine ⟨?_, ?_, ?_⟩
  · rw [setInode_inodes_same]
  · rw [setInode_inodes_same]
    show (st2.inodes i).block = 0
    exact h2blk
  · rw [setInode_inodes_same]
    show (st2.inodes i).indirect = 0
    exact h2ind

/-- C2 counterexample: on `stFull` (whose only free block is 5), the
operation `storage_write` of 8192 bytes into the live empty file `"/f"`
fails with `-ENOSPC`, and the partial growth is kept: inode 1 is live
(bitmap bit set) with `size = 0` but `block = 5 ≠ 0` — the claimed
invariant is violated after a failed operation of the surface. -/
theorem c2_counterexample :
    (storageWrite stFull 7 [47, 102] (List.replicate 8192 0) 8192 0).snd = -28 ∧
    stFull.ibm 1 = true ∧
    (storageWrite stFull 7 [47, 102] (List.replicate 8192 0) 8192 0).fst.ibm 1 = true ∧
    ((storageWrite stFull 7 [47, 102] (List.replicate 8192 0) 8192 0).fst.inodes 1).size
      = 0 ∧
    ((storageWrite stFull 7 [47, 102] (List.replicate 8192 0) 8192 0).fst.inodes 1).block
      = 5 := by
  exact ⟨by decide, by decide, by decide, by decide, by decide⟩

/-- C2 (amended): the shape invariant is established by the successful
growth paths and by shrinking, rather than holding after failed
operations: a successful `grow_inode` from an empty inode commits `size`
and satisfies all three shape clauses (`size ≤ 0` keeps `block` and
`indirect` zero; at most one block means no indirect block; at least two
blocks mean a nonzero indirect block whose table holds exactly
`blocks(size) - 1` nonzero entries, the rest zero), and `shrink_inode`
to size 0 returns the inode to the all-zero shape. -/
theorem c2_shape_invariant (st : FS) (now : Int) (i : Nat) (size : Int) :
    ((st.inodes i).size = 0 → (st.inodes i).block = 0 → (st.inodes i).indirect = 0 →
      bytesToBlocks size ≤ 1024 → (growInode st now i size).snd = 0 →
      ((growInode st now i size).fst.inodes i).size = size ∧
      (size ≤ 0 → ((growInode st now i size).fst.inodes i).block = 0 ∧
        ((growInode st now i size).fst.inodes i).indirect = 0) ∧
      (bytesToBlocks size ≤ 1 → ((growInode st now i size).fst.inodes i).indirect = 0) ∧
      (2 ≤ bytesToBlocks size →
        ((growInode st now i size).fst.inodes i).indirect ≠ 0 ∧
        (∀ j : Nat, j < 1024 →
          (readInt32 ((growInode st now i size).fst.blocks
              ((growInode st now i size).fst.inodes i).indirect) (4 * j) ≠ 0 ↔
            (j : Int) < bytesToBlocks size - 1)))) ∧
    (0 < (st.inodes i).size →
      ((shrinkInode st now i 0).fst.inodes i).size = 0 ∧
      ((shrinkInode st now i 0).fst.inodes i).block = 0 ∧
      ((shrinkInode st now i 0).fst.inodes i).indirect = 0) := by
  constructor
  · intro h0 hbz hiz hT hok
    obtain ⟨s1, _, _, _, _, s6, _, s8, _, _, s11⟩ :=
      growInode_fresh_spec st now i size h0 hbz hiz hT hok
    refine ⟨s1, ?_, s8.1, ?_⟩
    · intro hsle
      have hT0 : bytesToBlocks size = 0 := by rw [bytesToBlocks, if_pos hsle]
      have hgrow0 : growInode st now i size =
          (if (growLoop st i (bytesToBlocks (st.inodes i).size) (bytesToBlocks size)
                (bytesToBlocks size - bytesToBlocks (st.inodes i).size).toNat).snd < 0 then
            ((growLoop st i (bytesToBlocks (st.inodes i).size) (bytesToBlocks size)
                (bytesToBlocks size - bytesToBlocks (st.inodes i).size).toNat).fst, -1)
          else
            ((growLoop st i (bytesToBlocks (st.inodes i).size) (bytesToBlocks size)
                (bytesToBlocks size - bytesToBlocks (st.inodes i).size).toNat).fst.setInode i
              { (growLoop st i (bytesToBlocks (st.inodes i).size) (bytesToBlocks size)
                  (bytesToBlocks size -
                    bytesToBlocks (st.inodes i).size).toNat).fst.inodes i with
                  size := size, mtime := now }, 0)) := rfl
      rw [h0, bytesToBlocks_zero, hT0] at hgrow0
      have hloop : growLoop st i 0 0 ((0 - 0 : Int)).toNat = (st, 0) := rfl
      rw [hloop] at hgrow0
      have hfst : (growInode st now i size).fst =
          st.setInode i { st.inodes i with size := size, mtime := now } := by
        rw [hgrow0, if_neg (by omega : ¬ ((st, 0) : FS × Int).snd < 0)]
      rw [hfst]
      constructor
      · rw [setInode_inodes_same]
        show (st.inodes i).block = 0
        exact hbz
      · rw [setInode_inodes_same]
        show (st.inodes i).indirect = 0
        exact hiz
    · intro hT2
      obtain ⟨hib2, _, _, _, hibnb⟩ := s8.2 hT2
      refine ⟨by omega, ?_⟩
      intro j hj
      constructor
      · intro hne
        by_contra hge
        push_neg at hge
        have hz := s11 hT2 j (by omega) hj
        exact hne hz
      · intro hlt
        have hk := s6 ((j : Int) + 1) (by omega) (by omega)
        have hgb : inodeGetBnum (growInode st now i size).fst i ((j : Int) + 1) =
            readInt32 ((growInode st now i size).fst.blocks
              ((growInode st now i size).fst.inodes i).indirect) (4 * j) := by
          rw [inodeGetBnum_eq, if_neg (by omega : ¬ ((j : Int) + 1) < 0),
            if_neg (by omega : ¬ ((j : Int) + 1) = 0),
            if_neg (by omega :
              ¬ ((growInode st now i size).fst.inodes i).indirect = 0),
            if_neg (by omega : ¬ (1024 : Int) ≤ (j : Int) + 1 - 1),
            show (4 * ((j : Int) + 1 - 1)).toNat = 4 * j from by omega]
        rw [← hgb]
        omega
  · intro hpos
    exact shrinkInode_zero_spec st now i hpos

/-- C2 witness: growing the empty file of `stFileC` to 5000 bytes
succeeds and yields the two-block shape with a nonzero indirect block,
and shrinking the 5-byte file of `stFileA` to 0 zeroes its pointers;
every hypothesis is checked at the concrete states. -/
theorem c2_witness :
    ((growInode stFileC 7 1 5000).fst.inodes 1).size = 5000 ∧
    ((growInode stFileC 7 1 5000).fst.inodes 1).indirect ≠ 0 ∧
    ((shrinkInode stFileA 7 1 0).fst.inodes 1).block = 0 := by
  have h := (c2_shape_invariant stFileC 7 1 5000).1 (by decide) (by decide) (by decide)
    (by decide) (by decide)
  have h2 := (c2_shape_invariant stFileA 7 1 0).2 (by decide)
  exact ⟨h.1, (h.2.2.2 (by decide)).1, h2.2.1⟩

/-- C3 witness: linking `"/a"` of `stFileA` to the fresh name `"/c"`
succeeds and increments inode 1's `refs` from 1 to 2, with every
hypothesis checked at the concrete state. -/
theorem c3_witness :
    (storageLink stFileA 7 [47, 97] [47, 99]).snd = 0 ∧
    ((storageLink stFileA 7 [47, 97] [47, 99]).fst.inodes 1).refs =
      (stFileA.inodes 1).refs + 1 := by
  have h := (c3_inode_lifecycle stFileA 7).2.1 [47, 97] [47, 99] 1 0 (by decide) (by decide)
    (by decide) (by decide) (by decide) (by decide) (by decide)
  exact ⟨h.1, h.2.2.1⟩

/-! ### C6: rename of top-level names -/

/-- Splitting a slash-free component list leaves it whole. -/
theorem splitSlash_noslash : ∀ x : List Nat, (∀ c ∈ x, c ≠ 47) → splitSlash x = [x] := by
  intro x
  induction x with
  | nil => intro _; rfl
  | cons c rest ih =>
    intro h
    rw [splitSlash, if_neg (h c (List.mem_cons_self c rest)),
      ih (fun a ha => h a (List.mem_cons_of_mem c ha))]

/-- The basename of a single-component absolute path. -/
theorem getBasename_noslash (x : List Nat) (h : ∀ c ∈ x, c ≠ 47) :
    getBasename (47 :: x) = x := by
  rw [getBasename]
  have h1 : (47 :: x).reverse = x.reverse ++ [47] := by simp
  rw [h1, List.takeWhile_append_of_pos
    (by intro a ha; rw [List.mem_reverse] at ha; simpa using h a ha)]
  simp

/-- The parent of a single-component absolute path is the root. -/
theorem treeLookupParent_single (st : FS) (x : List Nat) (hx : x ≠ [])
    (hx47 : ∀ c ∈ x, c ≠ 47) :
    treeLookupParent st (47 :: x) = 0 := by
  rw [treeLookupParent]
  rw [if_neg (by simp : ¬ (47 : Nat) ≠ 47), if_neg hx]
  simp only [getBasename_noslash x hx47, List.length_cons]
  rw [if_pos (by omega : x.length + 1 - x.length - 1 = 0)]

/-- `tree_lookup` of a single-component absolute path, written out. -/
theorem treeLookup_single (st : FS) (x : List Nat) (hx : x ≠ [])
    (hx47 : ∀ c ∈ x, c ≠ 47) :
    treeLookup st (47 :: x) =
      (if !modeIsDir (st.inodes 0).mode then -1
       else if directoryLookup st 0 x < 0 then -1 else directoryLookup st 0 x) := by
  rw [treeLookup]
  rw [if_neg (by simp : ¬ (47 : Nat) ≠ 47), if_neg hx, splitSlash_noslash x hx47]
  rw [treeWalk]
  rw [if_neg (by simpa using hx : ¬ x.length = 0)]
  rw [if_neg (show ¬ ((0 : Int) < 0 ∨ (INODE_COUNT : Int) ≤ 0) by
    simp only [INODE_COUNT]; omega)]
  rw [show (0 : Int).toNat = 0 from rfl]
  by_cases hd : modeIsDir (st.inodes 0).mode
  · have hnd : ¬ (!modeIsDir (st.inodes 0).mode) = true := by rw [hd]; simp
    conv_rhs => rw [if_neg hnd]
    rw [if_neg hnd]
    show (if directoryLookup st 0 x < 0 then (-1 : Int)
        else treeWalk st [] (directoryLookup st 0 x)) =
      (if directoryLookup st 0 x < 0 then -1 else directoryLookup st 0 x)
    by_cases hl : directoryLookup st 0 x < 0
    · rw [if_pos hl, if_pos hl]
    · rw [if_neg hl, if_neg hl, treeWalk]
  · rw [Bool.not_eq_true] at hd
    have hpd : (!modeIsDir (st.inodes 0).mode) = true := by rw [hd]; rfl
    conv_rhs => rw [if_pos hpd]
    rw [if_pos hpd]

/-- In a directory whose direct block is valid, every index below 64
locates in that block at offset `index * 64`. -/
theorem dirEntryLoc_block1 (st : FS) (di : Nat) (hb : 0 < (st.inodes di).block)
    (jj : Nat) (hj : jj < 64) :
    dirEntryLoc st di jj = some ((st.inodes di).block, jj * 64) := by
  rw [dirEntryLoc]
  have h1 : jj / 64 = 0 := by omega
  have h2 : jj % 64 = jj := by omega
  rw [h1, h2]
  have h3 : inodeGetBnum st di ((0 : Nat) : Int) = (st.inodes di).block := by
    rw [inodeGetBnum_eq]
    norm_num
  rw [h3, if_neg (by omega)]

/-- `directory_max_entries` of a one-block directory is 64. -/
theorem dirMaxEntries_4096 (st : FS) (di : Nat) (hsz : (st.inodes di).size = 4096) :
    dirMaxEntries st di = 64 := by
  rw [dirMaxEntries, hsz]
  rfl

/-- The stored name and inode fields of an entry depend only on the
entry's own 52 bytes. -/
theorem entryFields_congr (st st' : FS) (b : Int) (o : Nat)
    (h : ∀ j, o ≤ j → j < o + 52 → st'.blocks b j = st.blocks b j) :
    entryNameAt st' b o = entryNameAt st b o ∧ entryInumAt st' b o = entryInumAt st b o := by
  constructor
  · rw [entryNameAt, entryNameAt]
    congr 1
    rw [blkRead, blkRead]
    apply List.map_congr_left
    intro k hk
    rw [List.mem_range] at hk
    exact h (o + k) (by omega) (by simp only [DIR_NAME_LENGTH] at hk; omega)
  · rw [entryInumAt, entryInumAt, readInt32, readInt32,
      h (o + 48) (by omega) (by omega), h (o + 48 + 1) (by omega) (by omega),
      h (o + 48 + 2) (by omega) (by omega), h (o + 48 + 3) (by omega) (by omega)]

/-- An entry whose first name byte is NUL stores the empty name. -/
theorem entryNameAt_nil (st : FS) (b : Int) (o : Nat) (h : (st.blocks b) o = 0) :
    entryNameAt st b o = [] := by
  rw [entryNameAt, blkRead]
  rw [show DIR_NAME_LENGTH = 47 + 1 from rfl, List.range_succ_eq_map, List.map_cons,
    List.takeWhile_cons]
  rw [Nat.add_zero, h]
  rfl

/-- The length of the stored 48-byte name field image. -/
theorem putEntryBytes_length (name : List Nat) : (putEntryBytes name).length = 48 := by
  rw [putEntryBytes, List.length_append, List.length_take, List.length_replicate]
  simp only [DIR_NAME_LENGTH]
  omega

/-- `int32Bytes` always yields 4 bytes. -/
theorem int32Bytes_length (v : Int) : (int32Bytes v).length = 4 := rfl

/-- Reading an `int` over four zero bytes yields 0. -/
theorem readInt32_zeros (blk : Block) (off : Nat)
    (h : ∀ j, off ≤ j → j < off + 4 → blk j = 0) :
    readInt32 blk off = 0 := by
  rw [readInt32, h off (le_refl _) (by omega), h (off + 1) (by omega) (by omega),
    h (off + 2) (by omega) (by omega), h (off + 3) (by omega) (by omega)]
  rfl

/-- Bytes outside an entry's 52 written bytes are untouched by
`writeEntry`, as are all other blocks. -/
theorem writeEntry_blocks_out (st : FS) (b : Int) (o : Nat) (name : List Nat) (inum : Int) :
    (∀ j, j < o ∨ o + 52 ≤ j → (writeEntry st b o name inum).blocks b j = st.blocks b j) ∧
    (∀ c, c ≠ b → (writeEntry st b o name inum).blocks c = st.blocks c) := by
  constructor
  · intro j hj
    rw [writeEntry, setBlock_blocks_same, writeInt32]
    rw [blkWrite_out _ _ _ _ (by rw [int32Bytes_length]; omega)]
    rw [blkWrite_out _ _ _ _ (by rw [putEntryBytes_length]; omega)]
  · intro c hc
    rw [writeEntry, setBlock_blocks_other _ _ _ _ hc]

/-- The entry fields `writeEntry` stores at its own slot: the name (for a
nonempty NUL-free name of at most 47 bytes) and the inode number (for a
nonnegative 31-bit value). -/
theorem writeEntry_fields_same (st : FS) (b : Int) (o : Nat) (name : List Nat) (inum : Int)
    (hn0 : ∀ c ∈ name, c ≠ 0) (hlen : name.length ≤ 47)
    (hi0 : 0 ≤ inum) (hi31 : inum < 2147483648) :
    entryNameAt (writeEntry st b o name inum) b o = name ∧
    entryInumAt (writeEntry st b o name inum) b o = inum := by
  constructor
  · rw [entryNameAt]
    have hbytes : blkRead ((writeEntry st b o name inum).blocks b) o DIR_NAME_LENGTH =
        putEntryBytes name := by
      rw [writeEntry, setBlock_blocks_same, blkRead]
      apply List.ext_getElem
      · rw [List.length_map, List.length_range, putEntryBytes_length]
        rfl
      · intro k h1 h2
        rw [List.length_map, List.length_range] at h1
        rw [List.getElem_map, List.getElem_range]
        rw [writeInt32]
        rw [blkWrite_out _ _ _ _ (by
          rw [int32Bytes_length]
          left
          simp only [DIR_NAME_LENGTH] at h1
          omega)]
        rw [blkWrite_in _ _ _ _ (by omega) (by
          rw [putEntryBytes_length]
          simp only [DIR_NAME_LENGTH] at h1
          omega)]
        rw [show o + k - o = k from by omega]
        rw [List.getD_eq_getElem]
    rw [hbytes, putEntryBytes, List.take_of_length_le hlen]
    rw [List.takeWhile_append_of_pos (by intro a ha; simpa using hn0 a ha)]
    simp
  · rw [entryInumAt, writeEntry, setBlock_blocks_same]
    exact readInt32_writeInt32 _ _ _ hi0 hi31

/-- A `some` result of the empty-slot scan locates an in-range empty
entry. -/
theorem findEmpty_loc (st : FS) (di : Nat) :
    ∀ fuel start b o, dirFindEmptyLoop st di start fuel = some (b, o) →
      ∃ ii, start ≤ ii ∧ ii < start + fuel ∧ dirEntryLoc st di ii = some (b, o) ∧
        (entryInumAt st b o = 0 ∨ (st.blocks b) o = 0) := by
  intro fuel
  induction fuel with
  | zero =>
    intro start b o h
    simp [dirFindEmptyLoop] at h
  | succ n ih =>
    intro start b o h
    rw [dirFindEmptyLoop] at h
    cases hloc : dirEntryLoc st di start with
    | none =>
      simp only [hloc] at h
      exact absurd h (by simp)
    | some p =>
      obtain ⟨b1, o1⟩ := p
      simp only [hloc] at h
      by_cases hm : entryInumAt st b1 o1 = 0 ∨ (st.blocks b1) o1 = 0
      · rw [if_pos hm] at h
        rw [Option.some.injEq, Prod.mk.injEq] at h
        obtain ⟨rfl, rfl⟩ := h
        exact ⟨start, le_refl _, by omega, hloc, hm⟩
      · rw [if_neg hm] at h
        obtain ⟨ii, h1, h2, h3, h4⟩ := ih (start + 1) b o h
        exact ⟨ii, by omega, by omega, h3, h4⟩

/-- When every entry in range fails to match, the lookup scan returns
`-1`. -/
theorem lookup_scan_miss (st : FS) (di : Nat) (name : List Nat) :
    ∀ fuel start,
      (∀ jj, start ≤ jj → jj < start + fuel → entryMatchB st di jj name = false) →
      dirLookupLoop st di name start fuel = -1 := by
  intro fuel
  induction fuel with
  | zero => intro start _; rfl
  | succ n ih =>
    intro start h
    rw [dirLookupLoop]
    cases hloc : dirEntryLoc st di start with
    | none => rfl
    | some p =>
      obtain ⟨b, o⟩ := p
      simp only
      by_cases hm : entryInumAt st b o ≠ 0 ∧ entryNameAt st b o = name
      · exfalso
        have hmb := h start (le_refl _) (by omega)
        rw [entryMatchB, hloc] at hmb
        simp [hm.1, hm.2] at hmb
      · rw [if_neg hm]
        exact ih (start + 1) (fun jj ha hb => h jj (by omega) (by omega))

/-- If the scan can reach index `ii` (everything before is locatable and
non-matching) and entry `ii` is a genuine match, the lookup scan returns
its stored inode number. -/
theorem lookup_scan_hit (st : FS) (di : Nat) (name : List Nat) :
    ∀ fuel start ii, start ≤ ii → ii < start + fuel →
      (∀ jj, start ≤ jj → jj < ii → dirEntryLoc st di jj ≠ none ∧
        entryMatchB st di jj name = false) →
      ∀ b o, dirEntryLoc st di ii = some (b, o) →
        entryInumAt st b o ≠ 0 → entryNameAt st b o = name →
        dirLookupLoop st di name start fuel = entryInumAt st b o := by
  intro fuel
  induction fuel with
  | zero =>
    intro start ii h1 h2
    exfalso
    omega
  | succ n ih =>
    intro start ii h1 h2 hpre b o hloc hi hn
    rw [dirLookupLoop]
    by_cases hs : start = ii
    · subst hs
      simp only [hloc]
      rw [if_pos ⟨hi, hn⟩]
    · have hpre0 := hpre start (le_refl _) (by omega)
      cases hloc0 : dirEntryLoc st di start with
      | none => exact absurd hloc0 hpre0.1
      | some p =>
        obtain ⟨b0, o0⟩ := p
        simp only
        have hm : ¬ (entryInumAt st b0 o0 ≠ 0 ∧ entryNameAt st b0 o0 = name) := by
          intro hcon
          have hmb := hpre0.2
          rw [entryMatchB, hloc0] at hmb
          simp [hcon.1, hcon.2] at hmb
        rw [if_neg hm]
        exact ih (start + 1) ii (by omega) (by omega)
          (fun jj ha hb => hpre jj (by omega) hb) b o hloc hi hn

/-- A `-1` lookup over locatable entries with nonnegative stored inode
numbers means no entry in range matches. -/
theorem lookup_scan_none (st : FS) (di : Nat) (name : List Nat) :
    ∀ fuel start,
      (∀ jj, start ≤ jj → jj < start + fuel → dirEntryLoc st di jj ≠ none) →
      (∀ jj, start ≤ jj → jj < start + fuel → ∀ b o,
        dirEntryLoc st di jj = some (b, o) → 0 ≤ entryInumAt st b o) →
      dirLookupLoop st di name start fuel = -1 →
      ∀ jj, start ≤ jj → jj < start + fuel → entryMatchB st di jj name = false := by
  intro fuel
  induction fuel with
  | zero =>
    intro start _ _ _ jj h1 h2
    exfalso
    omega
  | succ n ih =>
    intro start hwf hval hm1 jj h1 h2
    rw [dirLookupLoop] at hm1
    cases hloc : dirEntryLoc st di start with
    | none => exact absurd hloc (hwf start (le_refl _) (by omega))
    | some p =>
      obtain ⟨b, o⟩ := p
      simp only [hloc] at hm1
      by_cases hm : entryInumAt st b o ≠ 0 ∧ entryNameAt st b o = name
      · exfalso
        rw [if_pos hm] at hm1
        have hge := hval start (le_refl _) (by omega) b o hloc
        omega
      · rw [if_neg hm] at hm1
        by_cases hjs : jj = start
        · subst hjs
          by_contra hcon
          rw [Bool.not_eq_false] at hcon
          rw [entryMatchB, hloc] at hcon
          simp only [Bool.and_eq_true, decide_eq_true_eq] at hcon
          exact hm hcon
        · exact ih (start + 1) (fun a ha hb => hwf a (by omega) (by omega))
            (fun a ha hb => hval a (by omega) (by omega)) hm1 jj (by omega) (by omega)

/-- A non-`-1` lookup result exits at a genuinely matching entry and
returns its stored inode number. -/
theorem lookup_scan_found (st : FS) (di : Nat) (name : List Nat) :
    ∀ fuel start,
      dirLookupLoop st di name start fuel ≠ -1 →
      ∃ ii, start ≤ ii ∧ ii < start + fuel ∧
        ∃ b o, dirEntryLoc st di ii = some (b, o) ∧
          entryInumAt st b o ≠ 0 ∧ entryNameAt st b o = name ∧
          dirLookupLoop st di name start fuel = entryInumAt st b o := by
  intro fuel
  induction fuel with
  | zero =>
    intro start h
    exact absurd rfl h
  | succ n ih =>
    intro start h
    rw [dirLookupLoop] at h
    cases hloc : dirEntryLoc st di start with
    | none =>
      simp only [hloc] at h
      exact absurd rfl h
    | some p =>
      obtain ⟨b, o⟩ := p
      simp only [hloc] at h
      by_cases hm : entryInumAt st b o ≠ 0 ∧ entryNameAt st b o = name
      · refine ⟨start, le_refl _, by omega, b, o, hloc, hm.1, hm.2, ?_⟩
        rw [dirLookupLoop]
        simp only [hloc]
        rw [if_pos hm]
      · rw [if_neg hm] at h
        obtain ⟨ii, h1, h2, b1, o1, hloc1, hi1, hn1, hres⟩ := ih (start + 1) h
        refine ⟨ii, by omega, by omega, b1, o1, hloc1, hi1, hn1, ?_⟩
        rw [dirLookupLoop]
        simp only [hloc]
        rw [if_neg hm]
        exact hres

/-- `entryMatchB` written out at a located entry. -/
theorem entryMatchB_some (st : FS) (di : Nat) (ii : Nat) (b : Int) (o : Nat)
    (name : List Nat) (h : dirEntryLoc st di ii = some (b, o)) :
    entryMatchB st di ii name =
      (decide (entryInumAt st b o ≠ 0) && decide (entryNameAt st b o = name)) := by
  rw [entryMatchB, h]

/-- C6 counterexample: renaming the existing path `"/"` to the
non-existing `"/b"` (whose parent exists) on a fresh filesystem returns
0 — the failed `directory_delete` of the empty basename is ignored — yet
afterwards `tree_lookup "/"` is still 0, not `-1`, and `tree_lookup
"/b"` is `-1` rather than the original inode (the inserted entry carries
`inum = 0`, which lookups skip as empty). -/
theorem c6_counterexample :
    treeLookup (storageInit 0) [47] = 0 ∧
    treeLookup (storageInit 0) [47, 98] = -1 ∧
    (storageRename (storageInit 0) 0 [47] [47, 98]).snd = 0 ∧
    treeLookup (storageRename (storageInit 0) 0 [47] [47, 98]).fst [47] = 0 ∧
    treeLookup (storageRename (storageInit 0) 0 [47] [47, 98]).fst [47, 98] = -1 := by
  exact ⟨by decide, by decide, by decide, by decide, by decide⟩

/-- C6 (amended): for top-level renames `"/x" → "/y"` over a one-block
root directory with locatable slots, nonnegative stored inode numbers, a
free slot, and no duplicate `x` entries, a successful `storage_rename`
moves the inode: the target resolves to the source's old inode number
and the source no longer resolves. -/
theorem c6_rename_toplevel (st : FS) (now : Int) (x y : List Nat) (inum : Int)
    (hx : x ≠ []) (hx47 : ∀ c ∈ x, c ≠ 47)
    (hy : y ≠ []) (hy47 : ∀ c ∈ y, c ≠ 47) (hy0 : ∀ c ∈ y, c ≠ 0) (hylen : y.length ≤ 47)
    (hxy : x ≠ y)
    (hsz : (st.inodes 0).size = 4096) (hblk : 0 < (st.inodes 0).block)
    (hLx : treeLookup st (47 :: x) = inum) (h1 : 1 ≤ inum) (h31 : inum < 2147483648)
    (hLy : treeLookup st (47 :: y) = -1)
    (hval : ∀ jj : Nat, jj < 64 → 0 ≤ entryInumAt st (st.inodes 0).block (jj * 64))
    (hempty : ∃ jj : Nat, jj < 64 ∧ entryEmptyB st 0 jj = true)
    (hnodup : ∀ jj : Nat, jj < 64 → ∀ kk : Nat, kk < 64 → entryMatchB st 0 jj x = true →
      entryMatchB st 0 kk x = true → jj = kk) :
    (storageRename st now (47 :: x) (47 :: y)).snd = 0 ∧
    treeLookup (storageRename st now (47 :: x) (47 :: y)).fst (47 :: y) = inum ∧
    treeLookup (storageRename st now (47 :: x) (47 :: y)).fst (47 :: x) = -1 := by
  set B : Int := (st.inodes 0).block with hB
  have hdir : modeIsDir (st.inodes 0).mode = true := by
    by_contra hnd
    rw [Bool.not_eq_true] at hnd
    rw [treeLookup_single st x hx hx47, if_pos (by rw [hnd]; rfl)] at hLx
    omega
  have hmax : dirMaxEntries st 0 = 64 := dirMaxEntries_4096 st 0 hsz
  have hxlen0 : ¬ x.length = 0 := by simpa using hx
  have hylen0 : ¬ y.length = 0 := by simpa using hy
  have hLx' : directoryLookup st 0 x = inum := by
    rw [treeLookup_single st x hx hx47, if_neg (by rw [hdir]; simp)] at hLx
    by_cases hl : directoryLookup st 0 x < 0
    · rw [if_pos hl] at hLx
      omega
    · rw [if_neg hl] at hLx
      exact hLx
  have hloopx : dirLookupLoop st 0 x 0 64 = inum := by
    rw [directoryLookup, if_neg hxlen0, hmax] at hLx'
    exact hLx'
  obtain ⟨iix, _, hiix64, bx, ox, hlocx, hix0, hixn, hresx⟩ :=
    lookup_scan_found st 0 x 64 0 (by rw [hloopx]; omega)
  rw [dirEntryLoc_block1 st 0 hblk iix (by omega), ← hB] at hlocx
  rw [Option.some.injEq, Prod.mk.injEq] at hlocx
  obtain ⟨hbx, hox⟩ := hlocx
  subst hbx
  subst hox
  have hentx : entryInumAt st B (iix * 64) = inum := by rw [← hresx, hloopx]
  have hheadx : (st.blocks B) (iix * 64) ≠ 0 := by
    intro hz
    have hnil := entryNameAt_nil st B (iix * 64) hz
    rw [hixn] at hnil
    exact hx hnil
  have hdLy : directoryLookup st 0 y = -1 := by
    have hcases : directoryLookup st 0 y = -1 ∨ 0 ≤ directoryLookup st 0 y := by
      by_cases hne : dirLookupLoop st 0 y 0 64 = -1
      · left
        rw [directoryLookup, if_neg hylen0, hmax]
        exact hne
      · right
        obtain ⟨ii, _, hii64, b, o, hloc, hi0, hn, hres⟩ :=
          lookup_scan_found st 0 y 64 0 hne
        rw [dirEntryLoc_block1 st 0 hblk ii (by omega), ← hB] at hloc
        rw [Option.some.injEq, Prod.mk.injEq] at hloc
        obtain ⟨hb', ho'⟩ := hloc
        subst hb'
        subst ho'
        rw [directoryLookup, if_neg hylen0, hmax, hres]
        exact hval ii (by omega)
    rcases hcases with h | h
    · exact h
    · rw [treeLookup_single st y hy hy47, if_neg (by rw [hdir]; simp),
        if_neg (by omega)] at hLy
      exact hLy
  have hnoy : ∀ jj, jj < 64 → entryMatchB st 0 jj y = false := by
    have hloopy : dirLookupLoop st 0 y 0 64 = -1 := by
      rw [directoryLookup, if_neg hylen0, hmax] at hdLy
      exact hdLy
    intro jj hj
    refine lookup_scan_none st 0 y 64 0 ?_ ?_ hloopy jj (Nat.zero_le _) (by omega)
    · intro a _ ha
      rw [dirEntryLoc_block1 st 0 hblk a (by omega)]
      simp
    · intro a _ ha b o hloc
      rw [dirEntryLoc_block1 st 0 hblk a (by omega), ← hB] at hloc
      rw [Option.some.injEq, Prod.mk.injEq] at hloc
      obtain ⟨hb', ho'⟩ := hloc
      rw [← hb', ← ho']
      exact hval a (by omega)
  obtain ⟨b0, o0, hfe⟩ := findEmpty_of_exists st 0 (dirMaxEntries st 0) 0
    (by
      intro a _ hb2
      rw [hmax] at hb2
      rw [dirEntryLoc_block1 st 0 hblk a (by omega)]
      simp)
    (by
      obtain ⟨jj, hj, he⟩ := hempty
      exact ⟨jj, Nat.zero_le _, by rw [hmax]; omega, he⟩)
  obtain ⟨ii0, _, hii0r, hloc0, hempt0⟩ := findEmpty_loc st 0 (dirMaxEntries st 0) 0 b0 o0 hfe
  rw [hmax] at hii0r
  rw [dirEntryLoc_block1 st 0 hblk ii0 (by omega), ← hB] at hloc0
  rw [Option.some.injEq, Prod.mk.injEq] at hloc0
  obtain ⟨hb0, ho0⟩ := hloc0
  subst hb0
  subst ho0
  have hii0x : ii0 ≠ iix := by
    intro he
    rcases hempt0 with hz | hz
    · rw [he, hentx] at hz
      omega
    · rw [he] at hz
      exact hheadx hz
  have hput : directoryPut st now 0 y inum = (writeEntry st B (ii0 * 64) y inum, 0) := by
    rw [directoryPut, if_neg hylen0,
      if_neg (show ¬ DIR_NAME_LENGTH ≤ y.length by simp only [DIR_NAME_LENGTH]; omega)]
    simp only [hfe]
  set stP : FS := writeEntry st B (ii0 * 64) y inum with hstP
  have hparx : treeLookupParent st (47 :: x) = 0 := treeLookupParent_single st x hx hx47
  have hpary : treeLookupParent st (47 :: y) = 0 := treeLookupParent_single st y hy hy47
  have hren : storageRename st now (47 :: x) (47 :: y) =
      ((directoryDelete stP 0 x).fst, 0) := by
    simp only [storageRename, hLx, hLy, if_neg (show ¬ inum < 0 by omega),
      if_neg (show ¬ (0 : Int) ≤ -1 by omega), hparx, hpary,
      getBasename_noslash x hx47, getBasename_noslash y hy47,
      if_neg (show ¬ ((0 : Int) < 0 ∨ (0 : Int) < 0) by omega),
      if_neg (show ¬ ((INODE_COUNT : Int) ≤ 0 ∨ (INODE_COUNT : Int) ≤ 0) by
        simp only [INODE_COUNT]; omega),
      Int.toNat_zero, hput]
    rfl
  have hPblk : 0 < (stP.inodes 0).block := hblk
  have hPB : (stP.inodes 0).block = B := rfl
  have hmaxP : dirMaxEntries stP 0 = 64 := dirMaxEntries_4096 stP 0 hsz
  have hPout := (writeEntry_blocks_out st B (ii0 * 64) y inum).1
  have hPfields : ∀ jj, jj < 64 → jj ≠ ii0 →
      entryNameAt stP B (jj * 64) = entryNameAt st B (jj * 64) ∧
      entryInumAt stP B (jj * 64) = entryInumAt st B (jj * 64) := by
    intro jj hj hne
    apply entryFields_congr
    intro j hj1 hj2
    apply hPout
    by_cases hlt : jj < ii0
    · left
      omega
    · right
      omega
  obtain ⟨hPny, hPiy⟩ := writeEntry_fields_same st B (ii0 * 64) y inum hy0 hylen
    (by omega) h31
  have hPmx : entryMatchB stP 0 iix x = true := by
    rw [entryMatchB_some stP 0 iix B (iix * 64) x
      (by rw [dirEntryLoc_block1 stP 0 hPblk iix (by omega), hPB])]
    rw [(hPfields iix (by omega) (Ne.symm hii0x)).1,
      (hPfields iix (by omega) (Ne.symm hii0x)).2, hentx, hixn]
    simp only [Bool.and_eq_true, decide_eq_true_eq]
    exact ⟨by omega, trivial⟩
  obtain ⟨iiD, hfmD⟩ := findMatch_of_exists stP 0 x (dirMaxEntries stP 0) 0
    (by
      intro a _ hb2
      rw [hmaxP] at hb2
      rw [dirEntryLoc_block1 stP 0 hPblk a (by omega)]
      simp)
    ⟨iix, Nat.zero_le _, by rw [hmaxP]; omega, hPmx⟩
  obtain ⟨_, hiiDr, bD, oD, hlocD, hiD0, hnD, heqD⟩ :=
    (delete_scan_spec stP 0 x (dirMaxEntries stP 0) 0).2 iiD hfmD
  rw [hmaxP] at hiiDr
  rw [dirEntryLoc_block1 stP 0 hPblk iiD (by omega), hPB] at hlocD
  rw [Option.some.injEq, Prod.mk.injEq] at hlocD
  obtain ⟨hbD, hoD⟩ := hlocD
  subst hbD
  subst hoD
  have hdel : directoryDelete stP 0 x = (stP.setBlock B (blkWrite (stP.blocks B) (iiD * 64)
      (List.replicate 64 0)), 0) := by
    rw [directoryDelete, if_neg hxlen0, heqD]
  set stD : FS := stP.setBlock B (blkWrite (stP.blocks B) (iiD * 64) (List.replicate 64 0))
    with hstD
  have hiiD0 : iiD ≠ ii0 := by
    intro he
    rw [he, hPny] at hnD
    exact hxy hnD.symm
  have hDout : ∀ j, j < iiD * 64 ∨ iiD * 64 + 64 ≤ j → stD.blocks B j = stP.blocks B j := by
    intro j hj
    rw [hstD, setBlock_blocks_same]
    apply blkWrite_out
    rw [List.length_replicate]
    exact hj
  have hDzero : ∀ j, iiD * 64 ≤ j → j < iiD * 64 + 64 → stD.blocks B j = 0 := by
    intro j hj1 hj2
    rw [hstD, setBlock_blocks_same,
      blkWrite_in _ _ _ _ hj1 (by rw [List.length_replicate]; omega)]
    exact replicate_getD_zero 64 (j - iiD * 64)
  have hDfields : ∀ jj, jj < 64 → jj ≠ iiD →
      entryNameAt stD B (jj * 64) = entryNameAt stP B (jj * 64) ∧
      entryInumAt stD B (jj * 64) = entryInumAt stP B (jj * 64) := by
    intro jj hj hne
    apply entryFields_congr
    intro j hj1 hj2
    apply hDout
    by_cases hlt : jj < iiD
    · left
      omega
    · right
      omega
  have hDblk : 0 < (stD.inodes 0).block := hblk
  have hDB : (stD.inodes 0).block = B := rfl
  have hmaxD : dirMaxEntries stD 0 = 64 := dirMaxEntries_4096 stD 0 hsz
  have hDiD : entryInumAt stD B (iiD * 64) = 0 := by
    rw [entryInumAt]
    apply readInt32_zeros
    intro j hj1 hj2
    exact hDzero j (by omega) (by omega)
  have hDdir : ¬ (!modeIsDir (stD.inodes 0).mode) = true := by
    rw [show (stD.inodes 0).mode = (st.inodes 0).mode from rfl, hdir]
    simp
  refine ⟨by rw [hren], ?_, ?_⟩
  · rw [hren, hdel]
    show treeLookup stD (47 :: y) = inum
    rw [treeLookup_single stD y hy hy47, if_neg hDdir]
    have hii0D : ii0 ≠ iiD := Ne.symm hiiD0
    have hy_at : entryNameAt stD B (ii0 * 64) = y := by
      rw [(hDfields ii0 (by omega) hii0D).1, hPny]
    have hiy_at : entryInumAt stD B (ii0 * 64) = inum := by
      rw [(hDfields ii0 (by omega) hii0D).2, hPiy]
    have hpre : ∀ jj, 0 ≤ jj → jj < ii0 →
        dirEntryLoc stD 0 jj ≠ none ∧ entryMatchB stD 0 jj y = false := by
      intro jj _ hjlt
      constructor
      · rw [dirEntryLoc_block1 stD 0 hDblk jj (by omega)]
        simp
      · rw [entryMatchB_some stD 0 jj B (jj * 64) y
          (by rw [dirEntryLoc_block1 stD 0 hDblk jj (by omega), hDB])]
        by_cases hjD : jj = iiD
        · subst hjD
          simp [hDiD]
        · rw [(hDfields jj (by omega) hjD).1, (hDfields jj (by omega) hjD).2]
          by_cases hj0 : jj = ii0
          · exact absurd hj0 (by omega)
          · rw [(hPfields jj (by omega) hj0).1, (hPfields jj (by omega) hj0).2]
            have hmb := hnoy jj (by omega)
            rw [entryMatchB_some st 0 jj B (jj * 64) y
              (by rw [dirEntryLoc_block1 st 0 hblk jj (by omega), ← hB])] at hmb
            exact hmb
    have hlocD0 : dirEntryLoc stD 0 ii0 = some (B, ii0 * 64) := by
      rw [dirEntryLoc_block1 stD 0 hDblk ii0 (by omega), hDB]
    have hlook : directoryLookup stD 0 y = inum := by
      rw [directoryLookup, if_neg hylen0, hmaxD]
      rw [lookup_scan_hit stD 0 y 64 0 ii0 (Nat.zero_le _) (by omega)
        (fun jj hj1 hj2 => hpre jj hj1 hj2) B (ii0 * 64) hlocD0
        (by rw [hiy_at]; omega) hy_at, hiy_at]
    rw [if_neg (by rw [hlook]; omega), hlook]
  · rw [hren, hdel]
    show treeLookup stD (47 :: x) = -1
    rw [treeLookup_single stD x hx hx47, if_neg hDdir]
    have hlookx : directoryLookup stD 0 x = -1 := by
      rw [directoryLookup, if_neg hxlen0, hmaxD]
      apply lookup_scan_miss
      intro jj _ hjr
      rw [entryMatchB_some stD 0 jj B (jj * 64) x
        (by rw [dirEntryLoc_block1 stD 0 hDblk jj (by omega), hDB])]
      by_cases hjD : jj = iiD
      · subst hjD
        simp [hDiD]
      · rw [(hDfields jj (by omega) hjD).1, (hDfields jj (by omega) hjD).2]
        by_cases hj0 : jj = ii0
        · subst hj0
          rw [hPny]
          simp [Ne.symm hxy]
        · rw [(hPfields jj (by omega) hj0).1, (hPfields jj (by omega) hj0).2]
          by_contra hcon
          rw [Bool.not_eq_false] at hcon
          have hmjj : entryMatchB st 0 jj x = true := by
            rw [entryMatchB_some st 0 jj B (jj * 64) x
              (by rw [dirEntryLoc_block1 st 0 hblk jj (by omega), ← hB])]
            exact hcon
          have hmiiD : entryMatchB st 0 iiD x = true := by
            rw [entryMatchB_some st 0 iiD B (iiD * 64) x
              (by rw [dirEntryLoc_block1 st 0 hblk iiD (by omega), ← hB])]
            rw [← (hPfields iiD (by omega) hiiD0).1, ← (hPfields iiD (by omega) hiiD0).2]
            simp only [Bool.and_eq_true, decide_eq_true_eq]
            exact ⟨hiD0, hnD⟩
          exact hjD (hnodup jj (by omega) iiD (by omega) hmjj hmiiD)
    rw [if_pos (by rw [hlookx]; omega)]

/-- C6 witness: renaming `"/a"` to `"/c"` on `stFileA` succeeds, `"/c"`
resolves to inode 1 and `"/a"` is gone; every hypothesis is checked at
the concrete state. -/
theorem c6_witness :
    (storageRename stFileA 7 [47, 97] [47, 99]).snd = 0 ∧
    treeLookup (storageRename stFileA 7 [47, 97] [47, 99]).fst [47, 99] = 1 ∧
    treeLookup (storageRename stFileA 7 [47, 97] [47, 99]).fst [47, 97] = -1 := by
  exact c6_rename_toplevel stFileA 7 [97] [99] 1 (by decide) (by decide) (by decide)
    (by decide) (by decide) (by decide) (by decide) (by decide) (by decide) (by decide)
    (by decide) (by decide) (by decide) (by decide) (by decide) (by decide)

/-- C10 witness: `nufs_rmdir` on the regular file `"/a"` of `stFileA`
returns 0 and frees inode 1, with every hypothesis checked at the
concrete state. -/
theorem c10_witness :
    (nufsRmdir stFileA [47, 97]).snd = 0 ∧ (nufsRmdir stFileA [47, 97]).fst.ibm 1 = false := by
  have h := c10_rmdir_regular stFileA [47, 97] 1 0 (by decide) (by decide) (by decide)
    (by decide) (by decide) (by decide) (by decide) (by decide) (by decide) (by decide)
    (by decide)
  exact ⟨h.1, h.2.1⟩

/-! ### C1: write-then-read roundtrip on a fresh file -/

/-- The write loop exits immediately once the target is reached. -/
theorem writeLoop_done (i : Nat) (offset : Int) (buf : List Nat) (target : Nat) :
    ∀ (fuel : Nat) (st : FS) (bw : Nat), ¬ bw < target →
      writeLoop i offset buf target st bw fuel = (st, bw) := by
  intro fuel st bw h
  cases fuel with
  | zero => rfl
  | succ m => rw [writeLoop, if_neg h]

/-- The read loop exits immediately once the target is reached. -/
theorem readLoop_done (st : FS) (i : Nat) (offset : Int) (target : Nat) :
    ∀ (fuel : Nat) (br : Nat) (acc : List Nat), ¬ br < target →
      readLoop st i offset target br fuel acc = (br, acc) := by
  intro fuel br acc h
  cases fuel with
  | zero => rfl
  | succ m => rw [readLoop, if_neg h]

/-- Overwriting a data block other than the indirect table leaves the
block map of the inode unchanged. -/
theorem inodeGetBnum_setBlock (st : FS) (i : Nat) (b : Int) (blk : Block)
    (h : b ≠ (st.inodes i).indirect) :
    ∀ k : Int, inodeGetBnum (st.setBlock b blk) i k = inodeGetBnum st i k := by
  intro k
  rw [inodeGetBnum_eq, inodeGetBnum_eq]
  rw [show ((st.setBlock b blk).inodes i).block = (st.inodes i).block from rfl,
    show ((st.setBlock b blk).inodes i).indirect = (st.inodes i).indirect from rfl]
  by_cases h0 : k < 0
  · rw [if_pos h0, if_pos h0]
  rw [if_neg h0, if_neg h0]
  by_cases hk : k = 0
  · rw [if_pos hk, if_pos hk]
  rw [if_neg hk, if_neg hk]
  by_cases hi : (st.inodes i).indirect = 0
  · rw [if_pos hi, if_pos hi]
  rw [if_neg hi, if_neg hi]
  by_cases hb : (1024 : Int) ≤ k - 1
  · rw [if_pos hb, if_pos hb]
  rw [if_neg hb, if_neg hb, setBlock_blocks_other _ _ _ _ (Ne.symm h)]

/-- `grow_inode` returns either `-1` or `0`. -/
theorem growInode_snd_cases (st : FS) (now : Int) (i : Nat) (size : Int) :
    (growInode st now i size).snd = -1 ∨ (growInode st now i size).snd = 0 := by
  have hg : growInode st now i size =
      (if (growLoop st i (bytesToBlocks (st.inodes i).size) (bytesToBlocks size)
            (bytesToBlocks size - bytesToBlocks (st.inodes i).size).toNat).snd < 0 then
        ((growLoop st i (bytesToBlocks (st.inodes i).size) (bytesToBlocks size)
            (bytesToBlocks size - bytesToBlocks (st.inodes i).size).toNat).fst, -1)
      else
        ((growLoop st i (bytesToBlocks (st.inodes i).size) (bytesToBlocks size)
            (bytesToBlocks size - bytesToBlocks (st.inodes i).size).toNat).fst.setInode i
          { (growLoop st i (bytesToBlocks (st.inodes i).size) (bytesToBlocks size)
              (bytesToBlocks size -
                bytesToBlocks (st.inodes i).size).toNat).fst.inodes i with
              size := size, mtime := now }, 0)) := rfl
  rw [hg]
  split_ifs
  · left
    rfl
  · right
    rfl

/-- `bytes_to_blocks` covers its argument. -/
theorem bytesToBlocks_covers (n : Nat) : (n : Int) ≤ 4096 * bytesToBlocks (n : Int) := by
  rw [bytesToBlocks]
  split_ifs with h
  · omega
  · omega

/-- `bytes_to_blocks` of a positive byte count is bounded by the count. -/
theorem bytesToBlocks_le_self (n : Nat) (h : 1 ≤ n) :
    bytesToBlocks (n : Int) ≤ (n : Int) := by
  rw [bytesToBlocks, if_neg (by omega)]
  omega

/-- The block counts relevant to the claim stay within the indirect
table. -/
theorem bytesToBlocks_le_1024 (n : Nat) (h : n ≤ 800000) :
    bytesToBlocks (n : Int) ≤ 1024 := by
  rw [bytesToBlocks]
  split_ifs with hle
  · omega
  · omega

/-- Indices below the taken length read through `take`/`drop`. -/
theorem getD_take_drop (buf : List Nat) (m t j : Nat) (hj : j < t) :
    ((buf.drop m).take t).getD j 0 = buf.getD (m + j) 0 := by
  rw [List.getD_eq_getElem?_getD, List.getD_eq_getElem?_getD,
    List.getElem?_take_of_lt hj, List.getElem?_drop]

/-- The copy loop of `storage_write` at offset 0 over a block map `B` of
fresh zeroed blocks: starting at a block boundary it writes all of `buf`,
reports the full byte count, touches only the `B`-blocks, and leaves each
`B`-block holding its 4096-byte chunk of `buf` (zero-padded past the
end). -/
theorem writeLoop_chunks (i : Nat) (buf : List Nat) (n T : Nat) (B : Int → Int)
    (hn : buf.length = n) (hTn : n ≤ 4096 * T)
    (hB : ∀ k : Int, 0 ≤ k → k < (T : Int) → 0 < B k)
    (hBinj : ∀ k l : Int, 0 ≤ k → k < (T : Int) → 0 ≤ l → l < (T : Int) → k ≠ l →
      B k ≠ B l) :
    ∀ (fuel q : Nat) (st : FS),
      T ≤ fuel + q →
      4096 * q ≤ n →
      (∀ k : Int, 0 ≤ k → k < (T : Int) → inodeGetBnum st i k = B k) →
      (∀ k : Int, 0 ≤ k → k < (T : Int) → B k ≠ (st.inodes i).indirect) →
      (∀ k : Int, (q : Int) ≤ k → k < (T : Int) → st.blocks (B k) = zeroBlock) →
      (writeLoop i 0 buf n st (4096 * q) fuel).snd = n ∧
      (writeLoop i 0 buf n st (4096 * q) fuel).fst.inodes = st.inodes ∧
      (writeLoop i 0 buf n st (4096 * q) fuel).fst.bbm = st.bbm ∧
      (writeLoop i 0 buf n st (4096 * q) fuel).fst.ibm = st.ibm ∧
      (∀ b : Int, (∀ k : Int, (q : Int) ≤ k → k < (T : Int) → b ≠ B k) →
        (writeLoop i 0 buf n st (4096 * q) fuel).fst.blocks b = st.blocks b) ∧
      (∀ k : Int, (q : Int) ≤ k → k < (T : Int) → ∀ j : Nat, j < 4096 →
        (writeLoop i 0 buf n st (4096 * q) fuel).fst.blocks (B k) j =
          buf.getD (4096 * k.toNat + j) 0) := by
  intro fuel
  induction fuel with
  | zero =>
    intro q st hfq hqn hbnum hind hzero
    have hq : T ≤ q := by omega
    refine ⟨by show 4096 * q = n; omega, rfl, rfl, rfl, fun b _ => rfl, ?_⟩
    intro k hk1 hk2 j hj
    exfalso
    omega
  | succ m ih =>
    intro q st hfq hqn hbnum hind hzero
    by_cases hlt : 4096 * q < n
    · have hqT : q < T := by omega
      have heq1 : ((0 : Int) + ((4096 * q : Nat) : Int)).tdiv 4096 = (q : Int) := by
        rw [Int.tdiv_eq_ediv (by omega) (by omega)]
        omega
      have heq2 : ((0 : Int) + ((4096 * q : Nat) : Int)).tmod 4096 = 0 := by
        rw [Int.tmod_eq_emod (by omega) (by omega)]
        omega
      have hbq : inodeGetBnum st i (q : Int) = B (q : Int) :=
        hbnum (q : Int) (by omega) (by omega)
      have hbqpos : 0 < B (q : Int) := hB (q : Int) (by omega) (by omega)
      rw [writeLoop]
      simp only [if_pos hlt]
      rw [heq1, heq2, hbq, if_neg (by omega : ¬ B (q : Int) ≤ 0)]
      rw [show ((4096 : Int) - 0).toNat = 4096 from by simp, Int.toNat_zero]
      by_cases hfull : 4096 ≤ n - 4096 * q
      · rw [show min 4096 (n - 4096 * q) = 4096 from by omega]
        rw [show 4096 * q + 4096 = 4096 * (q + 1) from by omega]
        set st2 : FS := st.setBlock (B (q : Int))
          (blkWrite (st.blocks (B (q : Int))) 0 ((buf.drop (4096 * q)).take 4096))
          with hst2
        have hbnum2 : ∀ k : Int, 0 ≤ k → k < (T : Int) → inodeGetBnum st2 i k = B k := by
          intro k hk1 hk2
          rw [hst2, inodeGetBnum_setBlock st i (B (q : Int)) _
            (hind (q : Int) (by omega) (by omega))]
          exact hbnum k hk1 hk2
        have hind2 : ∀ k : Int, 0 ≤ k → k < (T : Int) → B k ≠ (st2.inodes i).indirect := by
          intro k hk1 hk2
          rw [hst2, setBlock_inodes]
          exact hind k hk1 hk2
        have hzero2 : ∀ k : Int, ((q + 1 : Nat) : Int) ≤ k → k < (T : Int) →
            st2.blocks (B k) = zeroBlock := by
          intro k hk1 hk2
          rw [hst2, setBlock_blocks_other _ _ _ _
            (hBinj k (q : Int) (by omega) hk2 (by omega) (by omega) (by omega))]
          exact hzero k (by omega) hk2
        obtain ⟨i1, i2, i3, i4, i5, i6⟩ := ih (q + 1) st2 (by omega) (by omega)
          hbnum2 hind2 hzero2
        refine ⟨i1, ?_, ?_, ?_, ?_, ?_⟩
        · rw [i2, hst2, setBlock_inodes]
        · rw [i3, hst2, setBlock_bbm]
        · rw [i4, hst2, setBlock_ibm]
        · intro b hb'
          rw [i5 b (fun k hk1 hk2 => hb' k (by omega) hk2), hst2,
            setBlock_blocks_other _ _ _ _ (hb' (q : Int) (by omega) (by omega))]
        · intro k hk1 hk2 j hj
          by_cases hkq : k = (q : Int)
          · subst hkq
            have hb5 : (writeLoop i 0 buf n st2 (4096 * (q + 1)) m).fst.blocks
                (B (q : Int)) = st2.blocks (B (q : Int)) := by
              apply i5
              intro k' hk1' hk2'
              exact hBinj (q : Int) k' (by omega) (by omega) (by omega) hk2' (by omega)
            rw [hb5, hst2, setBlock_blocks_same]
            have hdl : ((buf.drop (4096 * q)).take 4096).length = 4096 := by
              rw [List.length_take, List.length_drop, hn]
              omega
            rw [blkWrite_in _ _ _ _ (by omega) (by omega)]
            rw [Nat.sub_zero, getD_take_drop buf (4096 * q) 4096 j hj]
            rw [Int.toNat_natCast]
          · have hq1k : ((q + 1 : Nat) : Int) ≤ k := by
              have : (q : Int) < k := lt_of_le_of_ne hk1 (Ne.symm hkq)
              omega
            exact i6 k hq1k hk2 j hj
      · rw [show min 4096 (n - 4096 * q) = n - 4096 * q from by omega]
        rw [show 4096 * q + (n - 4096 * q) = n from by omega]
        rw [writeLoop_done i 0 buf n m _ n (by omega)]
        have hdl : ((buf.drop (4096 * q)).take (n - 4096 * q)).length = n - 4096 * q := by
          rw [List.length_take, List.length_drop, hn]
          omega
        refine ⟨rfl, setBlock_inodes _ _ _, setBlock_bbm _ _ _, setBlock_ibm _ _ _, ?_, ?_⟩
        · intro b hb'
          exact setBlock_blocks_other _ _ _ _ (hb' (q : Int) (by omega) (by omega))
        · intro k hk1 hk2 j hj
          by_cases hkq : k = (q : Int)
          · subst hkq
            rw [setBlock_blocks_same, Int.toNat_natCast]
            by_cases hjin : j < n - 4096 * q
            · rw [blkWrite_in _ _ _ _ (by omega) (by omega), Nat.sub_zero,
                getD_take_drop buf (4096 * q) (n - 4096 * q) j hjin]
            · rw [blkWrite_out _ _ _ _ (by omega)]
              rw [hzero (q : Int) (by omega) (by omega)]
              rw [List.getD_eq_default _ _ (by omega)]
              rfl
          · have hq1k : (q : Int) < k := lt_of_le_of_ne hk1 (Ne.symm hkq)
            rw [setBlock_blocks_other _ _ _ _
              (hBinj k (q : Int) (by omega) hk2 (by omega) (by omega) (by omega))]
            rw [hzero k (by omega) hk2]
            rw [List.getD_eq_default _ _ (by
              rw [hn]
              have hk3 : q + 1 ≤ k.toNat := by omega
              have : 4096 * (q + 1) ≤ 4096 * k.toNat := by omega
              omega)]
            rfl
    · have hqn' : 4096 * q = n := by omega
      rw [writeLoop, if_neg hlt]
      refine ⟨by show 4096 * q = n; omega, rfl, rfl, rfl, fun b _ => rfl, ?_⟩
      intro k hk1 hk2 j hj
      show st.blocks (B k) j = _
      rw [hzero k hk1 hk2]
      rw [List.getD_eq_default _ _ (by
        rw [hn]
        have hk3 : q ≤ k.toNat := by omega
        have : 4096 * q ≤ 4096 * k.toNat := by omega
        omega)]
      rfl

/-- The copy loop of `storage_read` at offset 0 over a block map `B`
whose blocks hold the chunks of `buf`: starting at a block boundary it
reconstructs exactly the remaining bytes of `buf`. -/
theorem readLoop_chunks (st : FS) (i : Nat) (buf : List Nat) (n T : Nat) (B : Int → Int)
    (hn : buf.length = n) (hTn : n ≤ 4096 * T)
    (hB : ∀ k : Int, 0 ≤ k → k < (T : Int) → 0 < B k)
    (hbnum : ∀ k : Int, 0 ≤ k → k < (T : Int) → inodeGetBnum st i k = B k)
    (hdata : ∀ k : Int, 0 ≤ k → k < (T : Int) → ∀ j : Nat, j < 4096 →
      st.blocks (B k) j = buf.getD (4096 * k.toNat + j) 0) :
    ∀ (fuel q : Nat) (acc : List Nat),
      T ≤ fuel + q → 4096 * q ≤ n →
      readLoop st i 0 n (4096 * q) fuel acc = (n, acc ++ buf.drop (4096 * q)) := by
  intro fuel
  induction fuel with
  | zero =>
    intro q acc hfq hqn
    have h1 : 4096 * q = n := by omega
    show ((4096 * q : Nat), acc) = (n, acc ++ buf.drop (4096 * q))
    rw [List.drop_eq_nil_of_le (by omega), List.append_nil, h1]
  | succ m ih =>
    intro q acc hfq hqn
    by_cases hlt : 4096 * q < n
    · have hqT : q < T := by omega
      have heq1 : ((0 : Int) + ((4096 * q : Nat) : Int)).tdiv 4096 = (q : Int) := by
        rw [Int.tdiv_eq_ediv (by omega) (by omega)]
        omega
      have heq2 : ((0 : Int) + ((4096 * q : Nat) : Int)).tmod 4096 = 0 := by
        rw [Int.tmod_eq_emod (by omega) (by omega)]
        omega
      have hbq : inodeGetBnum st i (q : Int) = B (q : Int) :=
        hbnum (q : Int) (by omega) (by omega)
      have hbqpos : 0 < B (q : Int) := hB (q : Int) (by omega) (by omega)
      rw [readLoop]
      simp only [if_pos hlt]
      rw [heq1, heq2, hbq, if_neg (by omega : ¬ B (q : Int) ≤ 0)]
      rw [show ((4096 : Int) - 0).toNat = 4096 from by simp, Int.toNat_zero]
      have hchunk : blkRead (st.blocks (B (q : Int))) 0 (min 4096 (n - 4096 * q)) =
          (buf.drop (4096 * q)).take (min 4096 (n - 4096 * q)) := by
        apply List.ext_getElem
        · rw [blkRead_length, List.length_take, List.length_drop, hn]
          omega
        · intro j h1 h2
          rw [blkRead_length] at h1
          simp only [blkRead, List.getElem_map, List.getElem_range, List.getElem_take,
            List.getElem_drop, Nat.zero_add]
          have hd := hdata (q : Int) (by omega) (by omega) j (by omega)
          rw [Int.toNat_natCast] at hd
          rw [hd, List.getD_eq_getElem _ _ (by rw [hn]; omega)]
      rw [hchunk]
      by_cases hfull : 4096 ≤ n - 4096 * q
      · rw [show min 4096 (n - 4096 * q) = 4096 from by omega,
          show 4096 * q + 4096 = 4096 * (q + 1) from by omega]
        rw [ih (q + 1) (acc ++ (buf.drop (4096 * q)).take 4096) (by omega) (by omega)]
        have hglue : (buf.drop (4096 * q)).take 4096 ++ buf.drop (4096 * (q + 1)) =
            buf.drop (4096 * q) := by
          rw [show 4096 * (q + 1) = 4096 * q + 4096 from by omega, ← List.drop_drop]
          exact List.take_append_drop 4096 (buf.drop (4096 * q))
        rw [List.append_assoc, hglue]
      · rw [show min 4096 (n - 4096 * q) = n - 4096 * q from by omega,
          show 4096 * q + (n - 4096 * q) = n from by omega]
        rw [readLoop_done st i 0 n m n _ (by omega)]
        rw [List.take_of_length_le (by rw [List.length_drop, hn])]
    · have h1 : 4096 * q = n := by omega
      rw [readLoop, if_neg hlt]
      rw [List.drop_eq_nil_of_le (by omega), List.append_nil, h1]

/-- Inversion of a located directory entry: the block is the positive
result of `inode_get_bnum` at the entry's block index. -/
theorem dirEntryLoc_inv (st : FS) (d : Nat) (jj : Nat) (b : Int) (o : Nat)
    (h : dirEntryLoc st d jj = some (b, o)) :
    0 < b ∧ b = inodeGetBnum st d ((jj / 64 : Nat) : Int) := by
  rw [dirEntryLoc] at h
  by_cases hb : inodeGetBnum st d ((jj / 64 : Nat) : Int) ≤ 0
  · rw [if_pos hb] at h
    exact absurd h (by simp)
  · rw [if_neg hb] at h
    rw [Option.some.injEq, Prod.mk.injEq] at h
    exact ⟨by omega, h.1.symm⟩

/-- `inode_get_bnum` depends only on the inode's `block`/`indirect`
fields and the indirect block's bytes. -/
theorem inodeGetBnum_congr (st st' : FS) (d : Nat)
    (hb : (st'.inodes d).block = (st.inodes d).block)
    (hi : (st'.inodes d).indirect = (st.inodes d).indirect)
    (hind : (st.inodes d).indirect ≠ 0 →
      st'.blocks (st.inodes d).indirect = st.blocks (st.inodes d).indirect) :
    ∀ k : Int, inodeGetBnum st' d k = inodeGetBnum st d k := by
  intro k
  rw [inodeGetBnum_eq, inodeGetBnum_eq, hb, hi]
  by_cases h0 : k < 0
  · rw [if_pos h0, if_pos h0]
  rw [if_neg h0, if_neg h0]
  by_cases hk : k = 0
  · rw [if_pos hk, if_pos hk]
  rw [if_neg hk, if_neg hk]
  by_cases hz : (st.inodes d).indirect = 0
  · rw [if_pos hz, if_pos hz]
  rw [if_neg hz, if_neg hz]
  by_cases hgt : (1024 : Int) ≤ k - 1
  · rw [if_pos hgt, if_pos hgt]
  rw [if_neg hgt, if_neg hgt, hind hz]

/-- The `directory_lookup` scan depends only on the located entries and
the bytes of their blocks. -/
theorem dirLookupLoop_congr (st st' : FS) (d : Nat) (name : List Nat)
    (hloc : ∀ jj, dirEntryLoc st' d jj = dirEntryLoc st d jj)
    (hblocks : ∀ jj b o, dirEntryLoc st d jj = some (b, o) → st'.blocks b = st.blocks b) :
    ∀ fuel start,
      dirLookupLoop st' d name start fuel = dirLookupLoop st d name start fuel := by
  intro fuel
  induction fuel with
  | zero => intro start; rfl
  | succ m ih =>
    intro start
    rw [dirLookupLoop, dirLookupLoop, hloc]
    cases hl : dirEntryLoc st d start with
    | none => rfl
    | some p =>
      obtain ⟨b, o⟩ := p
      simp only
      have hbeq := hblocks start b o hl
      have hnm : entryNameAt st' b o = entryNameAt st b o := by
        rw [entryNameAt, entryNameAt, hbeq]
      have him : entryInumAt st' b o = entryInumAt st b o := by
        rw [entryInumAt, entryInumAt, hbeq]
      rw [hnm, him]
      by_cases hm : entryInumAt st b o ≠ 0 ∧ entryNameAt st b o = name
      · rw [if_pos hm, if_pos hm]
      · rw [if_neg hm, if_neg hm, ih]

/-- `directory_lookup` congruence: equal directory size, entry locations
and block contents give equal results. -/
theorem directoryLookup_congr (st st' : FS) (d : Nat) (name : List Nat)
    (hsz : (st'.inodes d).size = (st.inodes d).size)
    (hloc : ∀ jj, dirEntryLoc st' d jj = dirEntryLoc st d jj)
    (hblocks : ∀ jj b o, dirEntryLoc st d jj = some (b, o) → st'.blocks b = st.blocks b) :
    directoryLookup st' d name = directoryLookup st d name := by
  rw [directoryLookup, directoryLookup]
  by_cases h0 : name.length = 0
  · rw [if_pos h0, if_pos h0]
  · rw [if_neg h0, if_neg h0]
    rw [show dirMaxEntries st' d = dirMaxEntries st d from by
      rw [dirMaxEntries, dirMaxEntries, hsz]]
    exact dirLookupLoop_congr st st' d name hloc hblocks (dirMaxEntries st d) 0

/-- The path walk of `tree_lookup` depends only on inode modes and, for
directories, on their sizes, block maps and block contents. -/
theorem treeWalk_congr (st st' : FS)
    (hmode : ∀ d : Nat, d < 128 → (st'.inodes d).mode = (st.inodes d).mode)
    (hdirs : ∀ d : Nat, d < 128 → modeIsDir (st.inodes d).mode = true →
      (st'.inodes d).size = (st.inodes d).size ∧
      (∀ jj, dirEntryLoc st' d jj = dirEntryLoc st d jj) ∧
      (∀ jj b o, dirEntryLoc st d jj = some (b, o) → st'.blocks b = st.blocks b)) :
    ∀ comps cur, treeWalk st' comps cur = treeWalk st comps cur := by
  intro comps
  induction comps with
  | nil => intro cur; rfl
  | cons comp rest ih =>
    intro cur
    rw [treeWalk, treeWalk]
    by_cases h0 : comp.length = 0
    · rw [if_pos h0, if_pos h0, ih]
    rw [if_neg h0, if_neg h0]
    by_cases hr : cur < 0 ∨ (INODE_COUNT : Int) ≤ cur
    · rw [if_pos hr, if_pos hr]
    rw [if_neg hr, if_neg hr]
    have hcur : cur.toNat < 128 := by
      simp only [INODE_COUNT] at hr
      omega
    by_cases hd : modeIsDir (st.inodes cur.toNat).mode = true
    · have hnd : ¬ (!modeIsDir (st.inodes cur.toNat).mode) = true := by
        rw [hd]
        simp
      have hnd' : ¬ (!modeIsDir (st'.inodes cur.toNat).mode) = true := by
        rw [hmode cur.toNat hcur, hd]
        simp
      rw [if_neg hnd', if_neg hnd]
      obtain ⟨hsz', hloc', hb'⟩ := hdirs cur.toNat hcur hd
      rw [directoryLookup_congr st st' cur.toNat comp hsz' hloc' hb']
      by_cases hn : directoryLookup st cur.toNat comp < 0
      · rw [if_pos hn, if_pos hn]
      · rw [if_neg hn, if_neg hn, ih]
    · rw [Bool.not_eq_true] at hd
      have hpd : (!modeIsDir (st.inodes cur.toNat).mode) = true := by
        rw [hd]
        rfl
      have hpd' : (!modeIsDir (st'.inodes cur.toNat).mode) = true := by
        rw [hmode cur.toNat hcur, hd]
        rfl
      rw [if_pos hpd', if_pos hpd]

/-- `tree_lookup` congruence. -/
theorem treeLookup_congr (st st' : FS)
    (hmode : ∀ d : Nat, d < 128 → (st'.inodes d).mode = (st.inodes d).mode)
    (hdirs : ∀ d : Nat, d < 128 → modeIsDir (st.inodes d).mode = true →
      (st'.inodes d).size = (st.inodes d).size ∧
      (∀ jj, dirEntryLoc st' d jj = dirEntryLoc st d jj) ∧
      (∀ jj b o, dirEntryLoc st d jj = some (b, o) → st'.blocks b = st.blocks b)) :
    ∀ path, treeLookup st' path = treeLookup st path := by
  intro path
  cases path with
  | nil => rfl
  | cons c rest =>
    rw [treeLookup, treeLookup]
    by_cases hc : c ≠ 47
    · rw [if_pos hc, if_pos hc]
    rw [if_neg hc, if_neg hc]
    by_cases hr : rest = []
    · rw [if_pos hr, if_pos hr]
    rw [if_neg hr, if_neg hr]
    exact treeWalk_congr st st' hmode hdirs (splitSlash rest) 0

/-- C1: for a fresh regular file as `storage_mknod` leaves it (resolvable
path, `size = block = indirect = 0`, non-directory mode) in a state whose
directory metadata lives in allocated blocks, a `storage_write` of `buf`
(of length `n ≤ 800000`) at offset 0 that returns `n` is followed by a
`storage_read` of `n` bytes at offset 0 returning `n` and exactly the
bytes of `buf`. -/
theorem c1_write_read_roundtrip (st : FS) (now now2 : Int) (path : List Nat)
    (buf : List Nat) (n : Nat) (inum : Int)
    (hL : treeLookup st path = inum) (h0 : 0 ≤ inum) (h1 : inum < 128)
    (hsz0 : (st.inodes inum.toNat).size = 0)
    (hbz : (st.inodes inum.toNat).block = 0)
    (hiz : (st.inodes inum.toNat).indirect = 0)
    (hreg : modeIsDir (st.inodes inum.toNat).mode = false)
    (hn : buf.length = n) (hbound : n ≤ 800000)
    (HW : ∀ d : Nat, d < 128 → modeIsDir (st.inodes d).mode = true →
      ((st.inodes d).indirect ≠ 0 → st.bbm (st.inodes d).indirect = true) ∧
      (∀ k : Int, 0 < inodeGetBnum st d k → st.bbm (inodeGetBnum st d k) = true))
    (hw : (storageWrite st now path buf n 0).snd = (n : Int)) :
    (storageRead (storageWrite st now path buf n 0).fst now2 path n 0).2.1 = (n : Int) ∧
    (storageRead (storageWrite st now path buf n 0).fst now2 path n 0).2.2 = buf := by
  have hNlt : ¬ inum < 0 := by omega
  have hNbig : ¬ (INODE_COUNT : Int) ≤ inum := by simp only [INODE_COUNT]; omega
  by_cases hn0 : n = 0
  · -- the empty write: nothing happens beyond an mtime update
    subst hn0
    have hbufnil : buf = [] := List.length_eq_zero.mp hn
    subst hbufnil
    have hwfst : (storageWrite st now path [] 0 0).fst =
        st.setInode inum.toNat { st.inodes inum.toNat with mtime := now } := by
      have hc : ¬ (st.inodes inum.toNat).size < 0 + (((0 : Nat) : Int)) := by
        rw [hsz0]
        omega
      simp only [storageWrite, hL, if_neg hNlt, if_neg hNbig, if_neg hc]
      rfl
    set st1 : FS := st.setInode inum.toNat { st.inodes inum.toNat with mtime := now }
      with hst1
    have hother1 : ∀ d : Nat, d ≠ inum.toNat → st1.inodes d = st.inodes d := by
      intro d hdi
      rw [hst1, setInode_inodes_other _ _ _ _ hdi]
    have hmode1 : ∀ d : Nat, d < 128 → (st1.inodes d).mode = (st.inodes d).mode := by
      intro d hd'
      by_cases hdi : d = inum.toNat
      · subst hdi
        rw [hst1, setInode_inodes_same]
      · rw [hother1 d hdi]
    have hdirs1 : ∀ d : Nat, d < 128 → modeIsDir (st.inodes d).mode = true →
        (st1.inodes d).size = (st.inodes d).size ∧
        (∀ jj, dirEntryLoc st1 d jj = dirEntryLoc st d jj) ∧
        (∀ jj b o, dirEntryLoc st d jj = some (b, o) → st1.blocks b = st.blocks b) := by
      intro d hd' hdir
      have hdi : d ≠ inum.toNat := by
        intro he
        rw [he, hreg] at hdir
        exact absurd hdir (by simp)
      have hrec := hother1 d hdi
      have hgb : ∀ k, inodeGetBnum st1 d k = inodeGetBnum st d k :=
        inodeGetBnum_congr st st1 d (by rw [hrec]) (by rw [hrec]) (fun _ => rfl)
      exact ⟨by rw [hrec], fun jj => by rw [dirEntryLoc, dirEntryLoc, hgb],
        fun jj b o _ => rfl⟩
    have hL1 : treeLookup st1 path = inum := by
      rw [treeLookup_congr st st1 hmode1 hdirs1 path]
      exact hL
    have hsz1 : (st1.inodes inum.toNat).size ≤ (0 : Int) := by
      rw [hst1, setInode_inodes_same]
      show (st.inodes inum.toNat).size ≤ 0
      rw [hsz0]
    have hread : storageRead st1 now2 path 0 0 = (st1, 0, []) := by
      simp only [storageRead, hL1, if_neg hNlt, if_neg hNbig, if_pos hsz1]
    rw [hwfst, hread]
    exact ⟨rfl, rfl⟩
  · -- a nonempty write
    have hpos : 1 ≤ n := by omega
    have hT0' : 0 ≤ bytesToBlocks (n : Int) := bytesToBlocks_nonneg _
    have hT1 : (1 : Int) ≤ bytesToBlocks (n : Int) := by
      rw [bytesToBlocks, if_neg (by omega)]
      omega
    have hT1024 := bytesToBlocks_le_1024 n hbound
    have hglt' : (st.inodes inum.toNat).size < (n : Int) := by
      rw [hsz0]
      omega
    have hgsnd : (growInode st now inum.toNat (n : Int)).snd = 0 := by
      rcases growInode_snd_cases st now inum.toNat (n : Int) with hneg | h0'
      · exfalso
        have hweq : (storageWrite st now path buf n 0).snd = -28 := by
          simp only [storageWrite, hL, if_neg hNlt, if_neg hNbig, zero_add,
            if_pos hglt',
            if_pos (show (growInode st now inum.toNat (n : Int)).snd < 0 by
              rw [hneg]; omega)]
        rw [hweq] at hw
        omega
      · exact h0'
    obtain ⟨s1, s2, s3, s4, s5, s6, s7, s8, s9, s10, s11⟩ :=
      growInode_fresh_spec st now inum.toNat (n : Int) hsz0 hbz hiz hT1024 hgsnd
    set g : FS := (growInode st now inum.toNat (n : Int)).fst with hg
    have hTn' : n ≤ 4096 * (bytesToBlocks (n : Int)).toNat := by
      have := bytesToBlocks_covers n
      omega
    have hBpos : ∀ k : Int, 0 ≤ k → k < (((bytesToBlocks (n : Int)).toNat : Nat) : Int) →
        0 < inodeGetBnum g inum.toNat k := by
      intro k hk1 hk2
      have h6 := (s6 k hk1 (by omega)).1
      omega
    have hBinj : ∀ k l : Int, 0 ≤ k → k < (((bytesToBlocks (n : Int)).toNat : Nat) : Int) →
        0 ≤ l → l < (((bytesToBlocks (n : Int)).toNat : Nat) : Int) → k ≠ l →
        inodeGetBnum g inum.toNat k ≠ inodeGetBnum g inum.toNat l := by
      intro k l hk1 hk2 hl1 hl2 hkl
      exact s7 k l hk1 (by omega) hl1 (by omega) hkl
    have hind0 : ∀ k : Int, 0 ≤ k → k < (((bytesToBlocks (n : Int)).toNat : Nat) : Int) →
        inodeGetBnum g inum.toNat k ≠ (g.inodes inum.toNat).indirect := by
      intro k hk1 hk2
      by_cases hT2 : 2 ≤ bytesToBlocks (n : Int)
      · exact (s8.2 hT2).2.2.2.2 k hk1 (by omega)
      · have hz := s8.1 (by omega)
        have h6 := (s6 k hk1 (by omega)).1
        rw [hz]
        omega
    have hzero0 : ∀ k : Int, ((0 : Nat) : Int) ≤ k →
        k < (((bytesToBlocks (n : Int)).toNat : Nat) : Int) →
        g.blocks (inodeGetBnum g inum.toNat k) = zeroBlock := by
      intro k hk1 hk2
      exact (s6 k (by omega) (by omega)).2.2.2.2
    obtain ⟨w1, w2, w3, w4, w5, w6⟩ := writeLoop_chunks inum.toNat buf n
      (bytesToBlocks (n : Int)).toNat (fun k => inodeGetBnum g inum.toNat k) hn hTn'
      hBpos hBinj n 0 g
      (by have := bytesToBlocks_le_self n hpos; omega) (by omega)
      (fun k _ _ => rfl) hind0 hzero0
    rw [Nat.mul_zero] at w1 w2 w3 w4 w5 w6
    set stW : FS := (writeLoop inum.toNat 0 buf n g 0 n).fst with hstW
    have hwfst : (storageWrite st now path buf n 0).fst =
        stW.setInode inum.toNat { stW.inodes inum.toNat with mtime := now } := by
      simp only [storageWrite, hL, if_neg hNlt, if_neg hNbig, zero_add, if_pos hglt',
        if_neg (show ¬ (growInode st now inum.toNat (n : Int)).snd < 0 by
          rw [hgsnd]; omega)]
    set st1 : FS := stW.setInode inum.toNat { stW.inodes inum.toNat with mtime := now }
      with hst1
    have hsize1 : (st1.inodes inum.toNat).size = (n : Int) := by
      rw [hst1, setInode_inodes_same]
      show (stW.inodes inum.toNat).size = (n : Int)
      rw [w2]
      exact s1
    have hfld1 : (st1.inodes inum.toNat).block = (g.inodes inum.toNat).block := by
      rw [hst1, setInode_inodes_same]
      show (stW.inodes inum.toNat).block = (g.inodes inum.toNat).block
      rw [w2]
    have hfld2 : (st1.inodes inum.toNat).indirect = (g.inodes inum.toNat).indirect := by
      rw [hst1, setInode_inodes_same]
      show (stW.inodes inum.toNat).indirect = (g.inodes inum.toNat).indirect
      rw [w2]
    have hother1 : ∀ d : Nat, d ≠ inum.toNat → st1.inodes d = st.inodes d := by
      intro d hdi
      rw [hst1, setInode_inodes_other _ _ _ _ hdi, w2, s4 d hdi]
    have hmode1 : ∀ d : Nat, d < 128 → (st1.inodes d).mode = (st.inodes d).mode := by
      intro d hd'
      by_cases hdi : d = inum.toNat
      · subst hdi
        rw [hst1, setInode_inodes_same]
        show (stW.inodes inum.toNat).mode = (st.inodes inum.toNat).mode
        rw [w2]
        exact s3
      · rw [hother1 d hdi]
    have hpres : ∀ b : Int, st.bbm b = true → st1.blocks b = st.blocks b := by
      intro b hbbm
      have h9 := s9 b hbbm
      have hWb : stW.blocks b = g.blocks b := by
        apply w5
        intro k hk1 hk2 hcontra
        have h6 := (s6 k (by omega) (by omega)).2.2.1
        rw [hcontra, h6] at hbbm
        exact absurd hbbm (by simp)
      rw [show st1.blocks = stW.blocks from rfl, hWb, h9.1]
    have hdirs1 : ∀ d : Nat, d < 128 → modeIsDir (st.inodes d).mode = true →
        (st1.inodes d).size = (st.inodes d).size ∧
        (∀ jj, dirEntryLoc st1 d jj = dirEntryLoc st d jj) ∧
        (∀ jj b o, dirEntryLoc st d jj = some (b, o) → st1.blocks b = st.blocks b) := by
      intro d hd' hdir
      have hdi : d ≠ inum.toNat := by
        intro he
        rw [he, hreg] at hdir
        exact absurd hdir (by simp)
      have hrec := hother1 d hdi
      have hgb : ∀ k, inodeGetBnum st1 d k = inodeGetBnum st d k := by
        apply inodeGetBnum_congr st st1 d (by rw [hrec]) (by rw [hrec])
        intro hind'
        exact hpres _ ((HW d hd' hdir).1 hind')
      refine ⟨by rw [hrec], fun jj => by rw [dirEntryLoc, dirEntryLoc, hgb], ?_⟩
      intro jj b o hloc
      obtain ⟨hbpos, hbeq⟩ := dirEntryLoc_inv st d jj b o hloc
      apply hpres
      rw [hbeq]
      exact (HW d hd' hdir).2 _ (by rw [← hbeq]; omega)
    have hL1 : treeLookup st1 path = inum := by
      rw [treeLookup_congr st st1 hmode1 hdirs1 path]
      exact hL
    have hgb1 : ∀ k, inodeGetBnum st1 inum.toNat k = inodeGetBnum g inum.toNat k := by
      apply inodeGetBnum_congr g st1 inum.toNat hfld1 hfld2
      intro hind'
      have hT2 : 2 ≤ bytesToBlocks (n : Int) := by
        by_contra hT2n
        exact hind' (s8.1 (by omega))
      obtain ⟨_, _, _, _, hibnb⟩ := s8.2 hT2
      show stW.blocks ((g.inodes inum.toNat).indirect) =
        g.blocks ((g.inodes inum.toNat).indirect)
      apply w5
      intro k' hk1' hk2'
      exact Ne.symm (hibnb k' (by omega) (by omega))
    have hdata1 : ∀ k : Int, 0 ≤ k →
        k < (((bytesToBlocks (n : Int)).toNat : Nat) : Int) → ∀ j : Nat, j < 4096 →
        st1.blocks (inodeGetBnum g inum.toNat k) j = buf.getD (4096 * k.toNat + j) 0 := by
      intro k hk1 hk2 j hj
      show stW.blocks (inodeGetBnum g inum.toNat k) j = buf.getD (4096 * k.toNat + j) 0
      exact w6 k (by omega) hk2 j hj
    have hrl := readLoop_chunks st1 inum.toNat buf n (bytesToBlocks (n : Int)).toNat
      (fun k => inodeGetBnum g inum.toNat k) hn hTn'
      (by intro k hk1 hk2; exact hBpos k hk1 hk2)
      (fun k _ _ => hgb1 k) hdata1 n 0 []
      (by have := bytesToBlocks_le_self n hpos; omega) (by omega)
    rw [Nat.mul_zero, List.drop_zero, List.nil_append] at hrl
    have hread : storageRead st1 now2 path n 0 =
        (st1.setInode inum.toNat { st1.inodes inum.toNat with atime := now2 },
          ((n : Nat) : Int), buf) := by
      simp only [storageRead, hL1, if_neg hNlt, if_neg hNbig,
        if_neg (show ¬ (st1.inodes inum.toNat).size ≤ (0 : Int) by rw [hsize1]; omega),
        zero_add,
        if_neg (show ¬ (st1.inodes inum.toNat).size < (n : Int) by rw [hsize1]; omega),
        hrl]
    rw [hwfst, hread]
    exact ⟨rfl, rfl⟩

/-- Witness for C1: on the concrete state `stFileC`, writing the two bytes
`[104, 105]` to the fresh file `"/b"` at offset 0 and reading two bytes
back returns 2 and exactly those bytes. -/
theorem c1_witness :
    (storageRead (storageWrite stFileC 0 [47, 98] [104, 105] 2 0).fst 0
        [47, 98] 2 0).2.1 = ((2 : Nat) : Int) ∧
    (storageRead (storageWrite stFileC 0 [47, 98] [104, 105] 2 0).fst 0
        [47, 98] 2 0).2.2 = [104, 105] := by
  apply c1_write_read_roundtrip stFileC 0 0 [47, 98] [104, 105] 2 1
    (by decide) (by decide) (by decide) (by decide) (by decide) (by decide)
    (by decide) (by decide) (by decide) ?HWc (by decide)
  case HWc =>
    intro d hd hdir
    match d with
    | 0 =>
      refine ⟨fun h => absurd (by decide : (stFileC.inodes 0).indirect = 0) h, ?_⟩
      intro k hk
      rw [inodeGetBnum_eq] at hk ⊢
      by_cases hk0 : k < 0
      · rw [if_pos hk0] at hk
        omega
      · rw [if_neg hk0] at hk ⊢
        by_cases hke : k = 0
        · rw [if_pos hke] at hk ⊢
          decide
        · rw [if_neg hke] at hk
          rw [if_pos (by decide : (stFileC.inodes 0).indirect = 0)] at hk
          omega
    | 1 => exact absurd hdir (by decide)
    | (m + 2) =>
      exfalso
      have hz : stFileC.inodes (m + 2) = zeroInode := by
        rw [stFileC, setBlock_inodes,
          setInode_inodes_other _ _ _ _ (by omega : m + 2 ≠ 1),
          setInode_inodes_other _ _ _ _ (by omega : m + 2 ≠ 0),
          setIbm_inodes, setIbm_inodes, setBbm_inodes, setBbm_inodes, setBbm_inodes]
        rfl
      rw [hz] at hdir
      exact absurd hdir (by decide)

end Nufs
